import Mathlib

/-!
Verification of the knor reactive-synthesis back-end (src/knor.cpp, src/aigmaker.cpp).

The C++ data structures and functions are shallowly embedded as executable Lean
definitions; machine integers become `Nat`/`Int`, the sylvan BDD/ZDD handles become
trees, and the stateful AIG construction becomes explicit state passing over an
`AigState` record.  Theorems about these definitions settle the specification claims.
-/

set_option maxHeartbeats 1000000

namespace Knor

/-! ## Generic association-list and sorted-set helpers

`std::map` / `std::unordered_map` lookups are modelled by `lookupA` on association
lists (insertion happens only at absent keys, so the cons-based update is faithful),
and the ascending iteration order of `std::set<uint64_t>` by `insertSorted`. -/

/-- Association-list lookup, modelling `std::map::find`. -/
def lookupA {α β : Type} [DecidableEq α] : List (α × β) → α → Option β
  | [], _ => none
  | (k, v) :: rest, a => if k = a then some v else lookupA rest a

/-- Insertion into a duplicate-free list, modelling insertion into a set
that is iterated in insertion order. -/
def insertU {α : Type} [DecidableEq α] (x : α) (xs : List α) : List α :=
  if x ∈ xs then xs else xs ++ [x]

/-- Sorted insertion without duplicates, modelling `std::set<uint64_t>`
(iteration in ascending order). -/
def insertSorted (x : Nat) : List Nat → List Nat
  | [] => [x]
  | y :: ys => if x < y then x :: y :: ys else if x = y then y :: ys else y :: insertSorted x ys

/-! ## Sylvan BDD handles with complement edges

A sylvan `MTBDD` Boolean handle is a node pointer plus a complement mark.  The single
terminal is `false`; `mtbdd_true` is its complemented handle.  Structural equality of
the trees stands in for pointer equality of the canonical node store. -/

/-- A BDD node: the `false` terminal or an internal node whose two children are
handles, each a complement mark (`lc`, `hc`) together with a child node. -/
inductive BddT where
  | term
  | node (v : Nat) (lc : Bool) (lo : BddT) (hc : Bool) (hi : BddT)
deriving DecidableEq, Repr

/-- A BDD handle: complement mark plus node, as in sylvan's complement-edge BDDs. -/
abbrev BddH := Bool × BddT

/-- Sylvan's `mtbdd_false`: the terminal with no complement mark. -/
def mtbdd_false : BddH := (false, BddT.term)

/-- Sylvan's `mtbdd_true`: the complemented terminal. -/
def mtbdd_true : BddH := (true, BddT.term)

/-- Complementing a handle (`bdd ^ sylvan_complement`). -/
def bneg (b : BddH) : BddH := (!b.1, b.2)

/-- Boolean function denoted by a BDD node under assignment `σ` of the BDD variables. -/
def evalT (σ : Nat → Bool) : BddT → Bool
  | BddT.term => false
  | BddT.node v lc lo hc hi =>
    if σ v then hc ^^ evalT σ hi else lc ^^ evalT σ lo

/-- Boolean function denoted by a BDD handle: the complement mark negates the node. -/
def evalH (σ : Nat → Bool) (b : BddH) : Bool := b.1 ^^ evalT σ b.2

/-! ## Sylvan ZDD covers

A ZDD cover is a set of products.  ZDD variable `2*v` stands for the positive literal
of BDD/AP variable `v` and `2*v+1` for the negative literal, exactly as read back by
`AIGmaker` (`var_to_lit[product[i]/2]`, negated when `product[i]&1`). -/

/-- A ZDD: terminals `bot` (`zdd_false`) / `top` (`zdd_true`) or an internal node. -/
inductive Zdd where
  | bot
  | top
  | node (v : Nat) (lo hi : Zdd)
deriving DecidableEq, Repr

/-- Truth value of the signed cover variable `w` under assignment `σ` of the AP/state
variables: variable `w/2`, negated when `w` is odd. -/
def zvarSem (σ : Nat → Bool) (w : Nat) : Bool :=
  if w % 2 = 1 then ! σ (w / 2) else σ (w / 2)

/-- Sum-of-products Boolean function denoted by a ZDD cover: a high branch adds the
signed literal of the node's variable to the product, the low branch omits it. -/
def covEval (σ : Nat → Bool) : Zdd → Bool
  | Zdd.bot => false
  | Zdd.top => true
  | Zdd.node w lo hi => (zvarSem σ w && covEval σ hi) || covEval σ lo

/-- All products of a ZDD cover, as lists of signed cover variables; this models the
`zdd_cover_enum_first` / `zdd_cover_enum_next` enumeration of the DD kernel
(each product is the sequence of high-edge variables along one path to `zdd_true`). -/
def zddProducts : Zdd → List (List Nat)
  | Zdd.bot => []
  | Zdd.top => [[]]
  | Zdd.node w lo hi => (zddProducts hi).map (fun p => w :: p) ++ zddProducts lo

/-- Check that no cover node has a `zdd_true` low child, i.e. the constant-true
product appears only as the whole cover. -/
def noTrueLow : Zdd → Bool
  | Zdd.bot => true
  | Zdd.top => true
  | Zdd.node _ lo hi => decide (lo ≠ Zdd.top) && noTrueLow lo && noTrueLow hi

/-! ## The AIG under construction (`AIGmaker`)

Literals are even for positive nodes, odd for negations; 0 is false and 1 true.
`lit` is the next free even literal, `gates` the emitted AND gates in order
(output, left, right), `cache` the gate-deduplication map and `mapping` /
`zmapping` the BDD-node and ZDD-node memo tables (the C++ class keys both in the
one member `mapping`, a map on raw 64-bit handles; the two key spaces are disjoint
and are split here by type).  The C++ cache key packs the normalised operand pair
`(rhs0, rhs1)` into a 64-bit integer `(rhs1 << 32) | rhs0`, which is injective for
the literal sizes the program can produce; the key is modelled as the pair itself. -/

structure AigState where
  lit : Nat
  gates : List (Nat × Nat × Nat)
  cache : List ((Nat × Nat) × Nat)
  mapping : List (BddT × Nat)
  zmapping : List (Zdd × Nat)
deriving DecidableEq, Repr

/-- Literal negation `aiger_not`: toggle the low bit (`(l) ^ 1` in aiger.h,
written arithmetically). -/
def aiger_not (l : Nat) : Nat := if l % 2 = 0 then l + 1 else l - 1

/-- THE translation of `AIGmaker::makeand`: normalise the operand order, short-circuit
the constants, then look the pair up in the cache and only emit a new gate on a miss. -/
def makeand (a : AigState) (x y : Nat) : AigState × Nat :=
  let rhs0 := if y < x then y else x
  let rhs1 := if y < x then x else y
  if rhs0 = 0 then (a, 0)
  else if rhs0 = 1 then (a, rhs1)
  else
    match lookupA a.cache (rhs0, rhs1) with
    | some l => (a, l)
    | none =>
      ({ a with
          lit := a.lit + 2,
          gates := a.gates ++ [(a.lit, rhs0, rhs1)],
          cache := ((rhs0, rhs1), a.lit) :: a.cache }, a.lit)

/-! ## Priority adjustment (`adjustPriority`, knor.cpp) -/

/-- Translation of `adjustPriority`: flip min-parity to max using
`evenMax = 2*((noPriorities+1)/2)` (C++ integer division), reserve priority 0 by
shifting `+2`, and subtract 1 when the controller plays odd. -/
def adjustPriority (p : Int) (maxPriority controllerIsOdd : Bool) (noPriorities : Int) : Int :=
  let p1 := if !maxPriority then (2 * ((noPriorities + 1) / 2)) - p else p
  let p2 := p1 + 2
  if controllerIsOdd then p2 - 1 else p2

/-- The formula claimed by the specification for `adjustPriority`, for comparison:
it flips a min-parity priority to `2·⌈(noPriorities+1)/2⌉ − p` (the ceiling written as
`(noPriorities+2)/2`), then adds 2, then subtracts 1 for an odd controller. -/
def adjustPrioritySpecC2 (p : Int) (maxPriority controllerIsOdd : Bool) (noPriorities : Int) : Int :=
  let p1 := if !maxPriority then (2 * ((noPriorities + 1 + 1) / 2)) - p else p
  let p2 := p1 + 2
  if controllerIsOdd then p2 - 1 else p2

/-! ## HOA label trees and the naive 3-valued evaluator -/

/-- A HOA label expression (`BTree`): Boolean constant, atomic proposition by id,
alias reference, and the Boolean connectives. -/
inductive BTree where
  | bool (b : Bool)
  | ap (id : Nat)
  | aliasRef (name : String)
  | and (l r : BTree)
  | or (l r : BTree)
  | not (l : BTree)
deriving DecidableEq, Repr

/-- A HOA alias binding (`Alias`): a name and the label expression it stands for. -/
structure HoaAlias where
  aname : String
  labelExpr : BTree
deriving DecidableEq, Repr

/-- The switch of `evalLabelNaive` over one label tree, with alias references
evaluated by the resolver `ev` (which carries the remaining alias-unfolding
fuel, see `evalLabelNaive`). -/
def evalLabelNaiveGo (ev : String → Int) (apIds : List Nat) (value : Nat) :
    BTree → Int
  | BTree.bool b => if b then 1 else -1
  | BTree.and l r =>
    let left := evalLabelNaiveGo ev apIds value l
    let right := evalLabelNaiveGo ev apIds value r
    if left = -1 || right = -1 then -1
    else if left = 0 || right = 0 then 0
    else 1
  | BTree.or l r =>
    let left := evalLabelNaiveGo ev apIds value l
    let right := evalLabelNaiveGo ev apIds value r
    if left = 1 || right = 1 then 1
    else if left = 0 || right = 0 then 0
    else -1
  | BTree.not l => -1 * evalLabelNaiveGo ev apIds value l
  | BTree.ap i =>
    match apIds.findIdx? (fun a => a = i) with
    | some idx => if ((1 <<< idx) &&& value) = (1 <<< idx) then 1 else -1
    | none => 0
  | BTree.aliasRef n => ev n

/-- Translation of `evalLabelNaive`: 3-valued label evaluation returning `1` (true),
`-1` (false), `0` (unknown AP) or `-2` (unresolved alias / malformed input).  The C++
function recurses through alias bodies without a bound; `fuel` bounds that alias
unfolding (and only it), returning the error value `-2` on exhaustion. -/
def evalLabelNaive (fuel : Nat) (label : BTree) (aliases : List HoaAlias)
    (apIds : List Nat) (value : Nat) : Int :=
  match fuel with
  | 0 => evalLabelNaiveGo (fun _ => -2) apIds value label
  | fuel + 1 =>
    evalLabelNaiveGo
      (fun n =>
        match aliases.find? (fun a => a.aname = n) with
        | some a => evalLabelNaive fuel a.labelExpr aliases apIds value
        | none => -2)
      apIds value label

/-- The switch of the reference two-valued label semantics over one label tree,
aliases through the resolver `ev`. -/
def labelSemGo (ev : String → Option Bool) (apIds : List Nat) (value : Nat) :
    BTree → Option Bool
  | BTree.bool b => some b
  | BTree.and l r => do
    let x ← labelSemGo ev apIds value l
    let y ← labelSemGo ev apIds value r
    some (x && y)
  | BTree.or l r => do
    let x ← labelSemGo ev apIds value l
    let y ← labelSemGo ev apIds value r
    some (x || y)
  | BTree.not l => do
    let x ← labelSemGo ev apIds value l
    some (!x)
  | BTree.ap i =>
    match apIds.findIdx? (fun a => a = i) with
    | some idx => some (((1 <<< idx) &&& value) = (1 <<< idx))
    | none => none
  | BTree.aliasRef n => ev n

/-- Reference two-valued semantics of a label under the valuation encoded bitwise in
`value` over the listed `apIds`; `none` when an AP is missing from `apIds` or an
alias does not resolve (within the same alias-unfolding bound as `evalLabelNaive`). -/
def labelSem (fuel : Nat) (label : BTree) (aliases : List HoaAlias)
    (apIds : List Nat) (value : Nat) : Option Bool :=
  match fuel with
  | 0 => labelSemGo (fun _ => none) apIds value label
  | fuel + 1 =>
    labelSemGo
      (fun n =>
        match aliases.find? (fun a => a.aname = n) with
        | some a => labelSem fuel a.labelExpr aliases apIds value
        | none => none)
      apIds value label

/-- The switch of the alias-resolvability check over one label tree. -/
def aliasesResolveGo (ev : String → Bool) : BTree → Bool
  | BTree.bool _ => true
  | BTree.ap _ => true
  | BTree.and l r => aliasesResolveGo ev l && aliasesResolveGo ev r
  | BTree.or l r => aliasesResolveGo ev l && aliasesResolveGo ev r
  | BTree.not l => aliasesResolveGo ev l
  | BTree.aliasRef n => ev n

/-- Check that every alias encountered in a label resolves (within the alias bound). -/
def aliasesResolve (fuel : Nat) (label : BTree) (aliases : List HoaAlias) : Bool :=
  match fuel with
  | 0 => aliasesResolveGo (fun _ => false) label
  | fuel + 1 =>
    aliasesResolveGo
      (fun n =>
        match aliases.find? (fun a => a.aname = n) with
        | some a => aliasesResolve fuel a.labelExpr aliases
        | none => false)
      label

/-! ## The best-of selection of `main_task` (knor.cpp, `--best`)

The six encoded variants ({Shannon, ISOP, one-hot} before and after bisimulation
minimisation of the solution, each already put through the optional `--drewrite` /
`--compress` passes) enter the selection only through their AND-gate counts, so
they are abstracted by those counts here. -/

/-- Translation of the `smallest` computation: sequential `std::min` over the six
AND-gate counts in program order. -/
def bestSmallest (n1 n2 n3 n1b n2b n3b : Nat) : Nat :=
  min (min (min (min (min n1 n2) n3) n1b) n2b) n3b

/-- Translation of the write chain in `--best` mode: the first variant whose AND
count equals `smallest` is written; `none` when no branch fires (the final
`else if` of the chain also tests its count). -/
def bestWritten (n1 n2 n3 n1b n2b n3b : Nat) : Option Nat :=
  let smallest := bestSmallest n1 n2 n3 n1b n2b n3b
  if n1 = smallest then some n1
  else if n2 = smallest then some n2
  else if n3 = smallest then some n3
  else if n1b = smallest then some n1b
  else if n2b = smallest then some n2b
  else if n3b = smallest then some n3b
  else none

/-! ## Control-flow skeleton of `main_task` (knor.cpp)

The pipeline phases are recorded in execution order; parsing, game solving and
the encoders themselves are abstracted (the game's solvability enters as the
`realizable` argument).  The returned integer is the process exit code (`exit`
or `return` value of `main_task`). -/

/-- The observable pipeline phases of `main_task`. -/
inductive Phase where
  | parseInput
  | constructNaiveGame
  | constructExplicitGame
  | constructSymGame
  | bisimGame
  | solveGame
  | errNaiveExplicitAig
  | postprocess
  | bisimSol
  | encodeCircuit
  | writeCircuit
deriving DecidableEq, Repr

/-- The command-line flags read by the modelled part of `main_task`. -/
structure CliOpts where
  sym : Bool
  naive : Bool
  explicitSplit : Bool
  real : Bool
  bisim : Bool
  bisimGameFlag : Bool
  bisimSolFlag : Bool
  best : Bool
  noSolve : Bool
  printGame : Bool
  printKiss : Bool
  printWitness : Bool
  writeAscii : Bool
  writeBinary : Bool
deriving DecidableEq, Repr

/-- Translation of the phase ordering and exit codes of `main_task`: construction
(naive / explicit / symbolic with optional game bisimulation), the `--print-game`
and `--no-solve` early exits, solving, the `--real` exits (10/20), and in the
realizable branch the `--naive`/`--explicit` incompatibility error (which exits 10
after printing to stderr), postprocessing, best-of or the normal encode/write path;
unrealizable runs return 20. -/
def main_task (o : CliOpts) (realizable : Bool) : List Phase × Int :=
  let explicit_solver := !o.sym
  let bisim_game := o.bisim || o.bisimGameFlag
  let bisim_sol := o.bisim || o.bisimSolFlag
  let t1 : List Phase :=
    if explicit_solver then
      if o.naive then [Phase.parseInput, Phase.constructNaiveGame]
      else if o.explicitSplit then [Phase.parseInput, Phase.constructExplicitGame]
      else [Phase.parseInput, Phase.constructSymGame] ++
        (if bisim_game then [Phase.bisimGame] else [])
    else
      [Phase.parseInput, Phase.constructSymGame] ++
        (if bisim_game then [Phase.bisimGame] else [])
  if o.printGame then (t1, 0)
  else if o.noSolve then (t1, 0)
  else
    let t2 := t1 ++ [Phase.solveGame]
    if o.real then (t2, if realizable then 10 else 20)
    else if realizable then
      if o.naive || o.explicitSplit then (t2 ++ [Phase.errNaiveExplicitAig], 10)
      else
        let t3 := t2 ++ [Phase.postprocess]
        if o.best then
          (t3 ++ [Phase.encodeCircuit, Phase.bisimSol, Phase.encodeCircuit] ++
            (if o.writeBinary || o.writeAscii then [Phase.writeCircuit] else []), 10)
        else
          let t4 := t3 ++ (if bisim_sol then [Phase.bisimSol] else [])
          if o.printKiss then (t4, 10)
          else if o.printWitness then (t4, 10)
          else
            let t5 := t4 ++ [Phase.encodeCircuit]
            (t5 ++ (if o.writeBinary || o.writeAscii then [Phase.writeCircuit] else []), 10)
    else (t2, 20)

/-! ## Semantics of the AIG under construction

The value of a literal is read off a valuation `m` of the even literals; emitted
gates override `m` at their output literal in emission order.  Gate outputs are
allocated above every primary-input and latch literal (all below `inputBound`),
so the environment `env` fixes the inputs and `evalGates` extends it. -/

/-- Value of an even literal: literal 0 is the constant false, other even literals
read the valuation. -/
def evenVal (m : Nat → Bool) (l : Nat) : Bool := if l = 0 then false else m l

/-- Value of any literal: odd literals negate their even counterpart. -/
def litVal (m : Nat → Bool) (l : Nat) : Bool :=
  if l % 2 = 0 then evenVal m l else ! evenVal m (l - 1)

/-- Extend the valuation `m` with one AND gate `(out, left, right)`. -/
def applyGate (m : Nat → Bool) (g : Nat × Nat × Nat) : Nat → Bool :=
  fun x => if x = g.1 then litVal m g.2.1 && litVal m g.2.2 else m x

/-- Valuation of all even literals after emitting the gates in order over the
input environment `env`. -/
def evalGates (env : Nat → Bool) (gs : List (Nat × Nat × Nat)) : Nat → Bool :=
  gs.foldl applyGate env

/-- Boolean function of the AIG literal `l` over the gate list `gs` and the input
environment `env`. -/
def litSem (env : Nat → Bool) (gs : List (Nat × Nat × Nat)) (l : Nat) : Bool :=
  litVal (evalGates env gs) l

/-- Well-formed gate list: outputs are even, in `[lo, hi)`, strictly grow by 2,
and each gate only reads literals strictly below its output (and above the
constants). -/
def gatesOK : Nat → List (Nat × Nat × Nat) → Nat → Prop
  | lo, [], hi => lo ≤ hi
  | lo, (o, r0, r1) :: gs, hi =>
    lo ≤ o ∧ o % 2 = 0 ∧ 2 ≤ r0 ∧ 2 ≤ r1 ∧ r0 < o ∧ r1 < o ∧ gatesOK (o + 2) gs hi

/-- Well-formedness of the `var_to_lit` map: every BDD variable is sent to an even
primary-input or latch literal below the first gate literal `ib`. -/
def VmapOK (ib : Nat) (vmap : Nat → Nat) : Prop :=
  ∀ v, vmap v % 2 = 0 ∧ 2 ≤ vmap v ∧ vmap v < ib

/-- Reading the AIG inputs through the `var_to_lit` map: the assignment of BDD
variable `v` is the value of the input literal `vmap v`. -/
def vmapEnv (vmap : Nat → Nat) (env : Nat → Bool) : Nat → Bool :=
  fun v => env (vmap v)

/-- State invariant of the `AIGmaker` conversion: the literal counter is even and
at or above the first gate literal `ib`, the gate list is well formed, every cache
entry points at an emitted gate with its normalised pair as key, and the two memo
tables map DD nodes to literals denoting exactly their positive-polarity Boolean
functions (reading BDD/cover variables through `vmap`). -/
structure AigInv (ib : Nat) (vmap : Nat → Nat) (a : AigState) : Prop where
  ib_even : ib % 2 = 0
  ib_ge : 2 ≤ ib
  lit_even : a.lit % 2 = 0
  lit_ge : ib ≤ a.lit
  gates_ok : gatesOK ib a.gates a.lit
  cache_ok : ∀ k l, (k, l) ∈ a.cache → (l, k.1, k.2) ∈ a.gates
  map_ok : ∀ t r, (t, r) ∈ a.mapping → r < a.lit ∧
    ∀ env : Nat → Bool, litSem env a.gates r = evalT (vmapEnv vmap env) t
  zmap_ok : ∀ c r, (c, r) ∈ a.zmapping → r < a.lit ∧
    ∀ env : Nat → Bool, litSem env a.gates r = covEval (vmapEnv vmap env) c

/-! ## Shannon-expansion BDD-to-AIG conversion (`AIGmaker::bdd_to_aig`) -/

/-- Worker of `AIGmaker::bdd_to_aig` on an unpacked handle (mark `comp`, node):
a terminal yields the constant of its polarity (sylvan's `mtbdd_true` /
`mtbdd_false` checks of the source), the memo table is keyed on the underlying
node and caches the positive-polarity literal, and the node cases follow the
Shannon expansion of the source; `comp` toggles the returned polarity at the end. -/
def bdd_to_aigGo (vmap : Nat → Nat) : AigState → Bool → BddT → AigState × Nat
  | a, comp, BddT.term => (a, if comp then 1 else 0)
  | a, comp, BddT.node v lc lo hc hi =>
    let t := BddT.node v lc lo hc hi
    match lookupA a.mapping t with
    | some l => (a, if comp then aiger_not l else l)
    | none =>
      let the_lit := vmap v
      let r : AigState × Nat :=
        if (lc, lo) = mtbdd_false then
          if (hc, hi) = mtbdd_true then (a, the_lit)
          else
            let x := bdd_to_aigGo vmap a hc hi
            makeand x.1 the_lit x.2
        else if (hc, hi) = mtbdd_false then
          if (lc, lo) = mtbdd_true then (a, aiger_not the_lit)
          else
            let x := bdd_to_aigGo vmap a lc lo
            makeand x.1 (aiger_not the_lit) x.2
        else
          let xl := bdd_to_aigGo vmap a lc lo
          let xh := bdd_to_aigGo vmap xl.1 hc hi
          let g1 := makeand xh.1 (aiger_not the_lit) xl.2
          let g2 := makeand g1.1 the_lit xh.2
          let g3 := makeand g2.1 (aiger_not g1.2) (aiger_not g2.2)
          (g3.1, aiger_not g3.2)
      ({ r.1 with mapping := (t, r.2) :: r.1.mapping },
        if comp then aiger_not r.2 else r.2)

/-- Translation of `AIGmaker::bdd_to_aig` on a handle: strip the complement mark
into the worker. -/
def bdd_to_aig (vmap : Nat → Nat) (a : AigState) (b : BddH) : AigState × Nat :=
  bdd_to_aigGo vmap a b.1 b.2

/-! ## ZDD-cover-to-AIG conversions (`AIGmaker::bdd_to_aig_cover`,
`AIGmaker::bdd_to_aig_cover_sop`) -/

/-- Signed cover variable to AIG literal: `var_to_lit[w/2]`, negated when `w` is odd. -/
def coverLit (vmap : Nat → Nat) (w : Nat) : Nat :=
  if w % 2 = 1 then aiger_not (vmap (w / 2)) else vmap (w / 2)

/-- Translation of `AIGmaker::bdd_to_aig_cover`: recursive descent over the cover,
memoised per ZDD node, computing `(lit ∧ T(high)) ∨ T(low)` with the two
short-circuits of the source (`high = zdd_true`, `low = zdd_false`). -/
def bdd_to_aig_cover (vmap : Nat → Nat) (a : AigState) (cover : Zdd) : AigState × Nat :=
  match cover with
  | Zdd.top => (a, 1)
  | Zdd.bot => (a, 0)
  | Zdd.node w lo hi =>
    match lookupA a.zmapping (Zdd.node w lo hi) with
    | some l => (a, l)
    | none =>
      let the_lit := coverLit vmap w
      let s1 : AigState × Nat :=
        if hi ≠ Zdd.top then
          let x := bdd_to_aig_cover vmap a hi
          makeand x.1 the_lit x.2
        else (a, the_lit)
      let s2 : AigState × Nat :=
        if lo ≠ Zdd.bot then
          let x := bdd_to_aig_cover vmap s1.1 lo
          let g := makeand x.1 (aiger_not s1.2) (aiger_not x.2)
          (g.1, aiger_not g.2)
        else s1
      ({ s2.1 with zmapping := (Zdd.node w lo hi, s2.2) :: s2.1.zmapping }, s2.2)

/-- Fuelled worker of the queue-based AND reduction; each round shortens the
queue by one, so any fuel at least the queue length is exact (`qreduceAnd`
supplies it). -/
def qreduceAndGo : Nat → AigState → List Nat → AigState × Option Nat
  | _, a, [] => (a, none)
  | _, a, [x] => (a, some x)
  | 0, a, x :: _ => (a, some x)
  | fuel + 1, a, x :: y :: rest =>
    let g := makeand a x y
    qreduceAndGo fuel g.1 (rest ++ [g.2])

/-- The queue-based AND reduction of `bdd_to_aig_cover_sop`'s inner loop: pop two
literals from the front, AND them, push the gate at the back; a singleton is the
final product, an empty queue produces nothing. -/
def qreduceAnd (a : AigState) (l : List Nat) : AigState × Option Nat :=
  qreduceAndGo l.length a l

/-- Fuelled worker of the queue-based OR reduction. -/
def qreduceOrGo : Nat → AigState → List Nat → AigState × Nat
  | _, a, [] => (a, 0)
  | _, a, [x] => (a, x)
  | 0, a, x :: _ => (a, x)
  | fuel + 1, a, x :: y :: rest =>
    let g := makeand a (aiger_not x) (aiger_not y)
    qreduceOrGo fuel g.1 (rest ++ [aiger_not g.2])

/-- The queue-based OR reduction of `bdd_to_aig_cover_sop`'s outer loop, via
De Morgan; an empty queue falls through to `aiger_false`. -/
def qreduceOr (a : AigState) (l : List Nat) : AigState × Nat :=
  qreduceOrGo l.length a l

/-- Translation of `AIGmaker::bdd_to_aig_cover_sop`, the per-product step:
AND the product's signed literals with the queue reduction. -/
def sopStep (vmap : Nat → Nat) (acc : AigState × List Nat)
    (product : List Nat) : AigState × List Nat :=
  match qreduceAnd acc.1 (product.map (coverLit vmap)) with
  | (a', none) => (a', acc.2)
  | (a', some p) => (a', acc.2 ++ [p])

/-- Translation of the enumeration loop body of `bdd_to_aig_cover_sop`, one
product at a time, collecting the product literals (an empty product contributes
nothing, as in the source where the inner while loop never pushes). -/
def bdd_to_aig_cover_sop (vmap : Nat → Nat) (a : AigState) (cover : Zdd) :
    AigState × Nat :=
  if cover = Zdd.top then (a, 1)
  else if cover = Zdd.bot then (a, 0)
  else
    let s := (zddProducts cover).foldl (sopStep vmap) (a, [])
    qreduceOr s.1 s.2

/-! ## Plain Boolean BDDs (no complement edges)

Used for the label BDDs of `constructGame` and for the ISOP computation of the DD
kernel.  The smart constructor `mkB` applies the standard reduction rule; the
apply-style operations recurse on the top variables. -/

/-- A plain BDD: terminals `f` / `t` or an internal node. -/
inductive B where
  | f
  | t
  | nd (v : Nat) (lo hi : B)
deriving DecidableEq, Repr

/-- Reducing node constructor: collapse a node with equal children. -/
def mkB (v : Nat) (lo hi : B) : B := if lo = hi then lo else B.nd v lo hi

/-- Boolean function denoted by a plain BDD. -/
def evalB (σ : Nat → Bool) : B → Bool
  | B.f => false
  | B.t => true
  | B.nd v lo hi => if σ v then evalB σ hi else evalB σ lo

/-- Negation of a plain BDD (`sylvan_not`). -/
def bnot : B → B
  | B.f => B.t
  | B.t => B.f
  | B.nd v lo hi => B.nd v (bnot lo) (bnot hi)

/-- Worker of `band` against a fixed left node `nd v1 lo1 hi1`, whose cofactor
conjunctions are the closures `bl` / `bh`; recursion on the right operand covers
the `v1 > v2` case of the top-variable comparison. -/
def bandAux (bl bh : B → B) (v1 : Nat) (lo1 hi1 : B) : B → B
  | B.f => B.f
  | B.t => B.nd v1 lo1 hi1
  | B.nd v2 lo2 hi2 =>
    if v1 = v2 then mkB v1 (bl lo2) (bh hi2)
    else if v1 < v2 then
      mkB v1 (bl (B.nd v2 lo2 hi2)) (bh (B.nd v2 lo2 hi2))
    else
      mkB v2 (bandAux bl bh v1 lo1 hi1 lo2) (bandAux bl bh v1 lo1 hi1 hi2)

/-- Conjunction of plain BDDs (`sylvan_and`), recursing on the top variables. -/
def band : B → B → B
  | B.f, _ => B.f
  | B.t, y => y
  | B.nd v1 lo1 hi1, y => bandAux (band lo1) (band hi1) v1 lo1 hi1 y

/-- Worker of `bor` against a fixed left node, dual to `bandAux`. -/
def borAux (bl bh : B → B) (v1 : Nat) (lo1 hi1 : B) : B → B
  | B.t => B.t
  | B.f => B.nd v1 lo1 hi1
  | B.nd v2 lo2 hi2 =>
    if v1 = v2 then mkB v1 (bl lo2) (bh hi2)
    else if v1 < v2 then
      mkB v1 (bl (B.nd v2 lo2 hi2)) (bh (B.nd v2 lo2 hi2))
    else
      mkB v2 (borAux bl bh v1 lo1 hi1 lo2) (borAux bl bh v1 lo1 hi1 hi2)

/-- Disjunction of plain BDDs (`sylvan_or`), recursing on the top variables. -/
def bor : B → B → B
  | B.t, _ => B.t
  | B.f, y => y
  | B.nd v1 lo1 hi1, y => borAux (bor lo1) (bor hi1) v1 lo1 hi1 y

/-! ## HOA automaton data (`HoaData`) -/

/-- A HOA transition: optional label, acceptance sets, successor states.  The
source asserts exactly one successor and reads `successors[0]` / `accSig[0]`. -/
structure HoaTrans where
  label : Option BTree
  accSig : List Nat
  successors : List Nat
deriving DecidableEq, Repr

/-- A HOA state: its id, optional state-level label and acceptance signature
(`accSig == nullptr` is `none`), and its transitions. -/
structure HoaState where
  id : Nat
  label : Option BTree
  accSig : Option (List Nat)
  transitions : List HoaTrans
deriving DecidableEq, Repr

/-- The parsed HOA automaton as consumed by the game constructions. -/
structure HoaData where
  states : List HoaState
  aliases : List HoaAlias
  noAPs : Nat
  cntAPs : List Nat
  noAccSets : Nat
deriving DecidableEq, Repr

/-- The uncontrollable atomic propositions in ascending order (`ucntAPs` in the
source: all APs not marked controllable). -/
def ucntAPs (d : HoaData) : List Nat :=
  (List.range d.noAPs).filter (fun i => ¬ d.cntAPs.contains i)

/-- Number of uncontrollable APs (`uap_count = noAPs - controllable.count()`). -/
def uapCount (d : HoaData) : Nat := (ucntAPs d).length

/-- The controllable atomic propositions in ascending order. -/
def cntList (d : HoaData) : List Nat :=
  (List.range d.noAPs).filter (fun i => d.cntAPs.contains i)

/-- The label used for a transition: the state label when present, else the
transition label (the source asserts one of the two exists). -/
def transLabel (st : HoaState) (tr : HoaTrans) : BTree :=
  match st.label with
  | some l => l
  | none => tr.label.getD (BTree.bool false)

/-- The BDD variable allocated to AP `i` in `constructGame`: uncontrollable APs
get the indices `0..uap_count-1` in ascending AP order, controllable APs the
following indices (the `uidx`/`oidx` counters of the source). -/
def gameVariables (d : HoaData) (i : Nat) : Nat :=
  if d.cntAPs.contains i then uapCount d + (cntList d).findIdx (fun j => j = i)
  else (ucntAPs d).findIdx (fun j => j = i)

/-- The switch of `evalLabel` over one label tree, aliases through the resolver
`ev`. -/
def evalLabelGo (ev : String → B) (vars : Nat → Nat) : BTree → B
  | BTree.bool b => if b then B.t else B.f
  | BTree.and l r => band (evalLabelGo ev vars l) (evalLabelGo ev vars r)
  | BTree.or l r => bor (evalLabelGo ev vars l) (evalLabelGo ev vars r)
  | BTree.not l => bnot (evalLabelGo ev vars l)
  | BTree.ap i => B.nd (vars i) B.f B.t
  | BTree.aliasRef n => ev n

/-- Translation of `evalLabel` (knor.cpp): build the label BDD over the allocated
AP variables; aliases are resolved by name (bounded by `fuel`, with sylvan's
`mtbdd_invalid` on failure modelled as the false BDD). -/
def evalLabel (fuel : Nat) (label : BTree) (aliases : List HoaAlias)
    (vars : Nat → Nat) : B :=
  match fuel with
  | 0 => evalLabelGo (fun _ => B.f) vars label
  | fuel + 1 =>
    evalLabelGo
      (fun n =>
        match aliases.find? (fun a => a.aname = n) with
        | some a => evalLabel fuel a.labelExpr aliases vars
        | none => B.f)
      vars label

/-! ## Parity-game vertices

A vertex as created by `pg::Game::init_vertex(vertex, priority, owner, label)`;
the `kind` field records the creation site of the vertex in the construction
(state vertex, intermediate valuation/branch vertex, interposed priority vertex),
which in the source is implicit in the program point performing the call. -/

/-- Kind tag for the three `init_vertex` call sites of the game constructions. -/
inductive VKind where
  | stateV
  | interV
  | finV
deriving DecidableEq, Repr

/-- A parity-game vertex: priority, owner (0 = controller, 1 = environment),
successor list and creation-site kind. -/
structure PGVertex where
  priority : Int
  owner : Nat
  edges : List Nat
  kind : VKind
deriving DecidableEq, Repr

/-! ## Naive game construction (`constructGameNaive`, knor.cpp) -/

/-- The body of the transition loop of `constructGameNaive` for one valuation:
skip the transition when the 3-valued evaluation returns `-1`; otherwise, when the
state carries no acceptance signature, interpose a fresh priority vertex (owner 0)
forwarding to the successor, else connect the successor directly.  The accumulator
carries (new vertices, `succ_inter`, next fresh index). -/
def naiveTransStep (d : HoaData) (isMaxParity controllerIsOdd : Bool) (fuel : Nat)
    (st : HoaState) (value : Nat)
    (acc : List (Nat × PGVertex) × List Nat × Nat) (tr : HoaTrans) :
    List (Nat × PGVertex) × List Nat × Nat :=
  let evald := evalLabelNaive fuel (transLabel st tr) d.aliases (ucntAPs d) value
  if evald = -1 then acc
  else
    match st.accSig with
    | none =>
      let priority := adjustPriority (tr.accSig.headD 0 : Nat) isMaxParity
        controllerIsOdd (d.noAccSets : Nat)
      (acc.1 ++ [(acc.2.2, ⟨priority, 0, [tr.successors.headD 0], VKind.finV⟩)],
        acc.2.1 ++ [acc.2.2], acc.2.2 + 1)
    | some _ =>
      (acc.1, acc.2.1 ++ [tr.successors.headD 0], acc.2.2)

/-- One valuation of the uncontrollable APs in `constructGameNaive`: process all
transitions, then create the intermediate vertex `vinter` with priority 0 and
owner 0 whose successors are the collected `succ_inter`.  Returns the new
vertices, the next fresh index, and the index of `vinter`. -/
def naiveValuation (d : HoaData) (isMaxParity controllerIsOdd : Bool) (fuel : Nat)
    (st : HoaState) (value : Nat) (next : Nat) :
    List (Nat × PGVertex) × Nat × Nat :=
  let s := st.transitions.foldl
    (naiveTransStep d isMaxParity controllerIsOdd fuel st value) ([], [], next)
  (s.1 ++ [(s.2.2, ⟨0, 0, s.2.1, VKind.interV⟩)], s.2.2 + 1, s.2.2)

/-- One state of `constructGameNaive`: loop over all `2^uap_count` valuations,
then create the state vertex (owner 1) with the state's adjusted priority (0 when
it has no acceptance signature) and edges to all intermediate vertices. -/
def naiveState (d : HoaData) (isMaxParity controllerIsOdd : Bool) (fuel : Nat)
    (st : HoaState) (next : Nat) : List (Nat × PGVertex) × Nat :=
  let go := fun (acc : List (Nat × PGVertex) × List Nat × Nat) (value : Nat) =>
    let r := naiveValuation d isMaxParity controllerIsOdd fuel st value acc.2.2
    (acc.1 ++ r.1, acc.2.1 ++ [r.2.2], r.2.1)
  let s := (List.range (2 ^ uapCount d)).foldl go ([], [], next)
  let prio : Int :=
    match st.accSig with
    | some sig => adjustPriority (sig.headD 0 : Nat) isMaxParity controllerIsOdd
        (d.noAccSets : Nat)
    | none => 0
  (s.1 ++ [(st.id, ⟨prio, 1, s.2.1, VKind.stateV⟩)], s.2.2)

/-- Translation of `constructGameNaive`: fold over the states, with fresh vertex
indices starting at the number of states; the result is the association list of
all created vertices. -/
def constructGameNaive (d : HoaData) (isMaxParity controllerIsOdd : Bool)
    (fuel : Nat) : List (Nat × PGVertex) :=
  let go := fun (acc : List (Nat × PGVertex) × Nat) (st : HoaState) =>
    let r := naiveState d isMaxParity controllerIsOdd fuel st acc.2
    (acc.1 ++ r.1, r.2)
  (d.states.foldl go ([], d.states.length)).1

/-! ## MTBDDs with integer leaves (`constructGame`) -/

/-- An MTBDD over Boolean variables with 64-bit integer leaves: the `mtbdd_false`
terminal, an `mtbdd_int64` leaf, or an internal node. -/
inductive Mtb where
  | bot
  | leaf (val : Nat)
  | node (v : Nat) (lo hi : Mtb)
deriving DecidableEq, Repr

/-- Reducing MTBDD node constructor. -/
def mkM (v : Nat) (lo hi : Mtb) : Mtb := if lo = hi then lo else Mtb.node v lo hi

/-- Worker of `mtbdd_ite` against a fixed guard node with top variable `gv` and
cofactor closures `fl` / `fh`; recursion on the else-branch covers the case of an
else node above the guard's variable. -/
def mtbdd_iteAux (fl fh : Mtb → Mtb) (gv : Nat) : Mtb → Mtb
  | Mtb.node ev elo ehi =>
    if gv = ev then mkM gv (fl elo) (fh ehi)
    else if gv < ev then
      mkM gv (fl (Mtb.node ev elo ehi)) (fh (Mtb.node ev elo ehi))
    else
      mkM ev (mtbdd_iteAux fl fh gv elo) (mtbdd_iteAux fl fh gv ehi)
  | Mtb.bot => mkM gv (fl Mtb.bot) (fh Mtb.bot)
  | Mtb.leaf x => mkM gv (fl (Mtb.leaf x)) (fh (Mtb.leaf x))

/-- Modelled from the spec: the DD kernel's `mtbdd_ite` as used by `constructGame`,
where the then-branch is always a terminal leaf; Shannon recursion on the top
variables of the guard BDD and the else-branch MTBDD. -/
def mtbdd_ite : B → Mtb → Mtb → Mtb
  | B.t, th, _ => th
  | B.f, _, el => el
  | B.nd gv glo ghi, th, el =>
    mtbdd_iteAux (fun e => mtbdd_ite glo th e) (fun e => mtbdd_ite ghi th e) gv el

/-- Modelled from the spec: `BDDTools::collectSubroots(trans, firstcap)` collects
(each once, in discovery order) the maximal sub-DDs of `trans` whose top level is
at or beyond the first controllable-AP variable, descending through the
uncontrollable levels; `mtbdd_false` branches are skipped. -/
def collectSubrootsGo (firstcap : Nat) : Mtb → List Mtb → List Mtb
  | Mtb.node v lo hi, acc =>
    if v < firstcap then
      collectSubrootsGo firstcap hi (collectSubrootsGo firstcap lo acc)
    else insertU (Mtb.node v lo hi) acc
  | Mtb.bot, acc => acc
  | Mtb.leaf x, acc => insertU (Mtb.leaf x) acc

/-- Modelled from the spec: wrapper of `collectSubrootsGo` starting from an empty
accumulator. -/
def collectSubroots (firstcap : Nat) (t : Mtb) : List Mtb :=
  collectSubrootsGo firstcap t []

/-- One variable of a cube BDD: positive or negative branch to `rest`. -/
def cubeBit (var : Nat) (b : Bool) (rest : B) : B :=
  if b then B.nd var B.f rest else B.nd var rest B.f

/-- Cube over variables `base..base+bits-1` encoding the low `bits` bits of
`value` (variable `base + i` carries bit `i`), continuing with `rest`. -/
def encodeBits (base : Nat) (bits : Nat) (value : Nat) (rest : B) : B :=
  match bits with
  | 0 => rest
  | b + 1 => encodeBits base b (value >>> 1) (cubeBit (base + b) (value % 2 = 1) rest)

/-- Modelled from the spec: `SymGame::encode_priostate` re-encodes a decoded leaf
`(priority, state)` as a cube in which the first `priobits` BDD variables encode
the priority and the next `statebits` variables the target state. -/
def encode_priostate (state priority statebits priobits : Nat) : B :=
  encodeBits 0 priobits priority (encodeBits priobits statebits state B.t)

/-- Translation of `collect_targets` (knor.cpp): walk the MTBDD below a subroot,
insert every leaf value into the target set (ascending, like `std::set`), and
return the disjunction of the re-encoded `(priority, state)` cubes.  Sylvan's
`mtbdd_false` terminal reads back as the integer leaf 0 through `mtbdd_getint64`. -/
def collect_targets (statebits priobits : Nat) :
    Mtb → List Nat → List Nat × B
  | Mtb.leaf lval, res =>
    (insertSorted lval res,
      encode_priostate (lval % 2 ^ 32) (lval / 2 ^ 32) statebits priobits)
  | Mtb.bot, res =>
    (insertSorted 0 res, encode_priostate 0 0 statebits priobits)
  | Mtb.node _ lo hi, res =>
    let l := collect_targets statebits priobits lo res
    let r := collect_targets statebits priobits hi l.1
    (r.1, bor l.2 r.2)

/-- The accumulator of the state loop of `constructGame`: created vertices, next
fresh index, the per-state `inter_vertices` and per-subroot `target_vertices`
deduplication maps, and the `succ_inter` / `succ_state` successor queues. -/
structure CGAcc where
  verts : List (Nat × PGVertex)
  next : Nat
  inter_vertices : List (B × Nat)
  target_vertices : List (Nat × Nat)
  succ_inter : List Nat
  succ_state : List Nat
deriving DecidableEq, Repr

/-- One target leaf value inside a subroot of `constructGame`: decode
`(priority, target)`; a non-zero priority allocates (or reuses, via
`target_vertices`) an interposed priority vertex with owner 0 and a single edge
to the target, a zero priority links the target directly. -/
def cgTargetStep (acc : CGAcc) (lval : Nat) : CGAcc :=
  let priority : Nat := lval / 2 ^ 32
  let target : Nat := lval % 2 ^ 32
  if priority ≠ 0 then
    match lookupA acc.target_vertices lval with
    | none =>
      let vfin := acc.next
      { acc with
          verts := acc.verts ++ [(vfin, ⟨(priority : Int), 0, [target], VKind.finV⟩)],
          next := vfin + 1,
          target_vertices := (lval, vfin) :: acc.target_vertices,
          succ_inter := acc.succ_inter ++ [vfin] }
    | some vfin => { acc with succ_inter := acc.succ_inter ++ [vfin] }
  else { acc with succ_inter := acc.succ_inter ++ [target] }

/-- One subroot (environment branch) of `constructGame`: collect the target set
and its re-encoded BDD; a fresh target BDD allocates the priority vertices and an
intermediate vertex (priority 0, owner 0) with edges to them, a previously seen
target BDD reuses its intermediate vertex.  The target set and `target_vertices`
are cleared afterwards. -/
def cgSubroot (statebits priobits : Nat) (acc : CGAcc) (inter_bdd : Mtb) : CGAcc :=
  let ct := collect_targets statebits priobits inter_bdd []
  match lookupA acc.inter_vertices ct.2 with
  | none =>
    let acc1 := ct.1.foldl cgTargetStep acc
    let vinter := acc1.next
    { acc1 with
        verts := acc1.verts ++ [(vinter, ⟨0, 0, acc1.succ_inter, VKind.interV⟩)],
        next := vinter + 1,
        inter_vertices := (ct.2, vinter) :: acc1.inter_vertices,
        target_vertices := [],
        succ_inter := [],
        succ_state := acc.succ_state ++ [vinter] }
  | some vinter =>
    { acc with target_vertices := [], succ_state := acc.succ_state ++ [vinter] }

/-- One state of `constructGame`: build the transition MTBDD (labels through
`evalLabel`, leaves packing `(priority << 32) | successor`, with the transition's
adjusted priority only when the state carries no acceptance signature), collect
its subroots at the first controllable variable, process them, then create the
state vertex (owner 1) with the state's adjusted priority (0 when `noAccSig` is
0) and edges to all intermediate vertices. -/
def cgState (d : HoaData) (isMaxParity controllerIsOdd : Bool) (fuel : Nat)
    (statebits priobits : Nat) (acc : List (Nat × PGVertex) × Nat)
    (st : HoaState) : List (Nat × PGVertex) × Nat :=
  let trans_bdd := st.transitions.foldl
    (fun tb tr =>
      let priority : Int :=
        match st.accSig with
        | none => adjustPriority (tr.accSig.headD 0 : Nat) isMaxParity
            controllerIsOdd (d.noAccSets : Nat)
        | some _ => 0
      let lv := (priority.toNat <<< 32) ||| tr.successors.headD 0
      mtbdd_ite (evalLabel fuel (transLabel st tr) d.aliases (gameVariables d))
        (Mtb.leaf lv) tb)
    Mtb.bot
  let inter_bdds := collectSubroots (uapCount d) trans_bdd
  let acc1 := inter_bdds.foldl (cgSubroot statebits priobits)
    { verts := acc.1, next := acc.2, inter_vertices := [], target_vertices := [],
      succ_inter := [], succ_state := [] }
  let prio : Int :=
    if (st.accSig.getD []).length ≠ 0 then
      adjustPriority ((st.accSig.getD []).headD 0 : Nat) isMaxParity
        controllerIsOdd (d.noAccSets : Nat)
    else 0
  (acc1.verts ++ [(st.id, ⟨prio, 1, acc1.succ_state, VKind.stateV⟩)], acc1.next)

/-- Number of state bits: smallest `s ≥ 1` with `2^s > noStates` (the source's
`while ((1ULL << statebits) <= noStates) statebits++;` loop starting at 1). -/
def statebitsOf (noStates : Nat) : Nat := Nat.log2 noStates + 1

/-- Translation of `constructGame` (the explicit-split construction): fold over
the states with fresh indices starting at the number of states. -/
def constructGame (d : HoaData) (isMaxParity controllerIsOdd : Bool)
    (fuel : Nat) : List (Nat × PGVertex) :=
  let statebits := statebitsOf d.states.length
  let evenMax := 2 + 2 * ((d.noAccSets + 1) / 2)
  let priobits := Nat.log2 evenMax + 1
  (d.states.foldl (cgState d isMaxParity controllerIsOdd fuel statebits priobits)
    ([], d.states.length)).1

/-! ## ISOP computation of the DD kernel (`zdd_isop`, `zdd_cover_to_bdd`)

`AIGmaker` asserts that `zdd_isop(f, f)` returns `f` as its BDD result and that
`zdd_cover_to_bdd` maps the computed cover back to `f`.  The kernel implements
the classic Minato ISOP recursion, modelled here on the plain BDDs with cofactor
recursion bounded by the number of remaining variable levels. -/

/-- Top variable of a plain BDD, when any. -/
def topv : B → Option Nat
  | B.nd v _ _ => some v
  | _ => none

/-- Negative cofactor at variable `v` (for BDDs whose variables are all `≥ v`). -/
def cof0 (v : Nat) : B → B
  | B.nd w lo hi => if w = v then lo else B.nd w lo hi
  | x => x

/-- Positive cofactor at variable `v` (for BDDs whose variables are all `≥ v`). -/
def cof1 (v : Nat) : B → B
  | B.nd w lo hi => if w = v then hi else B.nd w lo hi
  | x => x

/-- Zero-suppressed node constructor: a node whose high branch is empty is the
low branch. -/
def mkZ (w : Nat) (lo hi : Zdd) : Zdd := if hi = Zdd.bot then lo else Zdd.node w lo hi

/-- Modelled from the spec: the DD kernel's `zdd_isop(L, U)` (Minato's algorithm),
returning the irredundant sum-of-products cover as a ZDD together with the BDD of
the function the cover denotes (the kernel's `bddres`).  `fuel` bounds the
recursion depth; any bound at least the number of variable levels is exact. -/
def isop (fuel : Nat) (L U : B) : Zdd × B :=
  if L = B.f then (Zdd.bot, B.f)
  else if U = B.t then (Zdd.top, B.t)
  else
    match fuel with
    | 0 => (Zdd.bot, B.f)
    | fuel + 1 =>
      let v :=
        match topv L, topv U with
        | some a, some b => min a b
        | some a, none => a
        | none, some b => b
        | none, none => 0
      let L0 := cof0 v L
      let L1 := cof1 v L
      let U0 := cof0 v U
      let U1 := cof1 v U
      let r1 := isop fuel (band L1 (bnot U0)) U1
      let r0 := isop fuel (band L0 (bnot U1)) U0
      let Lnew := bor (band L0 (bnot r0.2)) (band L1 (bnot r1.2))
      let Unew := band U0 U1
      let rd := isop fuel Lnew Unew
      (mkZ (2 * v) (mkZ (2 * v + 1) rd.1 r0.1) r1.1,
        bor (mkB v (bor r0.2 rd.2) (bor r1.2 rd.2)) B.f)

/-- BDD of one signed cover variable: `w = 2v` is variable `v`, `w = 2v+1` its
negation. -/
def litB (w : Nat) : B :=
  if w % 2 = 1 then B.nd (w / 2) B.t B.f else B.nd (w / 2) B.f B.t

/-- Modelled from the spec: the DD kernel's `zdd_cover_to_bdd`, the characteristic
BDD of the sum-of-products function denoted by a cover. -/
def zdd_cover_to_bdd : Zdd → B
  | Zdd.bot => B.f
  | Zdd.top => B.t
  | Zdd.node w lo hi =>
    bor (band (litB w) (zdd_cover_to_bdd hi)) (zdd_cover_to_bdd lo)

/-- Ordered BDD predicate: all variables are `≥ n` and strictly increase downward. -/
def OrdB (n : Nat) : B → Prop
  | B.f => True
  | B.t => True
  | B.nd v lo hi => n ≤ v ∧ OrdB (v + 1) lo ∧ OrdB (v + 1) hi

/-- Reduced BDD predicate: no node has equal children. -/
def RedB : B → Prop
  | B.f => True
  | B.t => True
  | B.nd _ lo hi => lo ≠ hi ∧ RedB lo ∧ RedB hi

/-- All variables of a plain BDD are `< n`. -/
def varsLt (n : Nat) : B → Prop
  | B.f => True
  | B.t => True
  | B.nd v lo hi => v < n ∧ varsLt n lo ∧ varsLt n hi

/-- Pointwise update of an assignment. -/
def updF (σ : Nat → Bool) (v : Nat) (b : Bool) : Nat → Bool :=
  fun w => if w = v then b else σ w

/-- Height of a plain BDD, bounding the inductions on pairs of BDDs. -/
def heightB : B → Nat
  | B.f => 0
  | B.t => 0
  | B.nd _ lo hi => max (heightB lo) (heightB hi) + 1

/-! ## Auxiliary predicates used by the claim statements -/

/-- The normalised operand pair of an emitted AND gate. -/
def gatePair (g : Nat × Nat × Nat) : Nat × Nat := (g.2.1, g.2.2)

/-- Structural-uniqueness invariant of `makeand`: no two gates share a normalised
pair, operands are normalised (`rhs0 ≤ rhs1`), and every gate's pair is a cache key. -/
def MakeandInv (s : AigState) : Prop :=
  (s.gates.map gatePair).Nodup ∧
  ∀ g ∈ s.gates, g.2.1 ≤ g.2.2 ∧ (g.2.1, g.2.2) ∈ s.cache.map Prod.fst

/-- Run a sequence of `makeand` calls, keeping only the state. -/
def runMakeand (s : AigState) (calls : List (Nat × Nat)) : AigState :=
  calls.foldl (fun a c => (makeand a c.1 c.2).1) s

/-- A fresh `AIGmaker` state right after literal allocation: the next literal is
`ib` (2 plus two per input and latch) and all tables are empty. -/
def aigInit (ib : Nat) : AigState := ⟨ib, [], [], [], []⟩

/-- The sublist of a transition list enabled under a valuation: those whose
3-valued label evaluation does not return false (`evald == -1` is skipped in the
source). -/
def enabledOf (d : HoaData) (fuel : Nat) (st : HoaState) (value : Nat)
    (ts : List HoaTrans) : List HoaTrans :=
  ts.filter (fun tr =>
    decide (¬ evalLabelNaive fuel (transLabel st tr) d.aliases (ucntAPs d) value = -1))

/-- The transitions of a state enabled under a valuation. -/
def enabledTrans (d : HoaData) (fuel : Nat) (st : HoaState) (value : Nat) :
    List HoaTrans :=
  enabledOf d fuel st value st.transitions

/-- A two-state example automaton over one uncontrollable atomic proposition:
state 0 carries a state-level acceptance signature, state 1 puts the acceptance
signature on its transition. -/
def exA : HoaData :=
  ⟨[⟨0, none, some [1], [⟨some (BTree.ap 0), [0], [1]⟩]⟩,
    ⟨1, none, none, [⟨some (BTree.bool true), [1], [0]⟩]⟩],
   [], 1, [], 2⟩

/-- The first state of `exA` (acceptance signature at state level). -/
def exStSome : HoaState := ⟨0, none, some [1], [⟨some (BTree.ap 0), [0], [1]⟩]⟩

/-- The second state of `exA` (acceptance signature at transition level). -/
def exStNone : HoaState := ⟨1, none, none, [⟨some (BTree.bool true), [1], [0]⟩]⟩

/-- Well-formed acceptance data: every state- or transition-level acceptance-set
index read by the constructions lies in `[0, noAccSets]`. -/
def WFAccSig (d : HoaData) : Prop :=
  ∀ st ∈ d.states,
    (∀ sig, st.accSig = some sig → ((sig.headD 0 : Nat) : Int) ≤ (d.noAccSets : Int)) ∧
    (∀ tr ∈ st.transitions, ((tr.accSig.headD 0 : Nat) : Int) ≤ (d.noAccSets : Int))

/-- The state `b` extends the state `a`: the invariant holds, the literal counter
grew, and only well-formed gates were appended. -/
def ExtendsState (ib : Nat) (vmap : Nat → Nat) (a b : AigState) : Prop :=
  AigInv ib vmap b ∧ a.lit ≤ b.lit ∧
  ∃ tail, b.gates = a.gates ++ tail ∧ gatesOK a.lit tail b.lit

/-- The pair `r` (new state, literal) extends the state `a`: the invariant holds,
the literal counter grew, only well-formed gates were appended, and the returned
literal denotes the Boolean function `f` of the input environment. -/
def Extends (ib : Nat) (vmap : Nat → Nat) (a : AigState) (r : AigState × Nat)
    (f : (Nat → Bool) → Bool) : Prop :=
  AigInv ib vmap r.1 ∧ a.lit ≤ r.1.lit ∧ r.2 < r.1.lit ∧
  (∃ tail, r.1.gates = a.gates ++ tail ∧ gatesOK a.lit tail r.1.lit) ∧
  (∀ env, litSem env r.1.gates r.2 = f env)

/-! # Theorems -/

/-- C2 (counterexample): at priority 0, min-parity, even controller and
`noPriorities = 2`, the code computes `2*((2+1)/2) - 0 + 2 = 4` while the claim's
formula `2*⌈(2+1)/2⌉ - 0 + 2 = 6` differs, refuting the claimed description. -/
theorem C2_counterexample :
    adjustPriority 0 false false 2 = 4 ∧ adjustPrioritySpecC2 0 false false 2 = 6 ∧
    adjustPriority 0 false false 2 ≠ adjustPrioritySpecC2 0 false false 2 := by
  refine ⟨by decide, by decide, by decide⟩

/-- C2 (amended): `adjustPriority` flips a min-parity priority with the floor form
`2·⌊(noPriorities+1)/2⌋ − p` (noPriorities rounded up to even), then adds 2, then
subtracts 1 when the controller is odd; for an automaton with priorities {0,1,2}
(three acceptance sets), min parity and odd controller the adjusted priorities are
{4,3,2}+2−1 = {5,4,3}. -/
theorem C2_adjustPriority_amended (p k : Int) (maxP ctrlOdd : Bool) :
    adjustPriority p maxP ctrlOdd k =
      (if maxP then p else 2 * ((k + 1) / 2) - p) + 2 -
        (if ctrlOdd then 1 else 0) ∧
    ([0, 1, 2] : List Int).map (fun q => adjustPriority q false true 3) = [5, 4, 3] := by
  constructor
  · cases maxP <;> cases ctrlOdd <;> simp [adjustPriority]
  · decide

/-- C8: in `--best` mode the variant written to stdout is the first whose AND-gate
count equals `smallest`, and its count is exactly the minimum of the six variants'
AND-gate counts. -/
theorem C8_best_min (n1 n2 n3 n1b n2b n3b : Nat) :
    bestWritten n1 n2 n3 n1b n2b n3b = some (bestSmallest n1 n2 n3 n1b n2b n3b) := by
  simp only [bestWritten]
  split_ifs with h1 h2 h3 h4 h5 h6
  · exact congrArg some h1
  · exact congrArg some h2
  · exact congrArg some h3
  · exact congrArg some h4
  · exact congrArg some h5
  · exact congrArg some h6
  · exfalso
    unfold bestSmallest at h1 h2 h3 h4 h5 h6
    omega

/-- C9 (counterexample): with `--naive -a` on a realizable input, `main_task`
parses, constructs the naive game and solves it before detecting the
incompatibility, and then exits with code 10 (the realizable code), contradicting
the claimed startup-time rejection with an exit code other than 10 and 20. -/
theorem C9_counterexample :
    main_task
      ⟨false, true, false, false, false, false, false, false, false, false,
        false, false, true, false⟩ true =
      ([Phase.parseInput, Phase.constructNaiveGame, Phase.solveGame,
        Phase.errNaiveExplicitAig], 10) := by
  decide

/-- C10 (counterexample): on the label `NOT (ALIAS "x")` with no aliases defined,
`evalLabelNaive` returns `-1 * -2 = 2`, which is outside the claimed value range
{-2,-1,0,1}. -/
theorem C10_counterexample :
    evalLabelNaive 5 (BTree.not (BTree.aliasRef "x")) [] [] 0 = 2 ∧
    evalLabelNaive 5 (BTree.not (BTree.aliasRef "x")) [] [] 0 ∉
      ([-2, -1, 0, 1] : List Int) := by
  refine ⟨by decide, by decide⟩

/-- On a label whose aliases all resolve (per the resolver check `evb`), the
3-valued evaluation only produces -1, 0 or 1. -/
theorem evalLabelNaiveGo_range (evI : String → Int) (evb : String → Bool)
    (apIds : List Nat) (value : Nat)
    (h : ∀ n, evb n = true → evI n = -1 ∨ evI n = 0 ∨ evI n = 1) :
    ∀ l, aliasesResolveGo evb l = true →
      evalLabelNaiveGo evI apIds value l = -1 ∨
      evalLabelNaiveGo evI apIds value l = 0 ∨
      evalLabelNaiveGo evI apIds value l = 1 := by
  intro l
  induction l with
  | bool b => intro _; cases b <;> simp [evalLabelNaiveGo]
  | ap i =>
    intro _
    simp only [evalLabelNaiveGo]
    cases apIds.findIdx? (fun a => a = i) with
    | none => simp
    | some idx =>
      dsimp only
      split_ifs <;> simp
  | aliasRef n =>
    intro hr
    simp only [aliasesResolveGo] at hr
    exact h n hr
  | and l r ihl ihr =>
    intro hr
    simp only [aliasesResolveGo, Bool.and_eq_true] at hr
    simp only [evalLabelNaiveGo]
    split_ifs <;> simp
  | or l r ihl ihr =>
    intro hr
    simp only [evalLabelNaiveGo]
    split_ifs <;> simp
  | not l ihl =>
    intro hr
    simp only [aliasesResolveGo] at hr
    rcases ihl hr with h1 | h1 | h1 <;>
      simp only [evalLabelNaiveGo, h1] <;> decide

/-- Lift of `evalLabelNaiveGo_range` through the alias-unfolding fuel. -/
theorem evalLabelNaive_range (fuel : Nat) :
    ∀ (label : BTree) (aliases : List HoaAlias) (apIds : List Nat) (value : Nat),
      aliasesResolve fuel label aliases = true →
      evalLabelNaive fuel label aliases apIds value = -1 ∨
      evalLabelNaive fuel label aliases apIds value = 0 ∨
      evalLabelNaive fuel label aliases apIds value = 1 := by
  induction fuel with
  | zero =>
    intro label aliases apIds value hr
    exact evalLabelNaiveGo_range _ _ apIds value (fun n hn => by cases hn) label hr
  | succ fuel ih =>
    intro label aliases apIds value hr
    refine evalLabelNaiveGo_range _ _ apIds value ?_ label hr
    intro n hn
    simp only at hn
    cases hfind : aliases.find? (fun a => a.aname = n) with
    | none => rw [hfind] at hn; cases hn
    | some a =>
      rw [hfind] at hn
      simpa [hfind] using ih a.labelExpr aliases apIds value hn

/-- When the two-valued semantics of a label is defined, the 3-valued evaluation
agrees with it (`1` for true, `-1` for false). -/
theorem evalLabelNaiveGo_sem (evI : String → Int) (evS : String → Option Bool)
    (apIds : List Nat) (value : Nat)
    (h : ∀ n b, evS n = some b → evI n = if b then 1 else -1) :
    ∀ l b, labelSemGo evS apIds value l = some b →
      evalLabelNaiveGo evI apIds value l = if b then 1 else -1 := by
  intro l
  induction l with
  | bool c => intro b hb; simp only [labelSemGo, Option.some_inj] at hb; subst hb; rfl
  | ap i =>
    intro b hb
    simp only [labelSemGo] at hb
    simp only [evalLabelNaiveGo]
    cases hidx : apIds.findIdx? (fun a => a = i) with
    | none => rw [hidx] at hb; cases hb
    | some idx =>
      rw [hidx] at hb
      simp only [Option.some_inj] at hb
      subst hb
      dsimp only
      by_cases hP : ((1 <<< idx) &&& value) = (1 <<< idx) <;> simp [hP]
  | aliasRef n => intro b hb; exact h n b hb
  | and l r ihl ihr =>
    intro b hb
    simp only [labelSemGo, Option.bind_eq_bind] at hb
    cases hx : labelSemGo evS apIds value l with
    | none => rw [hx] at hb; cases hb
    | some x =>
      cases hy : labelSemGo evS apIds value r with
      | none => rw [hx, hy] at hb; cases hb
      | some y =>
        rw [hx, hy] at hb
        simp only [Option.some_bind, Option.some_inj] at hb
        subst hb
        have el := ihl x hx
        have er := ihr y hy
        cases x <;> cases y <;> simp only [evalLabelNaiveGo, el, er] <;> decide
  | or l r ihl ihr =>
    intro b hb
    simp only [labelSemGo, Option.bind_eq_bind] at hb
    cases hx : labelSemGo evS apIds value l with
    | none => rw [hx] at hb; cases hb
    | some x =>
      cases hy : labelSemGo evS apIds value r with
      | none => rw [hx, hy] at hb; cases hb
      | some y =>
        rw [hx, hy] at hb
        simp only [Option.some_bind, Option.some_inj] at hb
        subst hb
        have el := ihl x hx
        have er := ihr y hy
        cases x <;> cases y <;> simp only [evalLabelNaiveGo, el, er] <;> decide
  | not l ihl =>
    intro b hb
    simp only [labelSemGo, Option.bind_eq_bind] at hb
    cases hx : labelSemGo evS apIds value l with
    | none => rw [hx] at hb; cases hb
    | some x =>
      rw [hx] at hb
      simp only [Option.some_bind, Option.some_inj] at hb
      subst hb
      have el := ihl x hx
      cases x <;> simp only [evalLabelNaiveGo, el] <;> decide

/-- Lift of `evalLabelNaiveGo_sem` through the alias-unfolding fuel. -/
theorem evalLabelNaive_sem (fuel : Nat) :
    ∀ (label : BTree) (aliases : List HoaAlias) (apIds : List Nat) (value : Nat)
      (b : Bool), labelSem fuel label aliases apIds value = some b →
      evalLabelNaive fuel label aliases apIds value = if b then 1 else -1 := by
  induction fuel with
  | zero =>
    intro label aliases apIds value b hb
    exact evalLabelNaiveGo_sem _ _ apIds value (fun n c hn => by cases hn) label b hb
  | succ fuel ih =>
    intro label aliases apIds value b hb
    refine evalLabelNaiveGo_sem _ _ apIds value ?_ label b hb
    intro n c hn
    simp only at hn ⊢
    cases hfind : aliases.find? (fun a => a.aname = n) with
    | none => rw [hfind] at hn; cases hn
    | some a =>
      rw [hfind] at hn
      exact ih a.labelExpr aliases apIds value c hn

/-- C10 (amended): `evalLabelNaive` returns only values in {-1, 0, 1} on labels
whose aliases all resolve (in general an unresolved alias yields -2, which `NOT`
turns into 2); it satisfies `evalLabelNaive (NOT φ) = -evalLabelNaive φ`; and on
every label with a defined two-valued semantics over the given `apIds` it returns
1 exactly when the label is true and -1 exactly when it is false, never 0. -/
theorem C10_evalLabelNaive_amended :
    (∀ (fuel : Nat) (label : BTree) (aliases : List HoaAlias) (apIds : List Nat)
      (value : Nat), aliasesResolve fuel label aliases = true →
      evalLabelNaive fuel label aliases apIds value = -1 ∨
      evalLabelNaive fuel label aliases apIds value = 0 ∨
      evalLabelNaive fuel label aliases apIds value = 1) ∧
    (∀ (fuel : Nat) (label : BTree) (aliases : List HoaAlias) (apIds : List Nat)
      (value : Nat),
      evalLabelNaive fuel (BTree.not label) aliases apIds value =
        - evalLabelNaive fuel label aliases apIds value) ∧
    (∀ (fuel : Nat) (label : BTree) (aliases : List HoaAlias) (apIds : List Nat)
      (value : Nat) (b : Bool),
      labelSem fuel label aliases apIds value = some b →
      evalLabelNaive fuel label aliases apIds value = if b then 1 else -1) := by
  refine ⟨fun fuel => evalLabelNaive_range fuel, ?_, fun fuel => evalLabelNaive_sem fuel⟩
  intro fuel label aliases apIds value
  cases fuel <;> simp [evalLabelNaive, evalLabelNaiveGo]

/-- C10 (witness): the amended theorem applied on the label `ap 0 ∧ true` with
`apIds = [0]` and valuation 1, whose semantics is defined and true. -/
theorem C10_witness :
    evalLabelNaive 3 (BTree.and (BTree.ap 0) (BTree.bool true)) [] [0] 1 = 1 := by
  have h := C10_evalLabelNaive_amended.2.2 3
    (BTree.and (BTree.ap 0) (BTree.bool true)) [] [0] 1 true (by decide)
  simpa using h

/-- C9 (amended): combining `--naive` or `--explicit` with circuit generation is
only detected after the game has been constructed and solved: on a realizable
input the run then stops with the incompatibility error as its final action and
exit code 10, never reaching encoding or writing; on an unrealizable input no
error is raised at all and the exit code is 20. -/
theorem C9_naive_explicit_amended (o : CliOpts)
    (h : o.naive = true ∨ o.explicitSplit = true)
    (hpg : o.printGame = false) (hns : o.noSolve = false)
    (hreal : o.real = false) :
    (main_task o true).2 = 10 ∧
    (main_task o true).1.getLast? = some Phase.errNaiveExplicitAig ∧
    Phase.solveGame ∈ (main_task o true).1 ∧
    Phase.encodeCircuit ∉ (main_task o true).1 ∧
    Phase.writeCircuit ∉ (main_task o true).1 ∧
    (main_task o false).2 = 20 ∧
    Phase.errNaiveExplicitAig ∉ (main_task o false).1 := by
  have hne : (o.naive || o.explicitSplit) = true := by
    rcases h with h | h <;> simp [h]
  by_cases hs : o.sym <;> by_cases hn : o.naive <;> by_cases he : o.explicitSplit <;>
    by_cases hb : o.bisim <;> by_cases hbg : o.bisimGameFlag <;>
      simp_all [main_task]

/-- C9 (witness): the amended theorem applied to `--naive -a` flags. -/
theorem C9_witness :
    (main_task
      ⟨false, true, false, false, false, false, false, false, false, false,
        false, false, true, false⟩ false).2 = 20 :=
  (C9_naive_explicit_amended
    ⟨false, true, false, false, false, false, false, false, false, false,
      false, false, true, false⟩ (Or.inl rfl) rfl rfl rfl).2.2.2.2.2.1

/-- Failed association-list lookup means the key is absent. -/
theorem lookupA_eq_none_iff {α β : Type} [DecidableEq α] (l : List (α × β)) (a : α) :
    lookupA l a = none ↔ a ∉ l.map Prod.fst := by
  induction l with
  | nil => simp [lookupA]
  | cons p rest ih =>
    obtain ⟨k, v⟩ := p
    simp only [lookupA, List.map_cons, List.mem_cons]
    by_cases hk : k = a
    · subst hk
      simp
    · rw [if_neg hk, ih]
      constructor
      · intro hna hmem
        rcases hmem with h1 | h1
        · exact hk h1.symm
        · exact hna h1
      · intro hn h1
        exact hn (Or.inr h1)

/-- Successful association-list lookup yields a member. -/
theorem lookupA_mem {α β : Type} [DecidableEq α] {a : α} {b : β} :
    ∀ {l : List (α × β)}, lookupA l a = some b → (a, b) ∈ l := by
  intro l
  induction l with
  | nil => intro h; cases h
  | cons p rest ih =>
    obtain ⟨k, v⟩ := p
    intro h
    simp only [lookupA] at h
    split at h
    · rename_i hk
      injection h with h2
      subst h2
      subst hk
      exact List.mem_cons_self _ _
    · exact List.mem_cons_of_mem _ (ih h)

/-- `makeand` preserves the structural-uniqueness invariant. -/
theorem makeand_inv (s : AigState) (x y : Nat) (h : MakeandInv s) :
    MakeandInv (makeand s x y).1 := by
  obtain ⟨hnd, hmem⟩ := h
  simp only [makeand]
  set r0 := if y < x then y else x with hr0
  set r1 := if y < x then x else y with hr1
  have hle : r0 ≤ r1 := by
    rw [hr0, hr1]; split_ifs with hxy <;> omega
  split_ifs with h0 h1
  · exact ⟨hnd, hmem⟩
  · exact ⟨hnd, hmem⟩
  · cases hl : lookupA s.cache (r0, r1) with
    | some l => exact ⟨hnd, hmem⟩
    | none =>
      refine ⟨?_, ?_⟩
      · rw [List.map_append]
        rw [List.nodup_append]
        refine ⟨hnd, by simp, ?_⟩
        intro p hp hp'
        simp only [List.map_cons, List.map_nil, List.mem_singleton] at hp'
        subst hp'
        simp only [List.mem_map] at hp
        obtain ⟨g, hg, hgp⟩ := hp
        have h2 := (hmem g hg).2
        have hpair : (g.2.1, g.2.2) = (r0, r1) := by
          simpa [gatePair] using hgp
        rw [hpair] at h2
        rw [lookupA_eq_none_iff] at hl
        exact hl h2
      · intro g hg
        rw [List.mem_append] at hg
        rcases hg with hg | hg
        · obtain ⟨hgle, hgmem⟩ := hmem g hg
          exact ⟨hgle, by simp [hgmem]⟩
        · simp only [List.mem_singleton] at hg
          subst hg
          exact ⟨hle, by simp⟩

/-- Any sequence of `makeand` calls preserves the invariant. -/
theorem runMakeand_inv (calls : List (Nat × Nat)) :
    ∀ s : AigState, MakeandInv s → MakeandInv (runMakeand s calls) := by
  induction calls with
  | nil => intro s h; exact h
  | cons c rest ih =>
    intro s h
    exact ih _ (makeand_inv s c.1 c.2 h)

/-- C6: `makeand` preserves the no-duplicate-gate invariant (so after any
sequence of calls from a fresh state, no two gates share a normalised operand
pair); the constants short-circuit without touching the state
(`makeand(0,x) = 0`, `makeand(1,x) = x`); and `makeand` is commutative in its
operands (the swap normalises the pair). -/
theorem C6_makeand_unique :
    (∀ (s : AigState) (x y : Nat), MakeandInv s → MakeandInv (makeand s x y).1) ∧
    (∀ (s : AigState) (x : Nat), makeand s 0 x = (s, 0)) ∧
    (∀ (s : AigState) (x : Nat), makeand s 1 x = (s, x)) ∧
    (∀ (s : AigState) (x y : Nat), makeand s x y = makeand s y x) ∧
    (∀ (s : AigState) (calls : List (Nat × Nat)), MakeandInv s →
      ((runMakeand s calls).gates.map gatePair).Nodup) := by
  refine ⟨makeand_inv, ?_, ?_, ?_, fun s calls h => (runMakeand_inv calls s h).1⟩
  · intro s x
    simp [makeand]
  · intro s x
    rcases Nat.eq_zero_or_pos x with hx | hx
    · subst hx; simp [makeand]
    · have hx1 : ¬ x < 1 := by omega
      by_cases hx2 : x = 1 <;> simp [makeand, hx1, hx2]
  · intro s x y
    rcases Nat.lt_trichotomy x y with hxy | hxy | hxy
    · have h1 : ¬ y < x := by omega
      simp [makeand, hxy, h1]
    · subst hxy; rfl
    · have h1 : ¬ x < y := by omega
      simp [makeand, hxy, h1]

/-- C6 (witness): the sequence `AND(2,4); AND(4,2); AND(6,2)` from a fresh state
leaves a gate table without duplicate normalised pairs. -/
theorem C6_witness :
    ((runMakeand (aigInit 8) [(2, 4), (4, 2), (6, 2)]).gates.map gatePair).Nodup :=
  C6_makeand_unique.2.2.2.2 (aigInit 8) [(2, 4), (4, 2), (6, 2)]
    (by constructor <;> simp [aigInit])

/-! ## AIG literal semantics lemmas -/

/-- Negating a literal negates its value. -/
theorem litVal_aiger_not (m : Nat → Bool) (l : Nat) :
    litVal m (aiger_not l) = ! litVal m l := by
  by_cases h : l % 2 = 0
  · have h1 : (l + 1) % 2 = 1 := by omega
    simp [aiger_not, litVal, h, h1]
  · have h0 : ¬ (l - 1) % 2 = 1 := by omega
    simp [aiger_not, litVal, h, h0]

/-- Negating a literal preserves strict boundedness by an even bound. -/
theorem aiger_not_lt {l lit : Nat} (hlit : lit % 2 = 0) (h : l < lit) :
    aiger_not l < lit := by
  unfold aiger_not
  split_ifs with h2 <;> omega

/-- Literal values only look at the valuation at or below the literal. -/
theorem litVal_eq_of_agree {m m' : Nat → Bool} {l : Nat}
    (h : ∀ y, y ≤ l → m y = m' y) : litVal m l = litVal m' l := by
  unfold litVal evenVal
  split_ifs with h1 h2 h2 <;>
    simp [h l (Nat.le_refl l), h (l - 1) (Nat.sub_le l 1)]

/-- A well-formed gate block has its lower bound below its upper bound. -/
theorem gatesOK_le : ∀ {gs : List (Nat × Nat × Nat)} {lo hi : Nat},
    gatesOK lo gs hi → lo ≤ hi := by
  intro gs
  induction gs with
  | nil => intro lo hi h; exact h
  | cons g rest ih =>
    intro lo hi h
    obtain ⟨g1, g2, g3⟩ := g
    obtain ⟨h1, _, _, _, _, _, h7⟩ := h
    exact Nat.le_trans h1 (Nat.le_trans (Nat.le_add_right _ 2) (ih h7))

/-- Weakening the lower bound of a gate block. -/
theorem gatesOK_mono : ∀ {gs : List (Nat × Nat × Nat)} {lo lo' hi : Nat},
    gatesOK lo gs hi → lo' ≤ lo → gatesOK lo' gs hi := by
  intro gs
  induction gs with
  | nil => intro lo lo' hi h hle; exact Nat.le_trans hle h
  | cons g rest ih =>
    intro lo lo' hi h hle
    obtain ⟨g1, g2, g3⟩ := g
    obtain ⟨h1, h2, h3, h4, h5, h6, h7⟩ := h
    exact ⟨Nat.le_trans hle h1, h2, h3, h4, h5, h6, h7⟩

/-- Concatenating adjacent well-formed gate blocks. -/
theorem gatesOK_concat : ∀ {gs gs' : List (Nat × Nat × Nat)} {lo mid hi : Nat},
    gatesOK lo gs mid → gatesOK mid gs' hi → gatesOK lo (gs ++ gs') hi := by
  intro gs
  induction gs with
  | nil => intro gs' lo mid hi h h'; exact gatesOK_mono h' h
  | cons g rest ih =>
    intro gs' lo mid hi h h'
    obtain ⟨g1, g2, g3⟩ := g
    obtain ⟨h1, h2, h3, h4, h5, h6, h7⟩ := h
    exact ⟨h1, h2, h3, h4, h5, h6, ih h7 h'⟩

/-- Appending one fresh gate to a well-formed block. -/
theorem gatesOK_append {gs : List (Nat × Nat × Nat)} {lo hi r0 r1 : Nat}
    (h : gatesOK lo gs hi) (hhi : hi % 2 = 0) (h0 : 2 ≤ r0) (h1 : 2 ≤ r1)
    (hr0 : r0 < hi) (hr1 : r1 < hi) :
    gatesOK lo (gs ++ [(hi, r0, r1)]) (hi + 2) :=
  gatesOK_concat h ⟨Nat.le_refl hi, hhi, h0, h1, hr0, hr1, Nat.le_refl (hi + 2)⟩

/-- Gates do not touch the valuation below their block. -/
theorem evalGates_frame : ∀ {gs : List (Nat × Nat × Nat)} {lo hi : Nat},
    gatesOK lo gs hi → ∀ (env : Nat → Bool) (x : Nat), x < lo →
      evalGates env gs x = env x := by
  intro gs
  induction gs with
  | nil => intro lo hi _ env x _; rfl
  | cons g rest ih =>
    intro lo hi h env x hx
    obtain ⟨g1, g2, g3⟩ := g
    obtain ⟨h1, h2, h3, h4, h5, h6, h7⟩ := h
    have hx' : x < g1 + 2 := by omega
    have := ih h7 (applyGate env (g1, g2, g3)) x hx'
    simp only [evalGates, List.foldl_cons] at *
    rw [this, applyGate]
    simp only
    rw [if_neg (by omega)]

/-- Literals below a gate block evaluate as in the bare environment. -/
theorem litSem_frame {gs : List (Nat × Nat × Nat)} {lo hi l : Nat}
    (h : gatesOK lo gs hi) (hl : l < lo) (env : Nat → Bool) :
    litSem env gs l = litVal env l := by
  refine litVal_eq_of_agree (fun y hy => ?_)
  exact evalGates_frame h env y (by omega)

/-- Evaluating concatenated gate lists is sequential. -/
theorem evalGates_append (env : Nat → Bool) (gs gs' : List (Nat × Nat × Nat)) :
    evalGates env (gs ++ gs') = evalGates (evalGates env gs) gs' := by
  simp [evalGates, List.foldl_append]

/-- Appending a well-formed gate block does not change older literals. -/
theorem litSem_append_frame {gs' : List (Nat × Nat × Nat)} {lo' hi' l : Nat}
    (h' : gatesOK lo' gs' hi') (hl : l < lo') (env : Nat → Bool)
    (gs : List (Nat × Nat × Nat)) :
    litSem env (gs ++ gs') l = litSem env gs l := by
  unfold litSem
  rw [evalGates_append]
  refine litVal_eq_of_agree (fun y hy => ?_)
  exact evalGates_frame h' (evalGates env gs) y (by omega)

/-- The value of a gate's output literal is the conjunction of the values of its
operand literals. -/
theorem litSem_gate : ∀ {gs : List (Nat × Nat × Nat)} {lo hi : Nat},
    gatesOK lo gs hi → 2 ≤ lo → ∀ {o r0 r1 : Nat}, (o, r0, r1) ∈ gs →
      ∀ env : Nat → Bool,
        litSem env gs o = (litSem env gs r0 && litSem env gs r1) := by
  intro gs
  induction gs with
  | nil => intro lo hi _ _ o r0 r1 hm; cases hm
  | cons g rest ih =>
    intro lo hi h h2 o r0 r1 hm env
    obtain ⟨p1, p2, p3⟩ := g
    obtain ⟨h1, hev, hp2, hp3, hlt2, hlt3, h7⟩ := h
    have hstep : ∀ x, litSem env ((p1, p2, p3) :: rest) x =
        litSem (applyGate env (p1, p2, p3)) rest x := by
      intro x; rfl
    rcases List.mem_cons.mp hm with hm | hm
    · obtain ⟨e1, e23⟩ := Prod.mk.injEq _ _ _ _ ▸ hm
      obtain ⟨e2, e3⟩ := Prod.mk.injEq _ _ _ _ ▸ e23
      subst e1; subst e2; subst e3
      rw [hstep o, hstep r0, hstep r1]
      have ho : litSem (applyGate env (o, r0, r1)) rest o =
          litVal (applyGate env (o, r0, r1)) o := by
        exact litSem_frame h7 (by omega) _
      have hv : litVal (applyGate env (o, r0, r1)) o =
          (litVal env r0 && litVal env r1) := by
        have ho0 : ¬ o = 0 := by omega
        conv =>
          lhs
          unfold litVal evenVal applyGate
        simp [hev, ho0]
      have hr0 : litSem (applyGate env (o, r0, r1)) rest r0 = litVal env r0 := by
        rw [litSem_frame h7 (by omega) _]
        refine litVal_eq_of_agree (fun y hy => ?_)
        unfold applyGate
        simp only
        rw [if_neg (by omega)]
      have hr1 : litSem (applyGate env (o, r0, r1)) rest r1 = litVal env r1 := by
        rw [litSem_frame h7 (by omega) _]
        refine litVal_eq_of_agree (fun y hy => ?_)
        unfold applyGate
        simp only
        rw [if_neg (by omega)]
      rw [ho, hv, hr0, hr1]
    · rw [hstep o, hstep r0, hstep r1]
      exact ih h7 (by omega) hm _

/-- Literal 0 denotes false over any gate list. -/
theorem litSem_zero (env : Nat → Bool) (gs : List (Nat × Nat × Nat)) :
    litSem env gs 0 = false := by
  simp [litSem, litVal, evenVal]

/-- Literal 1 denotes true over any gate list. -/
theorem litSem_one (env : Nat → Bool) (gs : List (Nat × Nat × Nat)) :
    litSem env gs 1 = true := by
  simp [litSem, litVal, evenVal]

/-- Bounds carried by membership in a well-formed gate block. -/
theorem gatesOK_mem : ∀ {gs : List (Nat × Nat × Nat)} {lo hi o r0 r1 : Nat},
    gatesOK lo gs hi → (o, r0, r1) ∈ gs →
      lo ≤ o ∧ o % 2 = 0 ∧ 2 ≤ r0 ∧ 2 ≤ r1 ∧ r0 < o ∧ r1 < o ∧ o + 2 ≤ hi := by
  intro gs
  induction gs with
  | nil => intro lo hi o r0 r1 _ hm; cases hm
  | cons g rest ih =>
    intro lo hi o r0 r1 h hm
    obtain ⟨p1, p2, p3⟩ := g
    obtain ⟨h1, h2, h3, h4, h5, h6, h7⟩ := h
    rcases List.mem_cons.mp hm with hm | hm
    · obtain ⟨e1, e23⟩ := Prod.mk.injEq _ _ _ _ ▸ hm
      obtain ⟨e2, e3⟩ := Prod.mk.injEq _ _ _ _ ▸ e23
      subst e1; subst e2; subst e3
      exact ⟨h1, h2, h3, h4, h5, h6, gatesOK_le h7⟩
    · have := ih h7 hm
      exact ⟨by omega, this.2.1, this.2.2.1, this.2.2.2.1, this.2.2.2.2.1,
        this.2.2.2.2.2.1, this.2.2.2.2.2.2⟩

/-- Replacing the denoted function by an extensionally equal one. -/
theorem Extends_congr {ib : Nat} {vmap : Nat → Nat} {a : AigState}
    {r : AigState × Nat} {f g : (Nat → Bool) → Bool}
    (h : Extends ib vmap a r f) (hfg : ∀ env, f env = g env) :
    Extends ib vmap a r g :=
  ⟨h.1, h.2.1, h.2.2.1, h.2.2.2.1, fun env => (h.2.2.2.2 env).trans (hfg env)⟩

/-- `makeand` is symmetric in its operands. -/
theorem makeand_comm (s : AigState) (x y : Nat) : makeand s x y = makeand s y x := by
  rcases Nat.lt_trichotomy x y with hxy | hxy | hxy
  · have h1 : ¬ y < x := by omega
    simp [makeand, hxy, h1]
  · subst hxy; rfl
  · have h1 : ¬ x < y := by omega
    simp [makeand, hxy, h1]

/-- An unchanged state with a valid literal extends itself. -/
theorem Extends_refl {ib : Nat} {vmap : Nat → Nat} {a : AigState} {res : Nat}
    (ha : AigInv ib vmap a) (hres : res < a.lit) {f : (Nat → Bool) → Bool}
    (hf : ∀ env, litSem env a.gates res = f env) : Extends ib vmap a (a, res) f :=
  ⟨ha, Nat.le_refl _, hres, ⟨[], by simp, Nat.le_refl _⟩, hf⟩

/-- Specification of `makeand` on ordered operands. -/
theorem makeand_spec_le {ib : Nat} {vmap : Nat → Nat} {a : AigState} {x y : Nat}
    (ha : AigInv ib vmap a) (hx : x < a.lit) (hy : y < a.lit) (hxy : x ≤ y) :
    Extends ib vmap a (makeand a x y)
      (fun env => litSem env a.gates x && litSem env a.gates y) ∧
    (makeand a x y).1.mapping = a.mapping ∧
    (makeand a x y).1.zmapping = a.zmapping := by
  have hyx : ¬ y < x := by omega
  have hlit2 : 2 ≤ a.lit := Nat.le_trans ha.ib_ge ha.lit_ge
  simp only [makeand, if_neg hyx]
  by_cases h0 : x = 0
  · subst h0
    rw [if_pos rfl]
    refine ⟨Extends_refl ha (by omega) fun env => ?_, rfl, rfl⟩
    simp [litSem_zero]
  · rw [if_neg h0]
    by_cases h1 : x = 1
    · subst h1
      rw [if_pos rfl]
      refine ⟨Extends_refl ha hy fun env => ?_, rfl, rfl⟩
      simp [litSem_one]
    · rw [if_neg h1]
      cases hl : lookupA a.cache (x, y) with
      | some l =>
        have hmem := ha.cache_ok (x, y) l (lookupA_mem hl)
        have hb := gatesOK_mem ha.gates_ok hmem
        refine ⟨Extends_refl ha (show l < a.lit by omega) fun env => ?_, rfl, rfl⟩
        exact litSem_gate ha.gates_ok ha.ib_ge hmem env
      | none =>
        have hx2 : 2 ≤ x := by omega
        have hy2 : 2 ≤ y := by omega
        have htail : gatesOK a.lit [(a.lit, x, y)] (a.lit + 2) :=
          ⟨Nat.le_refl _, ha.lit_even, hx2, hy2, hx, hy, Nat.le_refl _⟩
        have hgok : gatesOK ib (a.gates ++ [(a.lit, x, y)]) (a.lit + 2) :=
          gatesOK_append ha.gates_ok ha.lit_even hx2 hy2 hx hy
        have hmem : (a.lit, x, y) ∈ a.gates ++ [(a.lit, x, y)] := by simp
        have hinv : AigInv ib vmap
            { lit := a.lit + 2, gates := a.gates ++ [(a.lit, x, y)],
              cache := ((x, y), a.lit) :: a.cache,
              mapping := a.mapping, zmapping := a.zmapping } := by
          refine ⟨ha.ib_even, ha.ib_ge,
            show (a.lit + 2) % 2 = 0 by have := ha.lit_even; omega,
            show ib ≤ a.lit + 2 by have := ha.lit_ge; omega, hgok, ?_, ?_, ?_⟩
          · intro k l hk
            rcases List.mem_cons.mp hk with hk | hk
            · obtain ⟨e1, e2⟩ := Prod.mk.injEq _ _ _ _ ▸ hk
              subst e1; subst e2
              simpa using hmem
            · exact List.mem_append_left _ (ha.cache_ok k l hk)
          · intro t r ht
            obtain ⟨hr, hsem⟩ := ha.map_ok t r ht
            refine ⟨show r < a.lit + 2 by omega, fun env => ?_⟩
            show litSem env (a.gates ++ [(a.lit, x, y)]) r = _
            rw [litSem_append_frame htail hr env a.gates]
            exact hsem env
          · intro c r hc
            obtain ⟨hr, hsem⟩ := ha.zmap_ok c r hc
            refine ⟨show r < a.lit + 2 by omega, fun env => ?_⟩
            show litSem env (a.gates ++ [(a.lit, x, y)]) r = _
            rw [litSem_append_frame htail hr env a.gates]
            exact hsem env
        refine ⟨⟨hinv, show a.lit ≤ a.lit + 2 by omega,
          show a.lit < a.lit + 2 by omega,
          ⟨[(a.lit, x, y)], rfl, htail⟩, fun env => ?_⟩, rfl, rfl⟩
        have hg := litSem_gate hgok ha.ib_ge hmem env
        rw [litSem_append_frame htail hx env a.gates,
          litSem_append_frame htail hy env a.gates] at hg
        exact hg

/-- Specification of `makeand`: the result extends the state, the memo tables are
untouched, and the returned literal denotes the conjunction of the operand
literals' functions. -/
theorem makeand_spec {ib : Nat} {vmap : Nat → Nat} {a : AigState} {x y : Nat}
    (ha : AigInv ib vmap a) (hx : x < a.lit) (hy : y < a.lit) :
    Extends ib vmap a (makeand a x y)
      (fun env => litSem env a.gates x && litSem env a.gates y) ∧
    (makeand a x y).1.mapping = a.mapping ∧
    (makeand a x y).1.zmapping = a.zmapping := by
  rcases Nat.le_total x y with hxy | hxy
  · exact makeand_spec_le ha hx hy hxy
  · rw [makeand_comm]
    obtain ⟨he, hm, hz⟩ := makeand_spec_le ha hy hx hxy
    exact ⟨Extends_congr he (fun env => Bool.and_comm _ _), hm, hz⟩

/-- Negating a literal negates its denoted function. -/
theorem litSem_not (env : Nat → Bool) (gs : List (Nat × Nat × Nat)) (l : Nat) :
    litSem env gs (aiger_not l) = ! litSem env gs l :=
  litVal_aiger_not _ _

/-- The literal of a BDD variable denotes that input. -/
theorem litSem_vmap {ib : Nat} {vmap : Nat → Nat} {a : AigState}
    (hv : VmapOK ib vmap) (ha : AigInv ib vmap a) (v : Nat) (env : Nat → Bool) :
    litSem env a.gates (vmap v) = env (vmap v) := by
  obtain ⟨hev, h2, hlt⟩ := hv v
  rw [litSem_frame ha.gates_ok hlt env]
  unfold litVal evenVal
  rw [if_pos hev, if_neg (by omega)]

/-- Chaining extension steps. -/
theorem Extends_trans {ib : Nat} {vmap : Nat → Nat} {a : AigState}
    {r1 r2 : AigState × Nat} {f g : (Nat → Bool) → Bool}
    (h1 : Extends ib vmap a r1 f) (h2 : Extends ib vmap r1.1 r2 g) :
    Extends ib vmap a r2 g := by
  obtain ⟨i1, l1, _, ⟨t1, ht1, ho1⟩, _⟩ := h1
  obtain ⟨i2, l2, lt2, ⟨t2, ht2, ho2⟩, s2⟩ := h2
  exact ⟨i2, Nat.le_trans l1 l2, lt2,
    ⟨t1 ++ t2, by rw [ht2, ht1, List.append_assoc], gatesOK_concat ho1 ho2⟩, s2⟩

/-- Old literals keep their value across an extension. -/
theorem Extends_frame {ib : Nat} {vmap : Nat → Nat} {a : AigState}
    {r : AigState × Nat} {f : (Nat → Bool) → Bool} (h : Extends ib vmap a r f)
    {l : Nat} (hl : l < a.lit) (env : Nat → Bool) :
    litSem env r.1.gates l = litSem env a.gates l := by
  obtain ⟨_, _, _, ⟨tail, ht, ho⟩, _⟩ := h
  rw [ht]
  exact litSem_append_frame ho hl env a.gates

/-- Negating the result literal of an extension. -/
theorem Extends_not {ib : Nat} {vmap : Nat → Nat} {a : AigState}
    {r : AigState × Nat} {f : (Nat → Bool) → Bool} (h : Extends ib vmap a r f) :
    Extends ib vmap a (r.1, aiger_not r.2) (fun env => ! f env) :=
  ⟨h.1, h.2.1, aiger_not_lt h.1.lit_even h.2.2.1, h.2.2.2.1,
    fun env => by rw [show litSem env (r.1, aiger_not r.2).1.gates (aiger_not r.2) =
      ! litSem env r.1.gates r.2 from litSem_not env r.1.gates r.2,
      h.2.2.2.2 env]⟩

/-- Storing the result in the `bdd_to_aig` memo table and applying the entry
polarity preserves the extension. -/
theorem Extends_memoize {ib : Nat} {vmap : Nat → Nat} {a : AigState}
    {r : AigState × Nat} {t : BddT}
    (h : Extends ib vmap a r (fun env => evalT (vmapEnv vmap env) t))
    (comp : Bool) :
    Extends ib vmap a
      ({ r.1 with mapping := (t, r.2) :: r.1.mapping },
        if comp then aiger_not r.2 else r.2)
      (fun env => comp ^^ evalT (vmapEnv vmap env) t) := by
  obtain ⟨hinv, hle, hlt, ⟨tail, ht, ho⟩, hsem⟩ := h
  have hinv' : AigInv ib vmap { r.1 with mapping := (t, r.2) :: r.1.mapping } := by
    refine ⟨hinv.ib_even, hinv.ib_ge, hinv.lit_even, hinv.lit_ge, hinv.gates_ok,
      hinv.cache_ok, ?_, hinv.zmap_ok⟩
    intro t' r' ht'
    rcases List.mem_cons.mp ht' with ht' | ht'
    · obtain ⟨e1, e2⟩ := Prod.mk.injEq _ _ _ _ ▸ ht'
      subst e1; subst e2
      exact ⟨hlt, hsem⟩
    · exact hinv.map_ok t' r' ht'
  cases comp
  · refine ⟨hinv', hle, hlt, ⟨tail, ht, ho⟩, fun env => ?_⟩
    show litSem env r.1.gates r.2 = (false ^^ evalT (vmapEnv vmap env) t)
    rw [hsem env]
    simp
  · refine ⟨hinv', hle, aiger_not_lt hinv.lit_even hlt, ⟨tail, ht, ho⟩, fun env => ?_⟩
    show litSem env r.1.gates (aiger_not r.2) = (true ^^ evalT (vmapEnv vmap env) t)
    rw [litSem_not env r.1.gates r.2, hsem env]
    simp

/-- Soundness of the Shannon-expansion conversion: from any invariant-preserving
state, `bdd_to_aigGo` extends the state and its returned literal denotes the
polarity-adjusted Boolean function of the node, while the memo table keeps only
correct positive-polarity entries (part of the invariant). -/
theorem bdd_to_aigGo_sound {ib : Nat} {vmap : Nat → Nat} (hv : VmapOK ib vmap) :
    ∀ (t : BddT) (comp : Bool) (a : AigState), AigInv ib vmap a →
      Extends ib vmap a (bdd_to_aigGo vmap a comp t)
        (fun env => comp ^^ evalT (vmapEnv vmap env) t) := by
  intro t
  induction t with
  | term =>
    intro comp a ha
    have hlit2 : 2 ≤ a.lit := Nat.le_trans ha.ib_ge ha.lit_ge
    cases comp
    · exact Extends_refl ha (show (0:Nat) < a.lit by omega)
        fun env => by simp [litSem_zero, evalT]
    · exact Extends_refl ha (show (1:Nat) < a.lit by omega)
        fun env => by simp [litSem_one, evalT]
  | node v lc lo hc hi ihlo ihhi =>
    intro comp a ha
    have hvv := hv v
    have hvlt : vmap v < a.lit := Nat.lt_of_lt_of_le hvv.2.2 ha.lit_ge
    rw [bdd_to_aigGo]
    cases hmap : lookupA a.mapping (BddT.node v lc lo hc hi) with
    | some l =>
      obtain ⟨hl, hsem⟩ := ha.map_ok _ l (lookupA_mem hmap)
      cases comp
      · exact Extends_refl ha hl fun env => by rw [hsem env]; simp
      · refine Extends_refl ha (aiger_not_lt ha.lit_even hl) fun env => ?_
        rw [litSem_not env a.gates l, hsem env]
        simp
    | none =>
      dsimp only
      by_cases hlof : (lc, lo) = mtbdd_false
      · obtain ⟨hlc, hlo⟩ := Prod.mk.injEq _ _ _ _ ▸ hlof
        rw [if_pos hlof]
        by_cases hhit : (hc, hi) = mtbdd_true
        · obtain ⟨hhc, hhi2⟩ := Prod.mk.injEq _ _ _ _ ▸ hhit
          rw [if_pos hhit]
          refine Extends_memoize (Extends_refl ha hvlt fun env => ?_) comp
          subst hlc; subst hlo; subst hhc; subst hhi2
          rw [litSem_vmap hv ha v env]
          cases henv : env (vmap v) <;> simp [evalT, vmapEnv, henv]
        · rw [if_neg hhit]
          have hx := ihhi hc a ha
          have hxinv := hx.1
          obtain ⟨hm, _, _⟩ := makeand_spec hxinv
            (Nat.lt_of_lt_of_le hvlt hx.2.1) hx.2.2.1
          refine Extends_memoize (Extends_trans hx (Extends_congr hm fun env => ?_)) comp
          rw [litSem_vmap hv hxinv v env, hx.2.2.2.2 env]
          subst hlc; subst hlo
          cases henv : env (vmap v) <;> simp [evalT, vmapEnv, henv]
      · rw [if_neg hlof]
        by_cases hhif : (hc, hi) = mtbdd_false
        · obtain ⟨hhc, hhi2⟩ := Prod.mk.injEq _ _ _ _ ▸ hhif
          rw [if_pos hhif]
          by_cases hlot : (lc, lo) = mtbdd_true
          · obtain ⟨hlc, hlo⟩ := Prod.mk.injEq _ _ _ _ ▸ hlot
            rw [if_pos hlot]
            refine Extends_memoize
              (Extends_refl ha (aiger_not_lt ha.lit_even hvlt) fun env => ?_) comp
            rw [litSem_not env a.gates (vmap v), litSem_vmap hv ha v env]
            subst hlc; subst hlo; subst hhc; subst hhi2
            cases henv : env (vmap v) <;> simp [evalT, vmapEnv, henv]
          · rw [if_neg hlot]
            have hx := ihlo lc a ha
            have hxinv := hx.1
            obtain ⟨hm, _, _⟩ := makeand_spec hxinv
              (aiger_not_lt hxinv.lit_even (Nat.lt_of_lt_of_le hvlt hx.2.1)) hx.2.2.1
            refine Extends_memoize (Extends_trans hx (Extends_congr hm fun env => ?_)) comp
            rw [litSem_not env (bdd_to_aigGo vmap a lc lo).1.gates (vmap v),
              litSem_vmap hv hxinv v env, hx.2.2.2.2 env]
            subst hhc; subst hhi2
            cases henv : env (vmap v) <;> simp [evalT, vmapEnv, henv]
        · rw [if_neg hhif]
          have hxl := ihlo lc a ha
          have hxlinv := hxl.1
          have hxh := ihhi hc (bdd_to_aigGo vmap a lc lo).1 hxlinv
          have hxhinv := hxh.1
          obtain ⟨hm1, _, _⟩ := makeand_spec hxhinv
            (aiger_not_lt hxhinv.lit_even
              (Nat.lt_of_lt_of_le hvlt (Nat.le_trans hxl.2.1 hxh.2.1)))
            (Nat.lt_of_lt_of_le hxl.2.2.1 hxh.2.1)
          have e1 := Extends_trans hxl (Extends_trans hxh (Extends_congr hm1 (fun env => by
            rw [litSem_not env (bdd_to_aigGo vmap (bdd_to_aigGo vmap a lc lo).1 hc hi).1.gates
                (vmap v),
              litSem_vmap hv hxhinv v env,
              Extends_frame hxh hxl.2.2.1 env, hxl.2.2.2.2 env])))
          have e1inv := e1.1
          obtain ⟨hm2, _, _⟩ := makeand_spec e1inv
            (Nat.lt_of_lt_of_le hvlt e1.2.1)
            (Nat.lt_of_lt_of_le hxh.2.2.1 hm1.2.1)
          have e2 := Extends_trans e1 (Extends_congr hm2 (fun env => by
            rw [litSem_vmap hv e1inv v env,
              Extends_frame hm1 hxh.2.2.1 env, hxh.2.2.2.2 env]))
          have e2inv := e2.1
          obtain ⟨hm3, _, _⟩ := makeand_spec e2inv
            (aiger_not_lt e2inv.lit_even (Nat.lt_of_lt_of_le hm1.2.2.1 hm2.2.1))
            (aiger_not_lt e2inv.lit_even hm2.2.2.1)
          have e3 := Extends_trans e2 (Extends_congr hm3 (fun env => by
            rw [litSem_not, litSem_not, Extends_frame hm2 hm1.2.2.1 env,
              e1.2.2.2.2 env, e2.2.2.2.2 env]))
          refine Extends_memoize (Extends_congr (Extends_not e3) fun env => ?_) comp
          cases henv : env (vmap v) <;> simp [evalT, vmapEnv, henv]

/-- Double literal negation is the identity. -/
theorem aiger_not_not (l : Nat) : aiger_not (aiger_not l) = l := by
  unfold aiger_not
  split_ifs <;> omega

/-- Flipping the complement mark of the entry handle flips only the polarity of
the returned literal; the resulting state is identical. -/
theorem bdd_to_aigGo_neg (vmap : Nat → Nat) (a : AigState) (comp : Bool)
    (t : BddT) :
    (bdd_to_aigGo vmap a (!comp) t).2 = aiger_not (bdd_to_aigGo vmap a comp t).2 ∧
    (bdd_to_aigGo vmap a (!comp) t).1 = (bdd_to_aigGo vmap a comp t).1 := by
  cases t with
  | term => cases comp <;> simp [bdd_to_aigGo, aiger_not]
  | node v lc lo hc hi =>
    rw [bdd_to_aigGo, bdd_to_aigGo]
    cases hmap : lookupA a.mapping (BddT.node v lc lo hc hi) with
    | some l => cases comp <;> simp [aiger_not_not]
    | none =>
      dsimp only
      cases comp <;> simp [aiger_not_not]

/-- C1: for every BDD handle (complement marks included), the literal returned by
`bdd_to_aig` denotes, through `var_to_lit` and the gate table, exactly the
Boolean function of the handle; a complement mark on the entry handle returns
exactly the negation of the unmarked handle's literal; and the memo table keeps
mapping each underlying node to its positive-polarity literal (the `map_ok` field
of the preserved invariant). -/
theorem C1_bdd_to_aig_correct (ib : Nat) (vmap : Nat → Nat) (a : AigState)
    (b : BddH) (hv : VmapOK ib vmap) (ha : AigInv ib vmap a) :
    (∀ env : Nat → Bool,
      litSem env (bdd_to_aig vmap a b).1.gates (bdd_to_aig vmap a b).2 =
        evalH (vmapEnv vmap env) b) ∧
    (bdd_to_aig vmap a (bneg b)).2 = aiger_not (bdd_to_aig vmap a b).2 ∧
    (bdd_to_aig vmap a (bneg b)).1 = (bdd_to_aig vmap a b).1 ∧
    AigInv ib vmap (bdd_to_aig vmap a b).1 := by
  have hs := bdd_to_aigGo_sound hv b.2 b.1 a ha
  have hn := bdd_to_aigGo_neg vmap a b.1 b.2
  exact ⟨fun env => hs.2.2.2.2 env, hn.1, hn.2, hs.1⟩

/-- C1 (witness): the theorem applied to the single-variable BDD `x0` (low child
`mtbdd_false`, high child `mtbdd_true`) from a fresh state with one input literal. -/
theorem C1_witness :
    (∀ env : Nat → Bool,
      litSem env
          (bdd_to_aig (fun _ => 2) (aigInit 4)
            (false, BddT.node 0 false BddT.term true BddT.term)).1.gates
          (bdd_to_aig (fun _ => 2) (aigInit 4)
            (false, BddT.node 0 false BddT.term true BddT.term)).2 =
        evalH (vmapEnv (fun _ => 2) env)
          (false, BddT.node 0 false BddT.term true BddT.term)) ∧
    (bdd_to_aig (fun _ => 2) (aigInit 4)
        (bneg (false, BddT.node 0 false BddT.term true BddT.term))).2 =
      aiger_not (bdd_to_aig (fun _ => 2) (aigInit 4)
        (false, BddT.node 0 false BddT.term true BddT.term)).2 ∧
    (bdd_to_aig (fun _ => 2) (aigInit 4)
        (bneg (false, BddT.node 0 false BddT.term true BddT.term))).1 =
      (bdd_to_aig (fun _ => 2) (aigInit 4)
        (false, BddT.node 0 false BddT.term true BddT.term)).1 ∧
    AigInv 4 (fun _ => 2)
      (bdd_to_aig (fun _ => 2) (aigInit 4)
        (false, BddT.node 0 false BddT.term true BddT.term)).1 :=
  C1_bdd_to_aig_correct 4 (fun _ => 2) (aigInit 4)
    (false, BddT.node 0 false BddT.term true BddT.term)
    (fun _ => ⟨show (2:Nat) % 2 = 0 by decide, Nat.le_refl 2, show (2:Nat) < 4 by decide⟩)
    ⟨rfl, by decide, rfl, by decide, Nat.le_refl 4,
      fun k l h => absurd h (List.not_mem_nil _),
      fun t r h => absurd h (List.not_mem_nil _),
      fun c r h => absurd h (List.not_mem_nil _)⟩

/-! ## ZDD-cover conversion lemmas (C5) -/

/-- The signed cover-variable literal is below the first gate literal. -/
theorem coverLit_lt {ib : Nat} {vmap : Nat → Nat} (hv : VmapOK ib vmap)
    (hev : ib % 2 = 0) (w : Nat) : coverLit vmap w < ib := by
  unfold coverLit
  split_ifs with h
  · exact aiger_not_lt hev (hv (w / 2)).2.2
  · exact (hv (w / 2)).2.2

/-- The signed cover-variable literal denotes the signed input. -/
theorem litSem_coverLit {ib : Nat} {vmap : Nat → Nat} {a : AigState}
    (hv : VmapOK ib vmap) (ha : AigInv ib vmap a) (w : Nat) (env : Nat → Bool) :
    litSem env a.gates (coverLit vmap w) = zvarSem (vmapEnv vmap env) w := by
  unfold coverLit zvarSem
  split_ifs with h
  · rw [litSem_not env a.gates (vmap (w / 2)), litSem_vmap hv ha]
    rfl
  · rw [litSem_vmap hv ha]
    rfl

/-- Storing the result in the cover memo table preserves the extension. -/
theorem Extends_zmemoize {ib : Nat} {vmap : Nat → Nat} {a : AigState}
    {r : AigState × Nat} {c : Zdd}
    (h : Extends ib vmap a r (fun env => covEval (vmapEnv vmap env) c)) :
    Extends ib vmap a ({ r.1 with zmapping := (c, r.2) :: r.1.zmapping }, r.2)
      (fun env => covEval (vmapEnv vmap env) c) := by
  obtain ⟨hinv, hle, hlt, ⟨tail, ht, ho⟩, hsem⟩ := h
  have hinv' : AigInv ib vmap { r.1 with zmapping := (c, r.2) :: r.1.zmapping } := by
    refine ⟨hinv.ib_even, hinv.ib_ge, hinv.lit_even, hinv.lit_ge, hinv.gates_ok,
      hinv.cache_ok, hinv.map_ok, ?_⟩
    intro c' r' hc'
    rcases List.mem_cons.mp hc' with hc' | hc'
    · obtain ⟨e1, e2⟩ := Prod.mk.injEq _ _ _ _ ▸ hc'
      subst e1; subst e2
      exact ⟨hlt, hsem⟩
    · exact hinv.zmap_ok c' r' hc'
  exact ⟨hinv', hle, hlt, ⟨tail, ht, ho⟩, hsem⟩

/-- Soundness of the recursive cover conversion: for every cover, from any
invariant-preserving state, the returned literal denotes the sum-of-products
function of the cover. -/
theorem bdd_to_aig_cover_sound {ib : Nat} {vmap : Nat → Nat} (hv : VmapOK ib vmap) :
    ∀ (cover : Zdd) (a : AigState), AigInv ib vmap a →
      Extends ib vmap a (bdd_to_aig_cover vmap a cover)
        (fun env => covEval (vmapEnv vmap env) cover) := by
  intro cover
  induction cover with
  | top =>
    intro a ha
    have hlit2 : 2 ≤ a.lit := Nat.le_trans ha.ib_ge ha.lit_ge
    exact Extends_refl ha (by omega) fun env => by simp [litSem_one, covEval]
  | bot =>
    intro a ha
    have hlit2 : 2 ≤ a.lit := Nat.le_trans ha.ib_ge ha.lit_ge
    exact Extends_refl ha (by omega) fun env => by simp [litSem_zero, covEval]
  | node w lo hi ihlo ihhi =>
    intro a ha
    have hcl : coverLit vmap w < a.lit :=
      Nat.lt_of_lt_of_le (coverLit_lt hv ha.ib_even w) ha.lit_ge
    rw [bdd_to_aig_cover]
    cases hmap : lookupA a.zmapping (Zdd.node w lo hi) with
    | some l =>
      obtain ⟨hl, hsem⟩ := ha.zmap_ok _ l (lookupA_mem hmap)
      exact Extends_refl ha hl fun env => hsem env
    | none =>
      dsimp only
      by_cases hhi : hi ≠ Zdd.top
      · rw [if_pos hhi]
        have hx := ihhi a ha
        have hxinv := hx.1
        obtain ⟨hm, _, _⟩ := makeand_spec hxinv
          (Nat.lt_of_lt_of_le hcl hx.2.1) hx.2.2.1
        have e1 := Extends_trans hx (Extends_congr hm (fun env => by
          rw [litSem_coverLit hv hxinv w env, hx.2.2.2.2 env]))
        by_cases hlo : lo ≠ Zdd.bot
        · rw [if_pos hlo]
          have hxl := ihlo (makeand (bdd_to_aig_cover vmap a hi).1
            (coverLit vmap w) (bdd_to_aig_cover vmap a hi).2).1 e1.1
          have hxlinv := hxl.1
          obtain ⟨hg, _, _⟩ := makeand_spec hxlinv
            (aiger_not_lt hxlinv.lit_even (Nat.lt_of_lt_of_le e1.2.2.1 hxl.2.1))
            (aiger_not_lt hxlinv.lit_even hxl.2.2.1)
          refine Extends_zmemoize (Extends_trans e1 (Extends_trans hxl
            (Extends_congr (Extends_not hg) (fun env => ?_))))
          rw [litSem_not, litSem_not, Extends_frame hxl e1.2.2.1 env,
            e1.2.2.2.2 env, hxl.2.2.2.2 env]
          cases h1 : zvarSem (vmapEnv vmap env) w <;>
            cases h2 : covEval (vmapEnv vmap env) hi <;>
              cases h3 : covEval (vmapEnv vmap env) lo <;>
                simp [covEval, h1, h2, h3]
        · rw [if_neg hlo]
          push_neg at hlo
          subst hlo
          refine Extends_zmemoize (Extends_congr e1 (fun env => by
            simp [covEval]))
      · rw [if_neg hhi]
        push_neg at hhi
        subst hhi
        have e1 : Extends ib vmap a (a, coverLit vmap w)
            (fun env => zvarSem (vmapEnv vmap env) w && covEval (vmapEnv vmap env) Zdd.top) :=
          Extends_refl ha hcl fun env => by
            rw [litSem_coverLit hv ha w env]
            simp [covEval]
        by_cases hlo : lo ≠ Zdd.bot
        · rw [if_pos hlo]
          have hxl := ihlo a ha
          have hxlinv := hxl.1
          obtain ⟨hg, _, _⟩ := makeand_spec hxlinv
            (aiger_not_lt hxlinv.lit_even (Nat.lt_of_lt_of_le hcl hxl.2.1))
            (aiger_not_lt hxlinv.lit_even hxl.2.2.1)
          refine Extends_zmemoize (Extends_trans hxl
            (Extends_congr (Extends_not hg) (fun env => ?_)))
          rw [litSem_not, litSem_not, litSem_coverLit hv hxlinv w env,
            hxl.2.2.2.2 env]
          cases h1 : zvarSem (vmapEnv vmap env) w <;>
            cases h3 : covEval (vmapEnv vmap env) lo <;>
              simp [covEval, h1, h3]
        · rw [if_neg hlo]
          push_neg at hlo
          subst hlo
          refine Extends_zmemoize (Extends_congr e1 (fun env => by
            simp [covEval]))

/-- Pointwise-equal predicates give equal `all`. -/
theorem all_congrP {l : List Nat} {p q : Nat → Bool} (h : ∀ x ∈ l, p x = q x) :
    l.all p = l.all q := by
  induction l with
  | nil => rfl
  | cons x rest ih =>
    simp only [List.all_cons]
    rw [h x (by simp), ih (fun y hy => h y (by simp [hy]))]

/-- Pointwise-equal predicates give equal `any`. -/
theorem any_congrP {l : List Nat} {p q : Nat → Bool} (h : ∀ x ∈ l, p x = q x) :
    l.any p = l.any q := by
  induction l with
  | nil => rfl
  | cons x rest ih =>
    simp only [List.any_cons]
    rw [h x (by simp), ih (fun y hy => h y (by simp [hy]))]

/-- A common conjunct distributes out of `any` over a nonempty list shape. -/
theorem any_and_left (b : Bool) (l : List (List Nat)) (f : List Nat → Bool) :
    l.any (fun p => b && f p) = (b && l.any f) := by
  cases b <;> simp

/-- Soundness of the fuelled AND queue reduction on a nonempty queue. -/
theorem qreduceAndGo_sound {ib : Nat} {vmap : Nat → Nat} :
    ∀ (fuel : Nat) (l : List Nat) (a : AigState), AigInv ib vmap a →
      (∀ x ∈ l, x < a.lit) → l.length ≤ fuel + 1 → l ≠ [] →
      ∃ s res, qreduceAndGo fuel a l = (s, some res) ∧
        Extends ib vmap a (s, res)
          (fun env => l.all (fun x => litSem env a.gates x)) := by
  intro fuel
  induction fuel with
  | zero =>
    intro l a ha hb hlen hne
    match l, hlen, hne with
    | [x], _, _ =>
      refine ⟨a, x, rfl, Extends_refl ha (hb x (by simp)) fun env => by simp⟩
  | succ fuel ih =>
    intro l a ha hb hlen hne
    match l with
    | [x] =>
      refine ⟨a, x, rfl, Extends_refl ha (hb x (by simp)) fun env => by simp⟩
    | x :: y :: rest =>
      have hx : x < a.lit := hb x (by simp)
      have hy : y < a.lit := hb y (by simp)
      obtain ⟨hm, _, _⟩ := makeand_spec ha hx hy
      have hb' : ∀ z ∈ rest ++ [(makeand a x y).2],
          z < (makeand a x y).1.lit := by
        intro z hz
        rcases List.mem_append.mp hz with hz | hz
        · exact Nat.lt_of_lt_of_le (hb z (by simp [hz])) hm.2.1
        · simp only [List.mem_singleton] at hz
          subst hz
          exact hm.2.2.1
      have hlen' : (rest ++ [(makeand a x y).2]).length ≤ fuel + 1 := by
        simp only [List.length_append, List.length_cons, List.length_nil] at hlen ⊢
        omega
      obtain ⟨s, res, heq, hex⟩ := ih (rest ++ [(makeand a x y).2])
        (makeand a x y).1 hm.1 hb' hlen' (by simp)
      refine ⟨s, res, ?_, ?_⟩
      · rw [qreduceAndGo]
        exact heq
      · refine Extends_congr (Extends_trans hm hex) fun env => ?_
        beta_reduce
        have hxy : litSem env (makeand a x y).1.gates (makeand a x y).2 =
            (litSem env a.gates x && litSem env a.gates y) := hm.2.2.2.2 env
        simp only [List.all_append, List.all_cons, List.all_nil]
        rw [all_congrP (fun z hz =>
          Extends_frame hm (hb z (by simp [hz])) env), hxy]
        cases litSem env a.gates x <;> cases litSem env a.gates y <;>
          cases rest.all (fun z => litSem env a.gates z) <;> simp

/-- Soundness of the fuelled OR queue reduction. -/
theorem qreduceOrGo_sound {ib : Nat} {vmap : Nat → Nat} :
    ∀ (fuel : Nat) (l : List Nat) (a : AigState), AigInv ib vmap a →
      (∀ x ∈ l, x < a.lit) → l.length ≤ fuel + 1 →
      Extends ib vmap a (qreduceOrGo fuel a l)
        (fun env => l.any (fun x => litSem env a.gates x)) := by
  intro fuel
  induction fuel with
  | zero =>
    intro l a ha hb hlen
    match l, hlen with
    | [], _ =>
      have hlit2 : 2 ≤ a.lit := Nat.le_trans ha.ib_ge ha.lit_ge
      exact Extends_refl ha (by omega) fun env => by simp [litSem_zero]
    | [x], _ =>
      exact Extends_refl ha (hb x (by simp)) fun env => by simp
  | succ fuel ih =>
    intro l a ha hb hlen
    match l with
    | [] =>
      have hlit2 : 2 ≤ a.lit := Nat.le_trans ha.ib_ge ha.lit_ge
      exact Extends_refl ha (by omega) fun env => by simp [litSem_zero]
    | [x] =>
      exact Extends_refl ha (hb x (by simp)) fun env => by simp
    | x :: y :: rest =>
      have hx : x < a.lit := hb x (by simp)
      have hy : y < a.lit := hb y (by simp)
      obtain ⟨hm, _, _⟩ := makeand_spec ha
        (aiger_not_lt ha.lit_even hx) (aiger_not_lt ha.lit_even hy)
      have hb' : ∀ z ∈ rest ++ [aiger_not (makeand a (aiger_not x) (aiger_not y)).2],
          z < (makeand a (aiger_not x) (aiger_not y)).1.lit := by
        intro z hz
        rcases List.mem_append.mp hz with hz | hz
        · exact Nat.lt_of_lt_of_le (hb z (by simp [hz])) hm.2.1
        · simp only [List.mem_singleton] at hz
          subst hz
          exact aiger_not_lt hm.1.lit_even hm.2.2.1
      have hlen' : (rest ++ [aiger_not (makeand a (aiger_not x) (aiger_not y)).2]).length
          ≤ fuel + 1 := by
        simp only [List.length_append, List.length_cons, List.length_nil] at hlen ⊢
        omega
      have hex := ih (rest ++ [aiger_not (makeand a (aiger_not x) (aiger_not y)).2])
        (makeand a (aiger_not x) (aiger_not y)).1 hm.1 hb' hlen'
      show Extends ib vmap a
        (qreduceOrGo fuel (makeand a (aiger_not x) (aiger_not y)).1
          (rest ++ [aiger_not (makeand a (aiger_not x) (aiger_not y)).2])) _
      refine Extends_congr (Extends_trans hm hex) fun env => ?_
      beta_reduce
      have hxy : litSem env (makeand a (aiger_not x) (aiger_not y)).1.gates
          (makeand a (aiger_not x) (aiger_not y)).2 =
          (litSem env a.gates (aiger_not x) && litSem env a.gates (aiger_not y)) :=
        hm.2.2.2.2 env
      simp only [List.any_append, List.any_cons, List.any_nil]
      rw [any_congrP (fun z hz =>
        Extends_frame hm (hb z (by simp [hz])) env)]
      rw [litSem_not env (makeand a (aiger_not x) (aiger_not y)).1.gates
        (makeand a (aiger_not x) (aiger_not y)).2, hxy,
        litSem_not env a.gates x, litSem_not env a.gates y]
      cases litSem env a.gates x <;> cases litSem env a.gates y <;>
        cases rest.any (fun z => litSem env a.gates z) <;> simp

/-- State extension from a pair extension. -/
theorem ExtendsState_of {ib : Nat} {vmap : Nat → Nat} {a : AigState}
    {r : AigState × Nat} {f : (Nat → Bool) → Bool} (h : Extends ib vmap a r f) :
    ExtendsState ib vmap a r.1 :=
  ⟨h.1, h.2.1, h.2.2.2.1⟩

/-- State extension is reflexive on invariant states. -/
theorem ExtendsState_refl {ib : Nat} {vmap : Nat → Nat} {a : AigState}
    (ha : AigInv ib vmap a) : ExtendsState ib vmap a a :=
  ⟨ha, Nat.le_refl _, ⟨[], by simp, Nat.le_refl _⟩⟩

/-- State extension is transitive. -/
theorem ExtendsState_trans {ib : Nat} {vmap : Nat → Nat} {a b c : AigState}
    (h1 : ExtendsState ib vmap a b) (h2 : ExtendsState ib vmap b c) :
    ExtendsState ib vmap a c := by
  obtain ⟨i1, l1, ⟨t1, ht1, ho1⟩⟩ := h1
  obtain ⟨i2, l2, ⟨t2, ht2, ho2⟩⟩ := h2
  exact ⟨i2, Nat.le_trans l1 l2,
    ⟨t1 ++ t2, by rw [ht2, ht1, List.append_assoc], gatesOK_concat ho1 ho2⟩⟩

/-- Old literals keep their value across a state extension. -/
theorem ExtendsState_frame {ib : Nat} {vmap : Nat → Nat} {a b : AigState}
    (h : ExtendsState ib vmap a b) {l : Nat} (hl : l < a.lit) (env : Nat → Bool) :
    litSem env b.gates l = litSem env a.gates l := by
  obtain ⟨_, _, ⟨tail, ht, ho⟩⟩ := h
  rw [ht]
  exact litSem_append_frame ho hl env a.gates

/-- Continuing from an extended state. -/
theorem Extends_after {ib : Nat} {vmap : Nat → Nat} {a b : AigState}
    {r : AigState × Nat} {f : (Nat → Bool) → Bool}
    (hab : ExtendsState ib vmap a b) (h : Extends ib vmap b r f) :
    Extends ib vmap a r f := by
  obtain ⟨i1, l1, ⟨t1, ht1, ho1⟩⟩ := hab
  obtain ⟨i2, l2, lt2, ⟨t2, ht2, ho2⟩, s2⟩ := h
  exact ⟨i2, Nat.le_trans l1 l2, lt2,
    ⟨t1 ++ t2, by rw [ht2, ht1, List.append_assoc], gatesOK_concat ho1 ho2⟩, s2⟩

/-- The sum-of-products function of a cover is the disjunction over its
enumerated products of the conjunction of their signed variables. -/
theorem covEval_eq_products (σ : Nat → Bool) : ∀ c : Zdd,
    covEval σ c = (zddProducts c).any (fun p => p.all (fun w => zvarSem σ w)) := by
  intro c
  induction c with
  | bot => rfl
  | top => rfl
  | node w lo hi ihlo ihhi =>
    simp only [covEval, zddProducts, List.any_append, List.any_map,
      Function.comp_def, List.all_cons]
    rw [ihlo, ihhi, any_and_left]

/-- Under `noTrueLow`, no internal node contributes the empty product. -/
theorem zddProducts_ne_nil : ∀ {c : Zdd}, noTrueLow c = true → c ≠ Zdd.top →
    [] ∉ zddProducts c := by
  intro c
  induction c with
  | bot => intro _ _ h; cases h
  | top => intro _ h; exact absurd rfl h
  | node w lo hi ihlo ihhi =>
    intro hnt _ hmem
    simp only [noTrueLow, Bool.and_eq_true, decide_eq_true_eq] at hnt
    rcases List.mem_append.mp hmem with hmem | hmem
    · simp only [List.mem_map] at hmem
      obtain ⟨p, _, hp⟩ := hmem
      cases hp
    · exact ihlo hnt.1.2 hnt.1.1 hmem

/-- Soundness of the product-collection fold of `bdd_to_aig_cover_sop`. -/
theorem sopFold_sound {ib : Nat} {vmap : Nat → Nat} (hv : VmapOK ib vmap) :
    ∀ (ps : List (List Nat)) (a : AigState) (acc : List Nat),
      AigInv ib vmap a → (∀ x ∈ acc, x < a.lit) → (∀ p ∈ ps, p ≠ []) →
      ExtendsState ib vmap a (ps.foldl (sopStep vmap) (a, acc)).1 ∧
      (∀ x ∈ (ps.foldl (sopStep vmap) (a, acc)).2,
        x < (ps.foldl (sopStep vmap) (a, acc)).1.lit) ∧
      ∀ env, (ps.foldl (sopStep vmap) (a, acc)).2.any
          (fun x => litSem env (ps.foldl (sopStep vmap) (a, acc)).1.gates x) =
        (acc.any (fun x => litSem env a.gates x) ||
          ps.any (fun p => p.all (fun w => zvarSem (vmapEnv vmap env) w))) := by
  intro ps
  induction ps with
  | nil =>
    intro a acc ha hb _
    refine ⟨ExtendsState_refl ha, hb, fun env => by simp⟩
  | cons p rest ih =>
    intro a acc ha hb hne
    have hpne : p ≠ [] := hne p (by simp)
    have hmne : p.map (coverLit vmap) ≠ [] := by
      intro h
      exact hpne (List.map_eq_nil_iff.mp h)
    have hmb : ∀ x ∈ p.map (coverLit vmap), x < a.lit := by
      intro x hx
      simp only [List.mem_map] at hx
      obtain ⟨w, _, hw⟩ := hx
      subst hw
      exact Nat.lt_of_lt_of_le (coverLit_lt hv ha.ib_even w) ha.lit_ge
    obtain ⟨s, res, heq, hex⟩ := qreduceAndGo_sound (p.map (coverLit vmap)).length
      (p.map (coverLit vmap)) a ha hmb (by omega) hmne
    have hstep : sopStep vmap (a, acc) p = (s, acc ++ [res]) := by
      unfold sopStep qreduceAnd
      rw [heq]
    have hb' : ∀ x ∈ acc ++ [res], x < s.lit := by
      intro x hx
      rcases List.mem_append.mp hx with hx | hx
      · exact Nat.lt_of_lt_of_le (hb x hx) hex.2.1
      · simp only [List.mem_singleton] at hx
        subst hx
        exact hex.2.2.1
    have hne' : ∀ q ∈ rest, q ≠ [] := fun q hq => hne q (by simp [hq])
    have ihr := ih s (acc ++ [res]) hex.1 hb' hne'
    simp only [List.foldl_cons, hstep]
    refine ⟨ExtendsState_trans (ExtendsState_of hex) ihr.1, ihr.2.1, fun env => ?_⟩
    rw [ihr.2.2 env]
    have hres : litSem env s.gates res =
        p.all (fun w => zvarSem (vmapEnv vmap env) w) := by
      have h1 : litSem env s.gates res =
          (p.map (coverLit vmap)).all (fun x => litSem env a.gates x) :=
        hex.2.2.2.2 env
      rw [h1, List.all_map]
      refine all_congrP ?_
      intro w hw
      exact litSem_coverLit hv ha w env
    have hacc : acc.any (fun x => litSem env s.gates x) =
        acc.any (fun x => litSem env a.gates x) :=
      any_congrP (fun x hx => Extends_frame hex (hb x hx) env)
    simp only [List.any_append, List.any_cons, List.any_nil]
    rw [hacc, hres]
    cases acc.any (fun x => litSem env a.gates x) <;>
      cases p.all (fun w => zvarSem (vmapEnv vmap env) w) <;>
        cases rest.any (fun q => q.all (fun w => zvarSem (vmapEnv vmap env) w)) <;> simp

/-- Soundness of `bdd_to_aig_cover_sop` on covers whose internal nodes have no
`zdd_true` low child (no empty product below the root). -/
theorem bdd_to_aig_cover_sop_sound {ib : Nat} {vmap : Nat → Nat} (hv : VmapOK ib vmap)
    (cover : Zdd) (a : AigState) (ha : AigInv ib vmap a)
    (hnt : noTrueLow cover = true) :
    Extends ib vmap a (bdd_to_aig_cover_sop vmap a cover)
      (fun env => covEval (vmapEnv vmap env) cover) := by
  by_cases htop : cover = Zdd.top
  · subst htop
    unfold bdd_to_aig_cover_sop
    rw [if_pos rfl]
    have hlit2 : 2 ≤ a.lit := Nat.le_trans ha.ib_ge ha.lit_ge
    exact Extends_refl ha (by omega) fun env => by simp [litSem_one, covEval]
  · by_cases hbot : cover = Zdd.bot
    · subst hbot
      unfold bdd_to_aig_cover_sop
      rw [if_neg (by intro h; cases h), if_pos rfl]
      have hlit2 : 2 ≤ a.lit := Nat.le_trans ha.ib_ge ha.lit_ge
      exact Extends_refl ha (by omega) fun env => by simp [litSem_zero, covEval]
    · have hne : ∀ p ∈ zddProducts cover, p ≠ [] := by
        intro p hp h
        subst h
        exact zddProducts_ne_nil hnt htop hp
      obtain ⟨hes, hbound, hsem⟩ := sopFold_sound hv (zddProducts cover) a [] ha
        (fun x hx => absurd hx (List.not_mem_nil _)) hne
      have hq := qreduceOrGo_sound
        ((zddProducts cover).foldl (sopStep vmap) (a, [])).2.length
        ((zddProducts cover).foldl (sopStep vmap) (a, [])).2
        ((zddProducts cover).foldl (sopStep vmap) (a, [])).1
        hes.1 hbound (Nat.le_succ _)
      unfold bdd_to_aig_cover_sop
      rw [if_neg htop, if_neg hbot]
      refine Extends_congr (Extends_after hes hq) fun env => ?_
      beta_reduce
      rw [hsem env]
      simp only [List.any_nil, Bool.false_or]
      exact (covEval_eq_products (vmapEnv vmap env) cover).symm

/-- C5 (counterexample): on the cover with variable 0 whose low child is
`zdd_true`, enumerating products gives the singleton product and the empty
product; the SOP conversion silently drops the empty product's contribution and
returns the bare input literal, while the recursive conversion returns constant
true, which is the cover's sum-of-products function — so the two literals do not
denote the same Boolean function, refuting the claim for arbitrary covers. -/
theorem C5_counterexample :
    litSem (fun _ => false)
        (bdd_to_aig_cover_sop (fun _ => 2) (aigInit 4)
          (Zdd.node 0 Zdd.top Zdd.top)).1.gates
        (bdd_to_aig_cover_sop (fun _ => 2) (aigInit 4)
          (Zdd.node 0 Zdd.top Zdd.top)).2 = false ∧
    litSem (fun _ => false)
        (bdd_to_aig_cover (fun _ => 2) (aigInit 4)
          (Zdd.node 0 Zdd.top Zdd.top)).1.gates
        (bdd_to_aig_cover (fun _ => 2) (aigInit 4)
          (Zdd.node 0 Zdd.top Zdd.top)).2 = true ∧
    covEval (vmapEnv (fun _ => 2) (fun _ => false))
        (Zdd.node 0 Zdd.top Zdd.top) = true := by
  refine ⟨?_, ?_, ?_⟩ <;> decide

/-- C5 (amended): on every cover whose internal nodes have no `zdd_true` low
child — every cover produced by ISOP except the constant-true root, in
particular — the literal returned by `bdd_to_aig_cover_sop` and the literal
returned by `bdd_to_aig_cover` denote the same Boolean function of the AIG
inputs, namely the sum-of-products function of the cover. -/
theorem C5_cover_sop_amended (ib : Nat) (vmap : Nat → Nat) (a : AigState)
    (cover : Zdd) (hv : VmapOK ib vmap) (ha : AigInv ib vmap a)
    (hnt : noTrueLow cover = true) :
    (∀ env, litSem env (bdd_to_aig_cover_sop vmap a cover).1.gates
        (bdd_to_aig_cover_sop vmap a cover).2 = covEval (vmapEnv vmap env) cover) ∧
    (∀ env, litSem env (bdd_to_aig_cover vmap a cover).1.gates
        (bdd_to_aig_cover vmap a cover).2 = covEval (vmapEnv vmap env) cover) :=
  ⟨(bdd_to_aig_cover_sop_sound hv cover a ha hnt).2.2.2.2,
   (bdd_to_aig_cover_sound hv cover a ha).2.2.2.2⟩

/-- C5 (witness): the amended equivalence evaluated on the single-literal cover
of variable 0. -/
theorem C5_witness :
    (∀ env, litSem env
        (bdd_to_aig_cover_sop (fun _ => 2) (aigInit 4)
          (Zdd.node 0 Zdd.bot Zdd.top)).1.gates
        (bdd_to_aig_cover_sop (fun _ => 2) (aigInit 4)
          (Zdd.node 0 Zdd.bot Zdd.top)).2 =
      covEval (vmapEnv (fun _ => 2) env) (Zdd.node 0 Zdd.bot Zdd.top)) ∧
    (∀ env, litSem env
        (bdd_to_aig_cover (fun _ => 2) (aigInit 4)
          (Zdd.node 0 Zdd.bot Zdd.top)).1.gates
        (bdd_to_aig_cover (fun _ => 2) (aigInit 4)
          (Zdd.node 0 Zdd.bot Zdd.top)).2 =
      covEval (vmapEnv (fun _ => 2) env) (Zdd.node 0 Zdd.bot Zdd.top)) :=
  C5_cover_sop_amended 4 (fun _ => 2) (aigInit 4) (Zdd.node 0 Zdd.bot Zdd.top)
    (fun _ => ⟨show (2:Nat) % 2 = 0 by decide, Nat.le_refl 2, show (2:Nat) < 4 by decide⟩)
    ⟨rfl, by decide, rfl, by decide, Nat.le_refl 4,
      fun k l h => absurd h (List.not_mem_nil _),
      fun t r h => absurd h (List.not_mem_nil _),
      fun c r h => absurd h (List.not_mem_nil _)⟩
    (by decide)

/-! ## Naive game construction lemmas (C3) -/

/-- A transition incompatible with the valuation is skipped. -/
theorem naiveTransStep_skip {d : HoaData} {mp co : Bool} {fuel : Nat}
    {st : HoaState} {value : Nat} {tr : HoaTrans}
    (he : evalLabelNaive fuel (transLabel st tr) d.aliases (ucntAPs d) value = -1)
    (acc : List (Nat × PGVertex) × List Nat × Nat) :
    naiveTransStep d mp co fuel st value acc tr = acc := by
  simp [naiveTransStep, he]

/-- An enabled transition of a state with a state-level acceptance signature
connects its target directly. -/
theorem naiveTransStep_direct {d : HoaData} {mp co : Bool} {fuel : Nat}
    {st : HoaState} {value : Nat} {tr : HoaTrans} {sig : List Nat}
    (hst : st.accSig = some sig)
    (he : ¬ evalLabelNaive fuel (transLabel st tr) d.aliases (ucntAPs d) value = -1)
    (vs : List (Nat × PGVertex)) (si : List Nat) (nx : Nat) :
    naiveTransStep d mp co fuel st value (vs, si, nx) tr =
      (vs, si ++ [tr.successors.headD 0], nx) := by
  simp [naiveTransStep, he, hst]

/-- An enabled transition of a state without acceptance signature interposes a
fresh controller-owned priority vertex forwarding to the target. -/
theorem naiveTransStep_interpose {d : HoaData} {mp co : Bool} {fuel : Nat}
    {st : HoaState} {value : Nat} {tr : HoaTrans} (hst : st.accSig = none)
    (he : ¬ evalLabelNaive fuel (transLabel st tr) d.aliases (ucntAPs d) value = -1)
    (vs : List (Nat × PGVertex)) (si : List Nat) (nx : Nat) :
    naiveTransStep d mp co fuel st value (vs, si, nx) tr =
      (vs ++ [(nx, ⟨adjustPriority (tr.accSig.headD 0 : Nat) mp co
          (d.noAccSets : Nat), 0, [tr.successors.headD 0], VKind.finV⟩)],
        si ++ [nx], nx + 1) := by
  simp [naiveTransStep, he, hst]

/-- Mapping over a successor range peels the first index. -/
theorem range_map_shift {α : Type} (f : Nat → α) (n : Nat) :
    (List.range (n + 1)).map f = f 0 :: (List.range n).map (fun k => f (k + 1)) := by
  rw [List.range_succ_eq_map, List.map_cons, List.map_map]
  rfl

/-- Closed form of the transition loop of `constructGameNaive` for a state with a
state-level acceptance signature: the enabled targets are collected directly and
no vertex is created. -/
theorem naiveTransFold_some {d : HoaData} {mp co : Bool} {fuel : Nat}
    {st : HoaState} {value : Nat} {sig : List Nat} (hst : st.accSig = some sig) :
    ∀ (ts : List HoaTrans) (vs : List (Nat × PGVertex)) (si : List Nat) (nx : Nat),
      ts.foldl (naiveTransStep d mp co fuel st value) (vs, si, nx) =
        (vs, si ++ (enabledOf d fuel st value ts).map
          (fun tr => tr.successors.headD 0), nx) := by
  intro ts
  induction ts with
  | nil =>
    intro vs si nx
    simp [enabledOf]
  | cons tr rest ih =>
    intro vs si nx
    by_cases he : evalLabelNaive fuel (transLabel st tr) d.aliases (ucntAPs d) value = -1
    · rw [List.foldl_cons, naiveTransStep_skip he, ih vs si nx]
      simp [enabledOf, List.filter_cons, he]
    · rw [List.foldl_cons, naiveTransStep_direct hst he,
        ih vs (si ++ [tr.successors.headD 0]) nx]
      simp [enabledOf, List.filter_cons, he]

/-- Closed form of the transition loop of `constructGameNaive` for a state
without acceptance signature: the k-th enabled transition creates the interposed
controller-owned priority vertex at index `nx + k` with a single edge to the
transition's target, and the collected successors are exactly those vertices. -/
theorem naiveTransFold_none {d : HoaData} {mp co : Bool} {fuel : Nat}
    {st : HoaState} {value : Nat} (hst : st.accSig = none) :
    ∀ (ts : List HoaTrans) (vs : List (Nat × PGVertex)) (si : List Nat) (nx : Nat),
      ts.foldl (naiveTransStep d mp co fuel st value) (vs, si, nx) =
        (vs ++ (List.range (enabledOf d fuel st value ts).length).map (fun k =>
            (nx + k, ⟨adjustPriority
                (((enabledOf d fuel st value ts).getD k ⟨none, [], []⟩).accSig.headD 0 : Nat)
                mp co (d.noAccSets : Nat), 0,
              [((enabledOf d fuel st value ts).getD k ⟨none, [], []⟩).successors.headD 0],
              VKind.finV⟩)),
          si ++ (List.range (enabledOf d fuel st value ts).length).map (fun k => nx + k),
          nx + (enabledOf d fuel st value ts).length) := by
  intro ts
  induction ts with
  | nil =>
    intro vs si nx
    simp [enabledOf]
  | cons tr rest ih =>
    intro vs si nx
    by_cases he : evalLabelNaive fuel (transLabel st tr) d.aliases (ucntAPs d) value = -1
    · rw [List.foldl_cons, naiveTransStep_skip he, ih vs si nx]
      have hE : enabledOf d fuel st value (tr :: rest) = enabledOf d fuel st value rest := by
        simp [enabledOf, List.filter_cons, he]
      rw [hE]
    · have hE : enabledOf d fuel st value (tr :: rest) =
          tr :: enabledOf d fuel st value rest := by
        simp [enabledOf, List.filter_cons, he]
      rw [List.foldl_cons, naiveTransStep_interpose hst he, ih, hE]
      simp only [List.length_cons, range_map_shift, Prod.mk.injEq]
      refine ⟨?_, ?_, by omega⟩
      · rw [List.append_assoc, List.singleton_append]
        refine congrArg _ ?_
        refine congrArg₂ List.cons (by simp) ?_
        refine List.map_congr_left ?_
        intro k _
        simp only [List.getD_cons_succ, Prod.mk.injEq]
        exact ⟨by omega, trivial⟩
      · rw [List.append_assoc, List.singleton_append]
        refine congrArg _ ?_
        refine congrArg₂ List.cons (by simp) ?_
        refine List.map_congr_left ?_
        intro k _
        omega

/-- Closed form of one valuation round of `constructGameNaive`: exactly one
intermediate vertex is created, with priority 0 and owner 0, whose successors
are the direct targets of the enabled transitions (state-level acceptance
signature) or the freshly interposed priority vertices (no signature). -/
theorem naiveValuation_eq (d : HoaData) (mp co : Bool) (fuel : Nat)
    (st : HoaState) (value next : Nat) :
    naiveValuation d mp co fuel st value next =
      (match st.accSig with
       | some _ =>
         ([(next, ⟨0, 0, (enabledTrans d fuel st value).map
             (fun tr => tr.successors.headD 0), VKind.interV⟩)], next + 1, next)
       | none =>
         ((List.range (enabledTrans d fuel st value).length).map (fun k =>
             (next + k, ⟨adjustPriority
                 (((enabledTrans d fuel st value).getD k ⟨none, [], []⟩).accSig.headD 0 : Nat)
                 mp co (d.noAccSets : Nat), 0,
               [((enabledTrans d fuel st value).getD k ⟨none, [], []⟩).successors.headD 0],
               VKind.finV⟩))
           ++ [(next + (enabledTrans d fuel st value).length,
               ⟨0, 0, (List.range (enabledTrans d fuel st value).length).map
                 (fun k => next + k), VKind.interV⟩)],
          next + (enabledTrans d fuel st value).length + 1,
          next + (enabledTrans d fuel st value).length)) := by
  cases hst : st.accSig with
  | some sig =>
    unfold naiveValuation
    rw [naiveTransFold_some hst st.transitions [] [] next]
    simp [enabledTrans]
  | none =>
    unfold naiveValuation
    rw [naiveTransFold_none hst st.transitions [] [] next]
    simp [enabledTrans]

/-- One valuation round creates exactly one intermediate vertex, and every
intermediate vertex it creates has priority 0 and owner 0. -/
theorem naiveValuation_interV (d : HoaData) (mp co : Bool) (fuel : Nat)
    (st : HoaState) (value next : Nat) :
    ((naiveValuation d mp co fuel st value next).1).countP
        (fun v => decide (v.2.kind = VKind.interV)) = 1 ∧
    ∀ v ∈ (naiveValuation d mp co fuel st value next).1,
      v.2.kind = VKind.interV → v.2.priority = 0 ∧ v.2.owner = 0 := by
  rw [naiveValuation_eq]
  cases hst : st.accSig with
  | some sig =>
    refine ⟨by simp, ?_⟩
    intro v hv _
    simp only [List.mem_singleton] at hv
    subst hv
    exact ⟨rfl, rfl⟩
  | none =>
    constructor
    · rw [List.countP_append, List.countP_eq_zero.mpr, Nat.zero_add]
      · simp
      · intro v hv
        simp only [List.mem_map, List.mem_range] at hv
        obtain ⟨k, _, hk⟩ := hv
        subst hk
        simp
    · intro v hv
      rcases List.mem_append.mp hv with hv | hv
      · simp only [List.mem_map, List.mem_range] at hv
        obtain ⟨k, _, hk⟩ := hv
        subst hk
        intro hkind
        cases hkind
      · simp only [List.mem_singleton] at hv
        subst hv
        exact fun _ => ⟨rfl, rfl⟩

/-- Invariant of the valuation loop of one state: each valuation adds exactly one
intermediate vertex, and all added intermediate vertices have priority 0 and
owner 0. -/
theorem naiveStateFold_inv (d : HoaData) (mp co : Bool) (fuel : Nat) (st : HoaState) :
    ∀ (vl : List Nat) (vs : List (Nat × PGVertex)) (ss : List Nat) (nx : Nat),
      ((vl.foldl (fun acc value =>
          let r := naiveValuation d mp co fuel st value acc.2.2
          (acc.1 ++ r.1, acc.2.1 ++ [r.2.2], r.2.1)) (vs, ss, nx)).1).countP
            (fun v => decide (v.2.kind = VKind.interV)) =
        vs.countP (fun v => decide (v.2.kind = VKind.interV)) + vl.length ∧
      ∀ v ∈ ((vl.foldl (fun acc value =>
          let r := naiveValuation d mp co fuel st value acc.2.2
          (acc.1 ++ r.1, acc.2.1 ++ [r.2.2], r.2.1)) (vs, ss, nx)).1),
        v ∈ vs ∨ (v.2.kind = VKind.interV → v.2.priority = 0 ∧ v.2.owner = 0) := by
  intro vl
  induction vl with
  | nil =>
    intro vs ss nx
    exact ⟨rfl, fun v hv => Or.inl hv⟩
  | cons value rest ih =>
    intro vs ss nx
    simp only [List.foldl_cons]
    obtain ⟨ihc, ihm⟩ := ih (vs ++ (naiveValuation d mp co fuel st value nx).1)
      (ss ++ [(naiveValuation d mp co fuel st value nx).2.2])
      (naiveValuation d mp co fuel st value nx).2.1
    refine ⟨?_, ?_⟩
    · rw [ihc, List.countP_append, (naiveValuation_interV d mp co fuel st value nx).1,
        List.length_cons]
      omega
    · intro v hv
      rcases ihm v hv with hv' | hv'
      · rcases List.mem_append.mp hv' with hv'' | hv''
        · exact Or.inl hv''
        · exact Or.inr ((naiveValuation_interV d mp co fuel st value nx).2 v hv'')
      · exact Or.inr hv'

/-- One state of `constructGameNaive` creates exactly `2^uap_count` intermediate
vertices, all with priority 0 and owner 0 (the state vertex itself is a state
vertex, never an intermediate one). -/
theorem naiveState_interV (d : HoaData) (mp co : Bool) (fuel : Nat)
    (st : HoaState) (next : Nat) :
    ((naiveState d mp co fuel st next).1).countP
        (fun v => decide (v.2.kind = VKind.interV)) = 2 ^ uapCount d ∧
    ∀ v ∈ (naiveState d mp co fuel st next).1,
      v.2.kind = VKind.interV → v.2.priority = 0 ∧ v.2.owner = 0 := by
  obtain ⟨hc, hm⟩ := naiveStateFold_inv d mp co fuel st
    (List.range (2 ^ uapCount d)) [] [] next
  unfold naiveState
  constructor
  · rw [List.countP_append, hc]
    simp
  · intro v hv
    rcases List.mem_append.mp hv with hv | hv
    · rcases hm v hv with hv' | hv'
      · exact absurd hv' (List.not_mem_nil _)
      · exact hv'
    · simp only [List.mem_singleton] at hv
      subst hv
      intro hkind
      cases hkind

/-- Invariant of the state loop of `constructGameNaive`. -/
theorem constructGameNaiveFold_inv (d : HoaData) (mp co : Bool) (fuel : Nat) :
    ∀ (sts : List HoaState) (vs : List (Nat × PGVertex)) (nx : Nat),
      ((sts.foldl (fun acc st =>
          let r := naiveState d mp co fuel st acc.2
          (acc.1 ++ r.1, r.2)) (vs, nx)).1).countP
            (fun v => decide (v.2.kind = VKind.interV)) =
        vs.countP (fun v => decide (v.2.kind = VKind.interV)) +
          sts.length * 2 ^ uapCount d ∧
      ∀ v ∈ ((sts.foldl (fun acc st =>
          let r := naiveState d mp co fuel st acc.2
          (acc.1 ++ r.1, r.2)) (vs, nx)).1),
        v ∈ vs ∨ (v.2.kind = VKind.interV → v.2.priority = 0 ∧ v.2.owner = 0) := by
  intro sts
  induction sts with
  | nil =>
    intro vs nx
    exact ⟨by simp, fun v hv => Or.inl hv⟩
  | cons st rest ih =>
    intro vs nx
    simp only [List.foldl_cons]
    obtain ⟨ihc, ihm⟩ := ih (vs ++ (naiveState d mp co fuel st nx).1)
      (naiveState d mp co fuel st nx).2
    refine ⟨?_, ?_⟩
    · rw [ihc, List.countP_append, (naiveState_interV d mp co fuel st nx).1,
        List.length_cons]
      ring
    · intro v hv
      rcases ihm v hv with hv' | hv'
      · rcases List.mem_append.mp hv' with hv'' | hv''
        · exact Or.inl hv''
        · exact Or.inr ((naiveState_interV d mp co fuel st nx).2 v hv'')
      · exact Or.inr hv'

/-- C3 (counterexample): in the game `constructGameNaive` builds for the example
automaton, every intermediate vertex has owner 0 — the controller — with
priority 0, refuting the claim that the intermediate valuation vertices are
owned by the environment (owner 1); the source calls
`game->init_vertex(vinter, 0, 0)`. -/
theorem C3_counterexample :
    ((constructGameNaive exA false false 1).filter
        (fun v => decide (v.2.kind = VKind.interV))).map
      (fun v => (v.2.priority, v.2.owner)) = [(0, 0), (0, 0), (0, 0), (0, 0)] ∧
    ¬ ∀ v ∈ constructGameNaive exA false false 1,
        v.2.kind = VKind.interV → v.2.owner = 1 := by
  refine ⟨by decide, by decide⟩

/-- C3 (amended): in the game built by `constructGameNaive`, for every state and
valuation exactly one intermediate vertex is created, with priority 0 and owner 0
(the controller, not the environment); its successors are the direct targets of
the enabled transitions when the state carries a state-level acceptance
signature, and otherwise one freshly interposed controller-owned vertex per
enabled transition, carrying the transition's adjusted priority, with a single
edge to the transition's target. -/
theorem C3_naive_split_amended (d : HoaData) (mp co : Bool) (fuel : Nat)
    (st : HoaState) (value next : Nat) :
    naiveValuation d mp co fuel st value next =
      (match st.accSig with
       | some _ =>
         ([(next, ⟨0, 0, (enabledTrans d fuel st value).map
             (fun tr => tr.successors.headD 0), VKind.interV⟩)], next + 1, next)
       | none =>
         ((List.range (enabledTrans d fuel st value).length).map (fun k =>
             (next + k, ⟨adjustPriority
                 (((enabledTrans d fuel st value).getD k ⟨none, [], []⟩).accSig.headD 0 : Nat)
                 mp co (d.noAccSets : Nat), 0,
               [((enabledTrans d fuel st value).getD k ⟨none, [], []⟩).successors.headD 0],
               VKind.finV⟩))
           ++ [(next + (enabledTrans d fuel st value).length,
               ⟨0, 0, (List.range (enabledTrans d fuel st value).length).map
                 (fun k => next + k), VKind.interV⟩)],
          next + (enabledTrans d fuel st value).length + 1,
          next + (enabledTrans d fuel st value).length)) ∧
    (constructGameNaive d mp co fuel).countP
        (fun v => decide (v.2.kind = VKind.interV)) =
      d.states.length * 2 ^ uapCount d ∧
    ∀ v ∈ constructGameNaive d mp co fuel, v.2.kind = VKind.interV →
      v.2.priority = 0 ∧ v.2.owner = 0 := by
  obtain ⟨hc, hm⟩ := constructGameNaiveFold_inv d mp co fuel d.states [] d.states.length
  refine ⟨naiveValuation_eq d mp co fuel st value next, ?_, ?_⟩
  · unfold constructGameNaive
    rw [hc]
    simp
  · intro v hv hk
    rcases hm v hv with hv' | hv'
    · exact absurd hv' (List.not_mem_nil _)
    · exact hv' hk

/-- C3 (witness): the amended description evaluated on the example automaton,
from the state with a state-level acceptance signature under the valuation
setting its atomic proposition. -/
theorem C3_witness :
    (naiveValuation exA false false 1 exStSome 1 2 =
      ([(2, ⟨0, 0, [1], VKind.interV⟩)], 3, 2)) ∧
    ((constructGameNaive exA false false 1).countP
        (fun v => decide (v.2.kind = VKind.interV)) = 4) ∧
    ((2, (⟨0, 0, [], VKind.interV⟩ : PGVertex)).2.priority = 0 ∧
      (2, (⟨0, 0, [], VKind.interV⟩ : PGVertex)).2.owner = 0) :=
  ⟨(C3_naive_split_amended exA false false 1 exStSome 1 2).1,
   (C3_naive_split_amended exA false false 1 exStSome 1 2).2.1,
   (C3_naive_split_amended exA false false 1 exStSome 1 2).2.2
     (2, ⟨0, 0, [], VKind.interV⟩) (by decide) rfl⟩

/-! ## Priority invariants (C4) -/

/-- A defaulted lookup inside the bounds is a member. -/
theorem getD_mem_of_lt {α : Type} : ∀ (l : List α) (k : Nat) (dflt : α),
    k < l.length → l.getD k dflt ∈ l := by
  intro l
  induction l with
  | nil => intro k dflt h; cases h
  | cons a t ih =>
    intro k dflt h
    cases k with
    | zero => exact List.mem_cons_self _ _
    | succ k =>
      rw [List.getD_cons_succ]
      exact List.mem_cons_of_mem _ (ih k dflt (by simpa using h))

/-- Every adjusted priority of an in-range acceptance index is at least 1. -/
theorem adjustPriority_ge_one (mp co : Bool) (p k : Int) (hp : 0 ≤ p) (hk : p ≤ k) :
    1 ≤ adjustPriority p mp co k := by
  unfold adjustPriority
  cases mp <;> cases co <;> simp only [Bool.not_true, Bool.not_false, if_true, if_false] <;> omega

/-- The vertices created by one valuation round of `constructGameNaive` are the
intermediate vertex (priority 0, owner 0) and interposed transition-priority
vertices (owner 0, adjusted priority of a transition of the state). -/
theorem naiveValuation_members (d : HoaData) (mp co : Bool) (fuel : Nat)
    (st : HoaState) (value next : Nat) :
    ∀ v ∈ (naiveValuation d mp co fuel st value next).1,
      (v.2.kind = VKind.interV ∧ v.2.priority = 0 ∧ v.2.owner = 0) ∨
      (v.2.kind = VKind.finV ∧ v.2.owner = 0 ∧ ∃ tr ∈ st.transitions,
        v.2.priority = adjustPriority (tr.accSig.headD 0 : Nat) mp co
          (d.noAccSets : Nat)) := by
  rw [naiveValuation_eq]
  cases hst : st.accSig with
  | some sig =>
    intro v hv
    simp only [List.mem_singleton] at hv
    subst hv
    exact Or.inl ⟨rfl, rfl, rfl⟩
  | none =>
    intro v hv
    rcases List.mem_append.mp hv with hv | hv
    · simp only [List.mem_map, List.mem_range] at hv
      obtain ⟨k, hk, hkv⟩ := hv
      subst hkv
      refine Or.inr ⟨rfl, rfl,
        (enabledTrans d fuel st value).getD k ⟨none, [], []⟩, ?_, rfl⟩
      exact List.mem_of_mem_filter
        (getD_mem_of_lt (enabledTrans d fuel st value) k ⟨none, [], []⟩ hk)
    · simp only [List.mem_singleton] at hv
      subst hv
      exact Or.inl ⟨rfl, rfl, rfl⟩

/-- Vertex membership through the valuation loop of one state. -/
theorem naiveStateFold_members (d : HoaData) (mp co : Bool) (fuel : Nat)
    (st : HoaState) :
    ∀ (vl : List Nat) (vs : List (Nat × PGVertex)) (ss : List Nat) (nx : Nat),
      ∀ v ∈ ((vl.foldl (fun acc value =>
          let r := naiveValuation d mp co fuel st value acc.2.2
          (acc.1 ++ r.1, acc.2.1 ++ [r.2.2], r.2.1)) (vs, ss, nx)).1),
        v ∈ vs ∨ ∃ value next, v ∈ (naiveValuation d mp co fuel st value next).1 := by
  intro vl
  induction vl with
  | nil =>
    intro vs ss nx v hv
    exact Or.inl hv
  | cons value rest ih =>
    intro vs ss nx v hv
    simp only [List.foldl_cons] at hv
    rcases ih _ _ _ v hv with hv' | hv'
    · rcases List.mem_append.mp hv' with hv'' | hv''
      · exact Or.inl hv''
      · exact Or.inr ⟨value, nx, hv''⟩
    · exact Or.inr hv'

/-- The vertices created for one state of `constructGameNaive`: the valuation
vertices plus the state vertex at the state's id, owner 1, with the state's
adjusted priority (0 when the state has no acceptance signature). -/
theorem naiveState_members (d : HoaData) (mp co : Bool) (fuel : Nat)
    (st : HoaState) (next : Nat) :
    ∀ v ∈ (naiveState d mp co fuel st next).1,
      (∃ value nx, v ∈ (naiveValuation d mp co fuel st value nx).1) ∨
      (v.1 = st.id ∧ v.2.kind = VKind.stateV ∧ v.2.owner = 1 ∧
        v.2.priority = (match st.accSig with
          | some sig => adjustPriority (sig.headD 0 : Nat) mp co (d.noAccSets : Nat)
          | none => 0)) := by
  unfold naiveState
  intro v hv
  rcases List.mem_append.mp hv with hv | hv
  · rcases naiveStateFold_members d mp co fuel st _ [] [] next v hv with hv' | hv'
    · exact absurd hv' (List.not_mem_nil _)
    · exact Or.inl hv'
  · simp only [List.mem_singleton] at hv
    subst hv
    exact Or.inr ⟨rfl, rfl, rfl, rfl⟩

/-- Vertex membership through the state loop of `constructGameNaive`. -/
theorem constructGameNaive_members (d : HoaData) (mp co : Bool) (fuel : Nat) :
    ∀ v ∈ constructGameNaive d mp co fuel,
      ∃ st ∈ d.states, ∃ next, v ∈ (naiveState d mp co fuel st next).1 := by
  unfold constructGameNaive
  suffices h : ∀ (sts : List HoaState) (vs : List (Nat × PGVertex)) (nx : Nat),
      ∀ v ∈ ((sts.foldl (fun acc st =>
          let r := naiveState d mp co fuel st acc.2
          (acc.1 ++ r.1, r.2)) (vs, nx)).1),
        v ∈ vs ∨ ∃ st ∈ sts, ∃ next, v ∈ (naiveState d mp co fuel st next).1 by
    intro v hv
    rcases h d.states [] d.states.length v hv with hv' | hv'
    · exact absurd hv' (List.not_mem_nil _)
    · exact hv'
  intro sts
  induction sts with
  | nil =>
    intro vs nx v hv
    exact Or.inl hv
  | cons st rest ih =>
    intro vs nx v hv
    simp only [List.foldl_cons] at hv
    rcases ih _ _ v hv with hv' | hv'
    · rcases List.mem_append.mp hv' with hv'' | hv''
      · exact Or.inl hv''
      · exact Or.inr ⟨st, List.mem_cons_self _ _, nx, hv''⟩
    · obtain ⟨st', hst', hmem⟩ := hv'
      exact Or.inr ⟨st', List.mem_cons_of_mem _ hst', hmem⟩

/-- One target leaf of `constructGame` adds at most one vertex: an interposed
priority vertex with owner 0 and the leaf's non-zero decoded priority. -/
theorem cgTargetStep_members (acc : CGAcc) (lval : Nat) :
    ∀ v ∈ (cgTargetStep acc lval).verts,
      v ∈ acc.verts ∨
      (v.2.kind = VKind.finV ∧ v.2.owner = 0 ∧ 1 ≤ v.2.priority) := by
  intro v hv
  simp only [cgTargetStep] at hv
  by_cases hp : lval / 2 ^ 32 ≠ 0
  · rw [if_pos hp] at hv
    cases hl : lookupA acc.target_vertices lval with
    | none =>
      rw [hl] at hv
      have hv' : v ∈ acc.verts ++ [(acc.next,
          (⟨((lval / 2 ^ 32 : Nat) : Int), 0, [lval % 2 ^ 32],
            VKind.finV⟩ : PGVertex))] := hv
      rcases List.mem_append.mp hv' with h2 | h2
      · exact Or.inl h2
      · simp only [List.mem_singleton] at h2
        subst h2
        refine Or.inr ⟨rfl, rfl, ?_⟩
        have h1 : 1 ≤ lval / 2 ^ 32 := Nat.one_le_iff_ne_zero.mpr hp
        show (1 : Int) ≤ ((lval / 2 ^ 32 : Nat) : Int)
        exact_mod_cast h1
    | some vfin =>
      rw [hl] at hv
      exact Or.inl hv
  · rw [if_neg hp] at hv
    exact Or.inl hv

/-- Vertex membership through the target loop of one subroot. -/
theorem cgTargetFold_members :
    ∀ (ls : List Nat) (acc : CGAcc), ∀ v ∈ (ls.foldl cgTargetStep acc).verts,
      v ∈ acc.verts ∨
      (v.2.kind = VKind.finV ∧ v.2.owner = 0 ∧ 1 ≤ v.2.priority) := by
  intro ls
  induction ls with
  | nil =>
    intro acc v hv
    exact Or.inl hv
  | cons lval rest ih =>
    intro acc v hv
    simp only [List.foldl_cons] at hv
    rcases ih _ v hv with hv' | hv'
    · exact cgTargetStep_members acc lval v hv'
    · exact Or.inr hv'

/-- The vertices added by one subroot of `constructGame`: interposed priority
vertices (owner 0, non-zero priority) and one intermediate vertex (priority 0,
owner 0), or nothing when the target set was seen before. -/
theorem cgSubroot_members (sb pb : Nat) (acc : CGAcc) (ib : Mtb) :
    ∀ v ∈ (cgSubroot sb pb acc ib).verts,
      v ∈ acc.verts ∨
      (v.2.kind = VKind.finV ∧ v.2.owner = 0 ∧ 1 ≤ v.2.priority) ∨
      (v.2.kind = VKind.interV ∧ v.2.owner = 0 ∧ v.2.priority = 0) := by
  cases hl : lookupA acc.inter_vertices (collect_targets sb pb ib []).2 with
  | none =>
    intro v hv
    simp only [cgSubroot, hl] at hv
    rcases List.mem_append.mp hv with hv | hv
    · rcases cgTargetFold_members (collect_targets sb pb ib []).1 acc v hv with hv' | hv'
      · exact Or.inl hv'
      · exact Or.inr (Or.inl hv')
    · simp only [List.mem_singleton] at hv
      subst hv
      exact Or.inr (Or.inr ⟨rfl, rfl, rfl⟩)
  | some vinter =>
    intro v hv
    simp only [cgSubroot, hl] at hv
    exact Or.inl hv

/-- Vertex membership through the subroot loop of one state. -/
theorem cgSubrootFold_members (sb pb : Nat) :
    ∀ (bds : List Mtb) (acc : CGAcc), ∀ v ∈ (bds.foldl (cgSubroot sb pb) acc).verts,
      v ∈ acc.verts ∨
      (v.2.kind = VKind.finV ∧ v.2.owner = 0 ∧ 1 ≤ v.2.priority) ∨
      (v.2.kind = VKind.interV ∧ v.2.owner = 0 ∧ v.2.priority = 0) := by
  intro bds
  induction bds with
  | nil =>
    intro acc v hv
    exact Or.inl hv
  | cons ib rest ih =>
    intro acc v hv
    simp only [List.foldl_cons] at hv
    rcases ih _ v hv with hv' | hv'
    · exact cgSubroot_members sb pb acc ib v hv'
    · exact Or.inr hv'

/-- The vertices created for one state of `constructGame`: interposed priority
vertices, intermediate vertices, and the state vertex at the state's id, owner 1,
with the state's adjusted priority (0 when its acceptance signature is empty). -/
theorem cgState_members (d : HoaData) (mp co : Bool) (fuel sb pb : Nat)
    (acc : List (Nat × PGVertex) × Nat) (st : HoaState) :
    ∀ v ∈ (cgState d mp co fuel sb pb acc st).1,
      v ∈ acc.1 ∨
      (v.2.kind = VKind.finV ∧ v.2.owner = 0 ∧ 1 ≤ v.2.priority) ∨
      (v.2.kind = VKind.interV ∧ v.2.owner = 0 ∧ v.2.priority = 0) ∨
      (v.1 = st.id ∧ v.2.kind = VKind.stateV ∧ v.2.owner = 1 ∧
        v.2.priority = (if (st.accSig.getD []).length ≠ 0 then
          adjustPriority ((st.accSig.getD []).headD 0 : Nat) mp co (d.noAccSets : Nat)
          else 0)) := by
  unfold cgState
  intro v hv
  rcases List.mem_append.mp hv with hv | hv
  · rcases cgSubrootFold_members sb pb _ _ v hv with hv' | hv' | hv'
    · exact Or.inl hv'
    · exact Or.inr (Or.inl hv')
    · exact Or.inr (Or.inr (Or.inl hv'))
  · simp only [List.mem_singleton] at hv
    subst hv
    exact Or.inr (Or.inr (Or.inr ⟨rfl, rfl, rfl, rfl⟩))

/-- Vertex membership in the game built by `constructGame`. -/
theorem constructGame_members (d : HoaData) (mp co : Bool) (fuel : Nat) :
    ∀ v ∈ constructGame d mp co fuel,
      (v.2.kind = VKind.finV ∧ v.2.owner = 0 ∧ 1 ≤ v.2.priority) ∨
      (v.2.kind = VKind.interV ∧ v.2.owner = 0 ∧ v.2.priority = 0) ∨
      ∃ st ∈ d.states, v.1 = st.id ∧ v.2.kind = VKind.stateV ∧ v.2.owner = 1 ∧
        v.2.priority = (if (st.accSig.getD []).length ≠ 0 then
          adjustPriority ((st.accSig.getD []).headD 0 : Nat) mp co (d.noAccSets : Nat)
          else 0) := by
  unfold constructGame
  suffices h : ∀ (sts : List HoaState) (vs : List (Nat × PGVertex)) (nx : Nat),
      ∀ v ∈ ((sts.foldl (cgState d mp co fuel (statebitsOf d.states.length)
          (Nat.log2 (2 + 2 * ((d.noAccSets + 1) / 2)) + 1)) (vs, nx)).1),
        v ∈ vs ∨
        (v.2.kind = VKind.finV ∧ v.2.owner = 0 ∧ 1 ≤ v.2.priority) ∨
        (v.2.kind = VKind.interV ∧ v.2.owner = 0 ∧ v.2.priority = 0) ∨
        ∃ st ∈ sts, v.1 = st.id ∧ v.2.kind = VKind.stateV ∧ v.2.owner = 1 ∧
          v.2.priority = (if (st.accSig.getD []).length ≠ 0 then
            adjustPriority ((st.accSig.getD []).headD 0 : Nat) mp co (d.noAccSets : Nat)
            else 0) by
    intro v hv
    rcases h d.states [] d.states.length v hv with hv' | hv' | hv' | hv'
    · exact absurd hv' (List.not_mem_nil _)
    · exact Or.inl hv'
    · exact Or.inr (Or.inl hv')
    · exact Or.inr (Or.inr hv')
  intro sts
  induction sts with
  | nil =>
    intro vs nx v hv
    exact Or.inl hv
  | cons st rest ih =>
    intro vs nx v hv
    simp only [List.foldl_cons] at hv
    rcases ih _ _ v hv with hv' | hv' | hv' | hv'
    · rcases cgState_members d mp co fuel _ _ (vs, nx) st v hv' with h2 | h2 | h2 | h2
      · exact Or.inl h2
      · exact Or.inr (Or.inl h2)
      · exact Or.inr (Or.inr (Or.inl h2))
      · exact Or.inr (Or.inr (Or.inr ⟨st, List.mem_cons_self _ _, h2⟩))
    · exact Or.inr (Or.inl hv')
    · exact Or.inr (Or.inr (Or.inl hv'))
    · obtain ⟨st', hst', hp⟩ := hv'
      exact Or.inr (Or.inr (Or.inr ⟨st', List.mem_cons_of_mem _ hst', hp⟩))

/-- C4: for a well-formed automaton, under every parity combination, every
adjusted priority of an in-range acceptance index is at least 1, and every
vertex of the game built by `constructGameNaive` or by `constructGame` has
non-negative priority, with priority 0 only on intermediate valuation-choice
vertices and on state vertices of states carrying no (or an empty) acceptance
signature. -/
theorem C4_priorities (d : HoaData) (mp co : Bool) (fuel : Nat)
    (hwf : WFAccSig d) :
    (∀ p k : Int, 0 ≤ p → p ≤ k → 1 ≤ adjustPriority p mp co k) ∧
    (∀ v ∈ constructGameNaive d mp co fuel,
      0 ≤ v.2.priority ∧
        (v.2.priority = 0 → v.2.kind = VKind.interV ∨
          (v.2.kind = VKind.stateV ∧
            ∃ st ∈ d.states, v.1 = st.id ∧ st.accSig = none))) ∧
    (∀ v ∈ constructGame d mp co fuel,
      0 ≤ v.2.priority ∧
        (v.2.priority = 0 → v.2.kind = VKind.interV ∨
          (v.2.kind = VKind.stateV ∧
            ∃ st ∈ d.states, v.1 = st.id ∧ (st.accSig.getD []).length = 0))) := by
  refine ⟨fun p k hp hk => adjustPriority_ge_one mp co p k hp hk, ?_, ?_⟩
  · intro v hv
    obtain ⟨st, hst, next, hmem⟩ := constructGameNaive_members d mp co fuel v hv
    rcases naiveState_members d mp co fuel st next v hmem with hv' | hv'
    · obtain ⟨value, nx, hval⟩ := hv'
      rcases naiveValuation_members d mp co fuel st value nx v hval with h2 | h2
      · rw [h2.2.1]
        exact ⟨le_refl 0, fun _ => Or.inl h2.1⟩
      · obtain ⟨hkind, _, tr, htr, hprio⟩ := h2
        have hb := (hwf st hst).2 tr htr
        have h1 : 1 ≤ v.2.priority := by
          rw [hprio]
          exact adjustPriority_ge_one mp co _ _ (Int.ofNat_nonneg _) hb
        exact ⟨by omega, fun h0 => absurd h0 (by omega)⟩
    · obtain ⟨hid, hkind, _, hprio⟩ := hv'
      cases hacc : st.accSig with
      | some sig =>
        rw [hacc] at hprio
        have hb := (hwf st hst).1 sig hacc
        have h1 : 1 ≤ v.2.priority := by
          rw [hprio]
          exact adjustPriority_ge_one mp co _ _ (Int.ofNat_nonneg _) hb
        exact ⟨by omega, fun h0 => absurd h0 (by omega)⟩
      | none =>
        rw [hacc] at hprio
        exact ⟨by rw [hprio], fun _ => Or.inr ⟨hkind, st, hst, hid, hacc⟩⟩
  · intro v hv
    rcases constructGame_members d mp co fuel v hv with hv' | hv' | hv'
    · obtain ⟨_, _, h1⟩ := hv'
      exact ⟨by omega, fun h0 => absurd h0 (by omega)⟩
    · exact ⟨by rw [hv'.2.2], fun _ => Or.inl hv'.1⟩
    · obtain ⟨st, hst, hid, hkind, _, hprio⟩ := hv'
      by_cases hlen : (st.accSig.getD []).length ≠ 0
      · rw [if_pos hlen] at hprio
        cases hacc : st.accSig with
        | none =>
          rw [hacc] at hlen
          exact absurd rfl hlen
        | some sig =>
          have hb := (hwf st hst).1 sig hacc
          rw [hacc] at hprio
          have h1 : 1 ≤ v.2.priority := by
            rw [hprio]
            exact adjustPriority_ge_one mp co _ _ (Int.ofNat_nonneg _) hb
          exact ⟨by omega, fun h0 => absurd h0 (by omega)⟩
      · rw [if_neg hlen] at hprio
        push_neg at hlen
        exact ⟨by rw [hprio], fun _ => Or.inr ⟨hkind, st, hst, hid, hlen⟩⟩

/-- The example automaton is well-formed: all acceptance indices are in range. -/
theorem exA_wf : WFAccSig exA := by
  intro st hst
  rcases List.mem_cons.mp hst with h | hst
  · subst h
    refine ⟨fun sig hsig => ?_, fun tr htr => ?_⟩
    · injection hsig with e
      subst e
      decide
    · rcases List.mem_cons.mp htr with h2 | h2
      · subst h2
        decide
      · exact absurd h2 (List.not_mem_nil _)
  · rcases List.mem_cons.mp hst with h | hst
    · subst h
      refine ⟨fun sig hsig => Option.noConfusion hsig, fun tr htr => ?_⟩
      rcases List.mem_cons.mp htr with h2 | h2
      · subst h2
        decide
      · exact absurd h2 (List.not_mem_nil _)
    · exact absurd hst (List.not_mem_nil _)

/-- C4 (witness): the priority invariant evaluated on the example automaton, at
an adjusted priority, an intermediate vertex of the naive game and an
intermediate vertex of the explicit-split game. -/
theorem C4_witness :
    ((1 : Int) ≤ adjustPriority 0 false false 2) ∧
    (0 ≤ ((2 : Nat), (⟨0, 0, [], VKind.interV⟩ : PGVertex)).2.priority ∧
      (((2 : Nat), (⟨0, 0, [], VKind.interV⟩ : PGVertex)).2.priority = 0 →
        ((2 : Nat), (⟨0, 0, [], VKind.interV⟩ : PGVertex)).2.kind = VKind.interV ∨
        (((2 : Nat), (⟨0, 0, [], VKind.interV⟩ : PGVertex)).2.kind = VKind.stateV ∧
          ∃ st ∈ exA.states,
            ((2 : Nat), (⟨0, 0, [], VKind.interV⟩ : PGVertex)).1 = st.id ∧
            st.accSig = none))) ∧
    (0 ≤ ((2 : Nat), (⟨0, 0, [1], VKind.interV⟩ : PGVertex)).2.priority ∧
      (((2 : Nat), (⟨0, 0, [1], VKind.interV⟩ : PGVertex)).2.priority = 0 →
        ((2 : Nat), (⟨0, 0, [1], VKind.interV⟩ : PGVertex)).2.kind = VKind.interV ∨
        (((2 : Nat), (⟨0, 0, [1], VKind.interV⟩ : PGVertex)).2.kind = VKind.stateV ∧
          ∃ st ∈ exA.states,
            ((2 : Nat), (⟨0, 0, [1], VKind.interV⟩ : PGVertex)).1 = st.id ∧
            (st.accSig.getD []).length = 0))) :=
  ⟨(C4_priorities exA false false 1 exA_wf).1 0 2 (by decide) (by decide),
   (C4_priorities exA false false 1 exA_wf).2.1
     (2, ⟨0, 0, [], VKind.interV⟩) (by decide),
   (C4_priorities exA false false 1 exA_wf).2.2
     (2, ⟨0, 0, [1], VKind.interV⟩) (by decide)⟩

/-! ## Plain-BDD lemmas for the ISOP round-trip (C7) -/

/-- Ordering bounds are antitone. -/
theorem OrdB_mono {m n : Nat} (h : m ≤ n) : ∀ {x : B}, OrdB n x → OrdB m x := by
  intro x
  induction x with
  | f => intro _; trivial
  | t => intro _; trivial
  | nd v lo hi _ _ =>
    intro hx
    obtain ⟨h1, h2, h3⟩ := hx
    exact ⟨Nat.le_trans h h1, h2, h3⟩

/-- A BDD whose variables are all at least `m` is independent of variables
below `m`. -/
theorem evalB_indep : ∀ (x : B) (m : Nat), OrdB m x → ∀ (v : Nat), v < m →
    ∀ (σ : Nat → Bool) (b : Bool), evalB (updF σ v b) x = evalB σ x := by
  intro x
  induction x with
  | f => intros; rfl
  | t => intros; rfl
  | nd w lo hi ihlo ihhi =>
    intro m hx v hv σ b
    obtain ⟨h1, h2, h3⟩ := hx
    have hw : ¬ (w = v) := by omega
    have el := ihlo (w + 1) h2 v (by omega) σ b
    have eh := ihhi (w + 1) h3 v (by omega) σ b
    simp [evalB, updF, hw, el, eh]

/-- Semantics of the reducing node constructor. -/
theorem mkB_sem (σ : Nat → Bool) (v : Nat) (lo hi : B) :
    evalB σ (mkB v lo hi) = if σ v then evalB σ hi else evalB σ lo := by
  unfold mkB
  by_cases h : lo = hi
  · rw [if_pos h, h]
    exact (ite_self _).symm
  · rw [if_neg h]
    rfl

/-- The reducing constructor keeps the ordering bound. -/
theorem mkB_ord {n v : Nat} {lo hi : B} (hnv : n ≤ v) (hlo : OrdB (v + 1) lo)
    (hhi : OrdB (v + 1) hi) : OrdB n (mkB v lo hi) := by
  unfold mkB
  split_ifs with h
  · exact OrdB_mono (by omega) hlo
  · exact ⟨hnv, hlo, hhi⟩

/-- The reducing constructor keeps reducedness. -/
theorem mkB_red {v : Nat} {lo hi : B} (hlo : RedB lo) (hhi : RedB hi) :
    RedB (mkB v lo hi) := by
  unfold mkB
  split_ifs with h
  · exact hlo
  · exact ⟨h, hlo, hhi⟩

/-- The reducing constructor keeps the variable bound. -/
theorem mkB_vars {N v : Nat} {lo hi : B} (hv : v < N) (hlo : varsLt N lo)
    (hhi : varsLt N hi) : varsLt N (mkB v lo hi) := by
  unfold mkB
  split_ifs with h
  · exact hlo
  · exact ⟨hv, hlo, hhi⟩

/-- Semantics of BDD negation. -/
theorem bnot_sem (σ : Nat → Bool) : ∀ x, evalB σ (bnot x) = ! evalB σ x := by
  intro x
  induction x with
  | f => rfl
  | t => rfl
  | nd v lo hi ihlo ihhi =>
    simp only [bnot, evalB, ihlo, ihhi]
    cases σ v <;> simp

/-- BDD negation is an involution. -/
theorem bnot_bnot : ∀ x, bnot (bnot x) = x := by
  intro x
  induction x with
  | f => rfl
  | t => rfl
  | nd v lo hi ihlo ihhi => simp only [bnot, ihlo, ihhi]

/-- Negation keeps the ordering bound. -/
theorem bnot_ord : ∀ (x : B) (n : Nat), OrdB n x → OrdB n (bnot x) := by
  intro x
  induction x with
  | f => intro n _; trivial
  | t => intro n _; trivial
  | nd v lo hi ihlo ihhi =>
    intro n hx
    obtain ⟨h1, h2, h3⟩ := hx
    exact ⟨h1, ihlo _ h2, ihhi _ h3⟩

/-- Negation keeps reducedness. -/
theorem bnot_red : ∀ {x : B}, RedB x → RedB (bnot x) := by
  intro x
  induction x with
  | f => intro _; trivial
  | t => intro _; trivial
  | nd v lo hi ihlo ihhi =>
    intro hx
    obtain ⟨h1, h2, h3⟩ := hx
    refine ⟨fun he => h1 ?_, ihlo h2, ihhi h3⟩
    have := congrArg bnot he
    rwa [bnot_bnot, bnot_bnot] at this

/-- Negation keeps the variable bound. -/
theorem bnot_vars {N : Nat} : ∀ {x : B}, varsLt N x → varsLt N (bnot x) := by
  intro x
  induction x with
  | f => intro _; trivial
  | t => intro _; trivial
  | nd v lo hi ihlo ihhi =>
    intro hx
    obtain ⟨h1, h2, h3⟩ := hx
    exact ⟨h1, ihlo h2, ihhi h3⟩

/-- Semantics of the conjunction worker. -/
theorem bandAux_sem (σ : Nat → Bool) (bl bh : B → B) (v1 : Nat) (lo1 hi1 : B)
    (hbl : ∀ z, evalB σ (bl z) = (evalB σ lo1 && evalB σ z))
    (hbh : ∀ z, evalB σ (bh z) = (evalB σ hi1 && evalB σ z)) :
    ∀ y, evalB σ (bandAux bl bh v1 lo1 hi1 y) =
      (evalB σ (B.nd v1 lo1 hi1) && evalB σ y) := by
  intro y
  induction y with
  | f => simp [bandAux, evalB]
  | t => simp [bandAux, evalB]
  | nd v2 lo2 hi2 ihlo ihhi =>
    simp only [bandAux]
    split_ifs with h1 h2
    · subst h1
      rw [mkB_sem, hbl, hbh]
      simp only [evalB]
      cases σ v1 <;> simp
    · rw [mkB_sem, hbl, hbh]
      simp only [evalB]
      cases σ v1 <;> simp
    · rw [mkB_sem, ihlo, ihhi]
      simp only [evalB]
      cases σ v2 <;> simp

/-- Semantics of BDD conjunction. -/
theorem band_sem (σ : Nat → Bool) : ∀ x y,
    evalB σ (band x y) = (evalB σ x && evalB σ y) := by
  intro x
  induction x with
  | f => intro y; simp [band, evalB]
  | t => intro y; simp [band, evalB]
  | nd v1 lo1 hi1 ihlo ihhi =>
    intro y
    exact bandAux_sem σ (band lo1) (band hi1) v1 lo1 hi1 ihlo ihhi y

/-- Semantics of the disjunction worker. -/
theorem borAux_sem (σ : Nat → Bool) (bl bh : B → B) (v1 : Nat) (lo1 hi1 : B)
    (hbl : ∀ z, evalB σ (bl z) = (evalB σ lo1 || evalB σ z))
    (hbh : ∀ z, evalB σ (bh z) = (evalB σ hi1 || evalB σ z)) :
    ∀ y, evalB σ (borAux bl bh v1 lo1 hi1 y) =
      (evalB σ (B.nd v1 lo1 hi1) || evalB σ y) := by
  intro y
  induction y with
  | f => simp [borAux, evalB]
  | t => simp [borAux, evalB]
  | nd v2 lo2 hi2 ihlo ihhi =>
    simp only [borAux]
    split_ifs with h1 h2
    · subst h1
      rw [mkB_sem, hbl, hbh]
      simp only [evalB]
      cases σ v1 <;> simp
    · rw [mkB_sem, hbl, hbh]
      simp only [evalB]
      cases σ v1 <;> simp
    · rw [mkB_sem, ihlo, ihhi]
      simp only [evalB]
      cases σ v2 <;> simp

/-- Semantics of BDD disjunction. -/
theorem bor_sem (σ : Nat → Bool) : ∀ x y,
    evalB σ (bor x y) = (evalB σ x || evalB σ y) := by
  intro x
  induction x with
  | f => intro y; simp [bor, evalB]
  | t => intro y; simp [bor, evalB]
  | nd v1 lo1 hi1 ihlo ihhi =>
    intro y
    exact borAux_sem σ (bor lo1) (bor hi1) v1 lo1 hi1 ihlo ihhi y

/-- Disjunction with the false BDD is the identity, structurally. -/
theorem bor_false_right : ∀ x, bor x B.f = x := by
  intro x
  cases x <;> rfl

/-- The BDD of a signed cover variable denotes that signed variable. -/
theorem litB_sem (σ : Nat → Bool) (w : Nat) : evalB σ (litB w) = zvarSem σ w := by
  unfold litB zvarSem
  split_ifs with h <;> simp only [evalB] <;> cases σ (w / 2) <;> simp

/-- The conjunction worker keeps ordering and reducedness. -/
theorem bandAux_inv (bl bh : B → B) (v1 : Nat) (lo1 hi1 : B)
    (hlo : OrdB (v1 + 1) lo1) (hhi : OrdB (v1 + 1) hi1)
    (hrlo : RedB lo1) (hrhi : RedB hi1) (hne : lo1 ≠ hi1)
    (hbl : ∀ z, OrdB (v1 + 1) z → RedB z → OrdB (v1 + 1) (bl z) ∧ RedB (bl z))
    (hbh : ∀ z, OrdB (v1 + 1) z → RedB z → OrdB (v1 + 1) (bh z) ∧ RedB (bh z)) :
    ∀ (y : B) (m : Nat), m ≤ v1 → OrdB m y → RedB y →
      OrdB m (bandAux bl bh v1 lo1 hi1 y) ∧ RedB (bandAux bl bh v1 lo1 hi1 y) := by
  intro y
  induction y with
  | f => intro m _ _ _; exact ⟨trivial, trivial⟩
  | t => intro m hm _ _; exact ⟨⟨hm, hlo, hhi⟩, hne, hrlo, hrhi⟩
  | nd v2 lo2 hi2 ihlo ihhi =>
    intro m hm hy hry
    obtain ⟨h1, h2, h3⟩ := hy
    obtain ⟨r1, r2, r3⟩ := hry
    simp only [bandAux]
    split_ifs with he hlt
    · subst he
      obtain ⟨ol, rl⟩ := hbl lo2 h2 r2
      obtain ⟨oh, rh⟩ := hbh hi2 h3 r3
      exact ⟨mkB_ord hm ol oh, mkB_red rl rh⟩
    · obtain ⟨ol, rl⟩ := hbl (B.nd v2 lo2 hi2) ⟨by omega, h2, h3⟩ ⟨r1, r2, r3⟩
      obtain ⟨oh, rh⟩ := hbh (B.nd v2 lo2 hi2) ⟨by omega, h2, h3⟩ ⟨r1, r2, r3⟩
      exact ⟨mkB_ord hm ol oh, mkB_red rl rh⟩
    · obtain ⟨ol, rl⟩ := ihlo (v2 + 1) (by omega) h2 r2
      obtain ⟨oh, rh⟩ := ihhi (v2 + 1) (by omega) h3 r3
      exact ⟨mkB_ord h1 ol oh, mkB_red rl rh⟩

/-- Conjunction keeps ordering and reducedness. -/
theorem band_inv : ∀ (x : B) (n : Nat) (y : B), OrdB n x → OrdB n y →
    RedB x → RedB y → OrdB n (band x y) ∧ RedB (band x y) := by
  intro x
  induction x with
  | f => intro n y _ _ _ _; exact ⟨trivial, trivial⟩
  | t => intro n y _ hy _ hry; exact ⟨hy, hry⟩
  | nd v1 lo1 hi1 ihlo ihhi =>
    intro n y hx hy hrx hry
    obtain ⟨h1, h2, h3⟩ := hx
    obtain ⟨r1, r2, r3⟩ := hrx
    exact bandAux_inv (band lo1) (band hi1) v1 lo1 hi1 h2 h3 r2 r3 r1
      (fun z hz hrz => ihlo (v1 + 1) z h2 hz r2 hrz)
      (fun z hz hrz => ihhi (v1 + 1) z h3 hz r3 hrz)
      y n h1 hy hry

/-- The disjunction worker keeps ordering and reducedness. -/
theorem borAux_inv (bl bh : B → B) (v1 : Nat) (lo1 hi1 : B)
    (hlo : OrdB (v1 + 1) lo1) (hhi : OrdB (v1 + 1) hi1)
    (hrlo : RedB lo1) (hrhi : RedB hi1) (hne : lo1 ≠ hi1)
    (hbl : ∀ z, OrdB (v1 + 1) z → RedB z → OrdB (v1 + 1) (bl z) ∧ RedB (bl z))
    (hbh : ∀ z, OrdB (v1 + 1) z → RedB z → OrdB (v1 + 1) (bh z) ∧ RedB (bh z)) :
    ∀ (y : B) (m : Nat), m ≤ v1 → OrdB m y → RedB y →
      OrdB m (borAux bl bh v1 lo1 hi1 y) ∧ RedB (borAux bl bh v1 lo1 hi1 y) := by
  intro y
  induction y with
  | t => intro m _ _ _; exact ⟨trivial, trivial⟩
  | f => intro m hm _ _; exact ⟨⟨hm, hlo, hhi⟩, hne, hrlo, hrhi⟩
  | nd v2 lo2 hi2 ihlo ihhi =>
    intro m hm hy hry
    obtain ⟨h1, h2, h3⟩ := hy
    obtain ⟨r1, r2, r3⟩ := hry
    simp only [borAux]
    split_ifs with he hlt
    · subst he
      obtain ⟨ol, rl⟩ := hbl lo2 h2 r2
      obtain ⟨oh, rh⟩ := hbh hi2 h3 r3
      exact ⟨mkB_ord hm ol oh, mkB_red rl rh⟩
    · obtain ⟨ol, rl⟩ := hbl (B.nd v2 lo2 hi2) ⟨by omega, h2, h3⟩ ⟨r1, r2, r3⟩
      obtain ⟨oh, rh⟩ := hbh (B.nd v2 lo2 hi2) ⟨by omega, h2, h3⟩ ⟨r1, r2, r3⟩
      exact ⟨mkB_ord hm ol oh, mkB_red rl rh⟩
    · obtain ⟨ol, rl⟩ := ihlo (v2 + 1) (by omega) h2 r2
      obtain ⟨oh, rh⟩ := ihhi (v2 + 1) (by omega) h3 r3
      exact ⟨mkB_ord h1 ol oh, mkB_red rl rh⟩

/-- Disjunction keeps ordering and reducedness. -/
theorem bor_inv : ∀ (x : B) (n : Nat) (y : B), OrdB n x → OrdB n y →
    RedB x → RedB y → OrdB n (bor x y) ∧ RedB (bor x y) := by
  intro x
  induction x with
  | t => intro n y _ _ _ _; exact ⟨trivial, trivial⟩
  | f => intro n y _ hy _ hry; exact ⟨hy, hry⟩
  | nd v1 lo1 hi1 ihlo ihhi =>
    intro n y hx hy hrx hry
    obtain ⟨h1, h2, h3⟩ := hx
    obtain ⟨r1, r2, r3⟩ := hrx
    exact borAux_inv (bor lo1) (bor hi1) v1 lo1 hi1 h2 h3 r2 r3 r1
      (fun z hz hrz => ihlo (v1 + 1) z h2 hz r2 hrz)
      (fun z hz hrz => ihhi (v1 + 1) z h3 hz r3 hrz)
      y n h1 hy hry

/-- The conjunction worker keeps the variable bound. -/
theorem bandAux_vars (N : Nat) (bl bh : B → B) (v1 : Nat) (lo1 hi1 : B)
    (hv1 : v1 < N) (hlo : varsLt N lo1) (hhi : varsLt N hi1)
    (hbl : ∀ z, varsLt N z → varsLt N (bl z))
    (hbh : ∀ z, varsLt N z → varsLt N (bh z)) :
    ∀ y, varsLt N y → varsLt N (bandAux bl bh v1 lo1 hi1 y) := by
  intro y
  induction y with
  | f => intro _; trivial
  | t => intro _; exact ⟨hv1, hlo, hhi⟩
  | nd v2 lo2 hi2 ihlo ihhi =>
    intro hy
    obtain ⟨h1, h2, h3⟩ := hy
    simp only [bandAux]
    split_ifs with he hlt
    · exact mkB_vars hv1 (hbl lo2 h2) (hbh hi2 h3)
    · exact mkB_vars hv1 (hbl (B.nd v2 lo2 hi2) ⟨h1, h2, h3⟩)
        (hbh (B.nd v2 lo2 hi2) ⟨h1, h2, h3⟩)
    · exact mkB_vars h1 (ihlo h2) (ihhi h3)

/-- Conjunction keeps the variable bound. -/
theorem band_vars (N : Nat) : ∀ (x y : B), varsLt N x → varsLt N y →
    varsLt N (band x y) := by
  intro x
  induction x with
  | f => intro y _ _; trivial
  | t => intro y _ hy; exact hy
  | nd v1 lo1 hi1 ihlo ihhi =>
    intro y hx hy
    obtain ⟨h1, h2, h3⟩ := hx
    exact bandAux_vars N (band lo1) (band hi1) v1 lo1 hi1 h1 h2 h3
      (fun z hz => ihlo z h2 hz) (fun z hz => ihhi z h3 hz) y hy

/-- The disjunction worker keeps the variable bound. -/
theorem borAux_vars (N : Nat) (bl bh : B → B) (v1 : Nat) (lo1 hi1 : B)
    (hv1 : v1 < N) (hlo : varsLt N lo1) (hhi : varsLt N hi1)
    (hbl : ∀ z, varsLt N z → varsLt N (bl z))
    (hbh : ∀ z, varsLt N z → varsLt N (bh z)) :
    ∀ y, varsLt N y → varsLt N (borAux bl bh v1 lo1 hi1 y) := by
  intro y
  induction y with
  | t => intro _; trivial
  | f => intro _; exact ⟨hv1, hlo, hhi⟩
  | nd v2 lo2 hi2 ihlo ihhi =>
    intro hy
    obtain ⟨h1, h2, h3⟩ := hy
    simp only [borAux]
    split_ifs with he hlt
    · exact mkB_vars hv1 (hbl lo2 h2) (hbh hi2 h3)
    · exact mkB_vars hv1 (hbl (B.nd v2 lo2 hi2) ⟨h1, h2, h3⟩)
        (hbh (B.nd v2 lo2 hi2) ⟨h1, h2, h3⟩)
    · exact mkB_vars h1 (ihlo h2) (ihhi h3)

/-- Disjunction keeps the variable bound. -/
theorem bor_vars (N : Nat) : ∀ (x y : B), varsLt N x → varsLt N y →
    varsLt N (bor x y) := by
  intro x
  induction x with
  | t => intro y _ _; trivial
  | f => intro y _ hy; exact hy
  | nd v1 lo1 hi1 ihlo ihhi =>
    intro y hx hy
    obtain ⟨h1, h2, h3⟩ := hx
    exact borAux_vars N (bor lo1) (bor hi1) v1 lo1 hi1 h1 h2 h3
      (fun z hz => ihlo z h2 hz) (fun z hz => ihhi z h3 hz) y hy

/-- Evaluating a node at an assignment updated at its own variable selects the
corresponding child under the unmodified assignment. -/
theorem evalB_upd_node (σ : Nat → Bool) (v : Nat) (b : Bool) (lo hi : B)
    (hlo : OrdB (v + 1) lo) (hhi : OrdB (v + 1) hi) :
    evalB (updF σ v b) (B.nd v lo hi) = if b then evalB σ hi else evalB σ lo := by
  simp only [evalB, updF, if_pos rfl]
  cases b
  · simp only [Bool.false_eq_true, if_false]
    exact evalB_indep lo (v + 1) hlo v (by omega) σ false
  · simp only [if_true]
    exact evalB_indep hi (v + 1) hhi v (by omega) σ true

/-- Canonicity of reduced ordered BDDs, by bounded height: equal Boolean
functions force equal structure. -/
theorem canonB : ∀ (h : Nat) (x y : B) (n : Nat),
    max (heightB x) (heightB y) ≤ h → OrdB n x → OrdB n y → RedB x → RedB y →
    (∀ σ, evalB σ x = evalB σ y) → x = y := by
  intro h
  induction h with
  | zero =>
    intro x y n hh _ _ _ _ hsem
    cases x with
    | f =>
      cases y with
      | f => rfl
      | t => exact absurd (hsem (fun _ => false)) (by simp [evalB])
      | nd v lo hi => simp [heightB] at hh
    | t =>
      cases y with
      | f => exact absurd (hsem (fun _ => false)) (by simp [evalB])
      | t => rfl
      | nd v lo hi => simp [heightB] at hh
    | nd v lo hi => simp [heightB] at hh
  | succ h ih =>
    intro x y n hh hox hoy hrx hry hsem
    have key : ∀ (c : Bool) (v : Nat) (lo hi : B), heightB (B.nd v lo hi) ≤ h + 1 →
        OrdB (v + 1) lo → OrdB (v + 1) hi → RedB (B.nd v lo hi) →
        (∀ σ, evalB σ (B.nd v lo hi) = c) → False := by
      intro c v lo hi hht o2 o3 hr hc
      obtain ⟨r1, r2, r3⟩ := hr
      have hhlo : max (heightB lo) (heightB (if c then B.t else B.f)) ≤ h := by
        simp only [heightB] at hht
        cases c <;> simp [heightB] <;> omega
      have hhhi : max (heightB hi) (heightB (if c then B.t else B.f)) ≤ h := by
        simp only [heightB] at hht
        cases c <;> simp [heightB] <;> omega
      have hcsem : ∀ σ, evalB σ (if c then B.t else B.f) = c := by
        intro σ
        cases c <;> simp [evalB]
      have hlo_c : ∀ σ, evalB σ lo = evalB σ (if c then B.t else B.f) := by
        intro σ
        have h0 := hc (updF σ v false)
        rw [evalB_upd_node σ v false lo hi o2 o3] at h0
        simp only [Bool.false_eq_true, if_false] at h0
        rw [h0, hcsem σ]
      have hhi_c : ∀ σ, evalB σ hi = evalB σ (if c then B.t else B.f) := by
        intro σ
        have h0 := hc (updF σ v true)
        rw [evalB_upd_node σ v true lo hi o2 o3] at h0
        simp only [if_true] at h0
        rw [h0, hcsem σ]
      have hcinv : OrdB (v + 1) (if c then B.t else B.f) ∧
          RedB (if c then B.t else B.f) := by
        cases c <;> exact ⟨trivial, trivial⟩
      have hlo_eq := ih lo (if c then B.t else B.f) (v + 1) hhlo o2 hcinv.1 r2
        hcinv.2 hlo_c
      have hhi_eq := ih hi (if c then B.t else B.f) (v + 1) hhhi o3 hcinv.1 r3
        hcinv.2 hhi_c
      exact r1 (hlo_eq.trans hhi_eq.symm)
    cases x with
    | f =>
      cases y with
      | f => rfl
      | t => exact absurd (hsem (fun _ => false)) (by simp [evalB])
      | nd v lo hi =>
        obtain ⟨o1, o2, o3⟩ := hoy
        exact absurd (fun σ => (hsem σ).symm)
          (fun hc => key false v lo hi (by simp at hh; omega) o2 o3 hry
            (by intro σ; rw [hc σ]; rfl))
    | t =>
      cases y with
      | f => exact absurd (hsem (fun _ => false)) (by simp [evalB])
      | t => rfl
      | nd v lo hi =>
        obtain ⟨o1, o2, o3⟩ := hoy
        exact absurd (fun σ => (hsem σ).symm)
          (fun hc => key true v lo hi (by simp at hh; omega) o2 o3 hry
            (by intro σ; rw [hc σ]; rfl))
    | nd v1 lo1 hi1 =>
      obtain ⟨ox1, ox2, ox3⟩ := hox
      obtain ⟨rx1, rx2, rx3⟩ := hrx
      cases y with
      | f =>
        exact absurd hsem
          (fun hc => key false v1 lo1 hi1 (by simp at hh; omega) ox2 ox3
            ⟨rx1, rx2, rx3⟩ (by intro σ; rw [hc σ]; rfl))
      | t =>
        exact absurd hsem
          (fun hc => key true v1 lo1 hi1 (by simp at hh; omega) ox2 ox3
            ⟨rx1, rx2, rx3⟩ (by intro σ; rw [hc σ]; rfl))
      | nd v2 lo2 hi2 =>
        obtain ⟨oy1, oy2, oy3⟩ := hoy
        obtain ⟨ry1, ry2, ry3⟩ := hry
        have hhx : heightB (B.nd v1 lo1 hi1) ≤ h + 1 := le_trans (le_max_left _ _) hh
        have hhy : heightB (B.nd v2 lo2 hi2) ≤ h + 1 := le_trans (le_max_right _ _) hh
        simp only [heightB] at hhx hhy
        rcases Nat.lt_trichotomy v1 v2 with hlt | heq | hgt
        · have hy1 : OrdB (v1 + 1) (B.nd v2 lo2 hi2) := ⟨by omega, oy2, oy3⟩
          have e1 : ∀ σ, evalB σ hi1 = evalB σ lo1 := by
            intro σ
            have ht := hsem (updF σ v1 true)
            have hf := hsem (updF σ v1 false)
            rw [evalB_upd_node σ v1 true lo1 hi1 ox2 ox3,
              evalB_indep (B.nd v2 lo2 hi2) (v1 + 1) hy1 v1 (by omega) σ true] at ht
            rw [evalB_upd_node σ v1 false lo1 hi1 ox2 ox3,
              evalB_indep (B.nd v2 lo2 hi2) (v1 + 1) hy1 v1 (by omega) σ false] at hf
            simp only [if_true, Bool.false_eq_true, if_false] at ht hf
            rw [ht, hf]
          have heq1 := ih hi1 lo1 (v1 + 1) (by omega) ox3 ox2 rx3 rx2 e1
          exact absurd heq1.symm rx1
        · subst heq
          have e_lo : ∀ σ, evalB σ lo1 = evalB σ lo2 := by
            intro σ
            have hf := hsem (updF σ v1 false)
            rw [evalB_upd_node σ v1 false lo1 hi1 ox2 ox3,
              evalB_upd_node σ v1 false lo2 hi2 oy2 oy3] at hf
            simpa using hf
          have e_hi : ∀ σ, evalB σ hi1 = evalB σ hi2 := by
            intro σ
            have ht := hsem (updF σ v1 true)
            rw [evalB_upd_node σ v1 true lo1 hi1 ox2 ox3,
              evalB_upd_node σ v1 true lo2 hi2 oy2 oy3] at ht
            simpa using ht
          have heq_lo := ih lo1 lo2 (v1 + 1) (by omega) ox2 oy2 rx2 ry2 e_lo
          have heq_hi := ih hi1 hi2 (v1 + 1) (by omega) ox3 oy3 rx3 ry3 e_hi
          rw [heq_lo, heq_hi]
        · have hx1 : OrdB (v2 + 1) (B.nd v1 lo1 hi1) := ⟨by omega, ox2, ox3⟩
          have e1 : ∀ σ, evalB σ hi2 = evalB σ lo2 := by
            intro σ
            have ht := hsem (updF σ v2 true)
            have hf := hsem (updF σ v2 false)
            rw [evalB_upd_node σ v2 true lo2 hi2 oy2 oy3,
              evalB_indep (B.nd v1 lo1 hi1) (v2 + 1) hx1 v2 (by omega) σ true] at ht
            rw [evalB_upd_node σ v2 false lo2 hi2 oy2 oy3,
              evalB_indep (B.nd v1 lo1 hi1) (v2 + 1) hx1 v2 (by omega) σ false] at hf
            simp only [if_true, Bool.false_eq_true, if_false] at ht hf
            rw [← ht, ← hf]
          have heq1 := ih hi2 lo2 (v2 + 1) (by omega) oy3 oy2 ry3 ry2 e1
          exact absurd heq1.symm ry1

/-- Canonicity of reduced ordered BDDs. -/
theorem canonB_eq (x y : B) (n : Nat) (hox : OrdB n x) (hoy : OrdB n y)
    (hrx : RedB x) (hry : RedB y) (hsem : ∀ σ, evalB σ x = evalB σ y) : x = y :=
  canonB (max (heightB x) (heightB y)) x y n (le_refl _) hox hoy hrx hry hsem

/-- Evaluation respects pointwise-equal assignments. -/
theorem evalB_congr {σ τ : Nat → Bool} (h : ∀ w, σ w = τ w) :
    ∀ x, evalB σ x = evalB τ x := by
  intro x
  induction x with
  | f => rfl
  | t => rfl
  | nd v lo hi ihlo ihhi => simp only [evalB, h v, ihlo, ihhi]

/-- The even cover variable `2v` reads variable `v` positively. -/
theorem zvar_even (σ : Nat → Bool) (v : Nat) : zvarSem σ (2 * v) = σ v := by
  unfold zvarSem
  rw [if_neg (by omega)]
  exact congrArg σ (by omega)

/-- The odd cover variable `2v+1` reads variable `v` negatively. -/
theorem zvar_odd (σ : Nat → Bool) (v : Nat) : zvarSem σ (2 * v + 1) = ! σ v := by
  unfold zvarSem
  rw [if_pos (by omega)]
  have h : (2 * v + 1) / 2 = v := by omega
  rw [h]

/-- A BDD with an empty variable range is a terminal. -/
theorem terminalB {n N : Nat} {x : B} (ho : OrdB n x) (hv : varsLt N x)
    (hNn : N ≤ n) : x = B.f ∨ x = B.t := by
  cases x with
  | f => exact Or.inl rfl
  | t => exact Or.inr rfl
  | nd v lo hi =>
    obtain ⟨h1, _, _⟩ := ho
    obtain ⟨h2, _, _⟩ := hv
    omega

/-- The negative cofactor raises the ordering bound. -/
theorem cof0_ord {v : Nat} : ∀ {x : B}, OrdB v x → OrdB (v + 1) (cof0 v x) := by
  intro x hx
  cases x with
  | f => trivial
  | t => trivial
  | nd w lo hi =>
    obtain ⟨h1, h2, h3⟩ := hx
    unfold cof0
    dsimp only
    split_ifs with h
    · subst h
      exact h2
    · exact ⟨by omega, h2, h3⟩

/-- The positive cofactor raises the ordering bound. -/
theorem cof1_ord {v : Nat} : ∀ {x : B}, OrdB v x → OrdB (v + 1) (cof1 v x) := by
  intro x hx
  cases x with
  | f => trivial
  | t => trivial
  | nd w lo hi =>
    obtain ⟨h1, h2, h3⟩ := hx
    unfold cof1
    dsimp only
    split_ifs with h
    · subst h
      exact h3
    · exact ⟨by omega, h2, h3⟩

/-- The negative cofactor keeps reducedness. -/
theorem cof0_red {v : Nat} : ∀ {x : B}, RedB x → RedB (cof0 v x) := by
  intro x hx
  cases x with
  | f => trivial
  | t => trivial
  | nd w lo hi =>
    obtain ⟨h1, h2, h3⟩ := hx
    unfold cof0
    dsimp only
    split_ifs with h
    · exact h2
    · exact ⟨h1, h2, h3⟩

/-- The positive cofactor keeps reducedness. -/
theorem cof1_red {v : Nat} : ∀ {x : B}, RedB x → RedB (cof1 v x) := by
  intro x hx
  cases x with
  | f => trivial
  | t => trivial
  | nd w lo hi =>
    obtain ⟨h1, h2, h3⟩ := hx
    unfold cof1
    dsimp only
    split_ifs with h
    · exact h3
    · exact ⟨h1, h2, h3⟩

/-- The negative cofactor keeps the variable bound. -/
theorem cof0_vars {N v : Nat} : ∀ {x : B}, varsLt N x → varsLt N (cof0 v x) := by
  intro x hx
  cases x with
  | f => trivial
  | t => trivial
  | nd w lo hi =>
    obtain ⟨h1, h2, h3⟩ := hx
    unfold cof0
    dsimp only
    split_ifs with h
    · exact h2
    · exact ⟨h1, h2, h3⟩

/-- The positive cofactor keeps the variable bound. -/
theorem cof1_vars {N v : Nat} : ∀ {x : B}, varsLt N x → varsLt N (cof1 v x) := by
  intro x hx
  cases x with
  | f => trivial
  | t => trivial
  | nd w lo hi =>
    obtain ⟨h1, h2, h3⟩ := hx
    unfold cof1
    dsimp only
    split_ifs with h
    · exact h3
    · exact ⟨h1, h2, h3⟩

/-- Semantics of the negative cofactor. -/
theorem cof0_sem (σ : Nat → Bool) {v : Nat} : ∀ {x : B}, OrdB v x →
    evalB σ (cof0 v x) = evalB (updF σ v false) x := by
  intro x hx
  cases x with
  | f => rfl
  | t => rfl
  | nd w lo hi =>
    obtain ⟨h1, h2, h3⟩ := hx
    unfold cof0
    dsimp only
    split_ifs with h
    · subst h
      rw [evalB_upd_node σ w false lo hi h2 h3]
      simp
    · rw [evalB_indep (B.nd w lo hi) (v + 1) ⟨by omega, h2, h3⟩ v (by omega) σ false]

/-- Semantics of the positive cofactor. -/
theorem cof1_sem (σ : Nat → Bool) {v : Nat} : ∀ {x : B}, OrdB v x →
    evalB σ (cof1 v x) = evalB (updF σ v true) x := by
  intro x hx
  cases x with
  | f => rfl
  | t => rfl
  | nd w lo hi =>
    obtain ⟨h1, h2, h3⟩ := hx
    unfold cof1
    dsimp only
    split_ifs with h
    · subst h
      rw [evalB_upd_node σ w true lo hi h2 h3]
      simp
    · rw [evalB_indep (B.nd w lo hi) (v + 1) ⟨by omega, h2, h3⟩ v (by omega) σ true]

/-- A reduced ordered BDD other than the false terminal is satisfiable. -/
theorem evalB_ne_false (x : B) (n : Nat) (ho : OrdB n x) (hr : RedB x)
    (hx : x ≠ B.f) : ∃ σ, evalB σ x = true := by
  by_contra h
  push_neg at h
  refine hx (canonB_eq x B.f n ho trivial hr trivial fun σ => ?_)
  have hσ := h σ
  cases he : evalB σ x
  · rfl
  · exact absurd he hσ

/-- `covEval` runs through the zero-suppressed constructor. -/
theorem mkZ_covEval (σ : Nat → Bool) (w : Nat) (lo hi : Zdd) :
    covEval σ (mkZ w lo hi) = ((zvarSem σ w && covEval σ hi) || covEval σ lo) := by
  unfold mkZ
  split_ifs with h
  · rw [h]
    simp [covEval]
  · rfl

/-- `zdd_cover_to_bdd` denotes the sum-of-products function of the cover. -/
theorem zdd_cover_to_bdd_sem (σ : Nat → Bool) :
    ∀ c, evalB σ (zdd_cover_to_bdd c) = covEval σ c := by
  intro c
  induction c with
  | bot => rfl
  | top => rfl
  | node w lo hi ihlo ihhi =>
    simp only [zdd_cover_to_bdd, covEval, bor_sem, band_sem, litB_sem, ihlo, ihhi]

/-- `zdd_cover_to_bdd` builds a reduced ordered BDD. -/
theorem zdd_cover_to_bdd_inv :
    ∀ c, OrdB 0 (zdd_cover_to_bdd c) ∧ RedB (zdd_cover_to_bdd c) := by
  intro c
  induction c with
  | bot => exact ⟨trivial, trivial⟩
  | top => exact ⟨trivial, trivial⟩
  | node w lo hi ihlo ihhi =>
    have hlit : OrdB 0 (litB w) ∧ RedB (litB w) := by
      unfold litB
      split_ifs with h
      · exact ⟨⟨Nat.zero_le _, trivial, trivial⟩, by decide, trivial, trivial⟩
      · exact ⟨⟨Nat.zero_le _, trivial, trivial⟩, by decide, trivial, trivial⟩
    have hb := band_inv (litB w) 0 (zdd_cover_to_bdd hi) hlit.1 ihhi.1 hlit.2 ihhi.2
    exact bor_inv _ 0 _ hb.1 ihlo.1 hb.2 ihlo.2

/-- The inductive step of the ISOP soundness argument, over abstract cofactors
and sub-results: the assembled cover and BDD satisfy the sandwich, denote the
same function, and stay reduced, ordered and bounded. -/
theorem isop_step_core (v n N : Nat) (L U L0 L1 U0 U1 : B) (r1 r0 rd : Zdd × B)
    (hnv : n ≤ v) (hvN : v < N)
    (hsL0 : ∀ σ, evalB σ L0 = evalB (updF σ v false) L)
    (hsL1 : ∀ σ, evalB σ L1 = evalB (updF σ v true) L)
    (hsU0 : ∀ σ, evalB σ U0 = evalB (updF σ v false) U)
    (hsU1 : ∀ σ, evalB σ U1 = evalB (updF σ v true) U)
    (ha1 : ∀ σ, evalB σ r1.2 = covEval σ r1.1)
    (hb1 : ∀ σ, (evalB σ L1 && ! evalB σ U0) = true → covEval σ r1.1 = true)
    (hc1 : ∀ σ, covEval σ r1.1 = true → evalB σ U1 = true)
    (ho1 : OrdB (v + 1) r1.2) (hr1 : RedB r1.2) (hv1 : varsLt N r1.2)
    (ha0 : ∀ σ, evalB σ r0.2 = covEval σ r0.1)
    (hb0 : ∀ σ, (evalB σ L0 && ! evalB σ U1) = true → covEval σ r0.1 = true)
    (hc0 : ∀ σ, covEval σ r0.1 = true → evalB σ U0 = true)
    (ho0 : OrdB (v + 1) r0.2) (hr0 : RedB r0.2) (hv0 : varsLt N r0.2)
    (had : ∀ σ, evalB σ rd.2 = covEval σ rd.1)
    (hbd : ∀ σ, ((evalB σ L0 && ! evalB σ r0.2) || (evalB σ L1 && ! evalB σ r1.2)) = true →
      covEval σ rd.1 = true)
    (hcd : ∀ σ, covEval σ rd.1 = true → (evalB σ U0 && evalB σ U1) = true)
    (hod : OrdB (v + 1) rd.2) (hrd : RedB rd.2) (hvd : varsLt N rd.2) :
    (∀ σ, evalB σ (bor (mkB v (bor r0.2 rd.2) (bor r1.2 rd.2)) B.f) =
      covEval σ (mkZ (2 * v) (mkZ (2 * v + 1) rd.1 r0.1) r1.1)) ∧
    (∀ σ, evalB σ L = true →
      covEval σ (mkZ (2 * v) (mkZ (2 * v + 1) rd.1 r0.1) r1.1) = true) ∧
    (∀ σ, covEval σ (mkZ (2 * v) (mkZ (2 * v + 1) rd.1 r0.1) r1.1) = true →
      evalB σ U = true) ∧
    OrdB n (bor (mkB v (bor r0.2 rd.2) (bor r1.2 rd.2)) B.f) ∧
    RedB (bor (mkB v (bor r0.2 rd.2) (bor r1.2 rd.2)) B.f) ∧
    varsLt N (bor (mkB v (bor r0.2 rd.2) (bor r1.2 rd.2)) B.f) := by
  have keyL : ∀ σ, evalB σ L = (if σ v then evalB σ L1 else evalB σ L0) := by
    intro σ
    cases hσ : σ v
    · simp only [Bool.false_eq_true, if_false]
      rw [hsL0 σ]
      refine evalB_congr (fun w => ?_) L
      unfold updF
      split_ifs with h
      · rw [h, hσ]
      · rfl
    · simp only [if_true]
      rw [hsL1 σ]
      refine evalB_congr (fun w => ?_) L
      unfold updF
      split_ifs with h
      · rw [h, hσ]
      · rfl
  have keyU : ∀ σ, evalB σ U = (if σ v then evalB σ U1 else evalB σ U0) := by
    intro σ
    cases hσ : σ v
    · simp only [Bool.false_eq_true, if_false]
      rw [hsU0 σ]
      refine evalB_congr (fun w => ?_) U
      unfold updF
      split_ifs with h
      · rw [h, hσ]
      · rfl
    · simp only [if_true]
      rw [hsU1 σ]
      refine evalB_congr (fun w => ?_) U
      unfold updF
      split_ifs with h
      · rw [h, hσ]
      · rfl
  refine ⟨?_, ?_, ?_, ?_, ?_, ?_⟩
  · intro σ
    rw [bor_false_right, mkB_sem, bor_sem, bor_sem, mkZ_covEval, mkZ_covEval,
      zvar_even, zvar_odd, ha1 σ, ha0 σ, had σ]
    cases σ v <;> simp
  · intro σ hL
    rw [mkZ_covEval, mkZ_covEval, zvar_even, zvar_odd]
    rw [keyL σ] at hL
    cases hσ : σ v
    · rw [hσ] at hL
      simp only [Bool.false_eq_true, if_false] at hL
      cases hr0e : evalB σ r0.2
      · have hcd' := hbd σ (by rw [hL, hr0e]; simp)
        rw [hcd']
        simp
      · have hc0' : covEval σ r0.1 = true := by rw [← ha0 σ]; exact hr0e
        rw [hc0']
        simp
    · rw [hσ] at hL
      simp only [if_true] at hL
      cases hr1e : evalB σ r1.2
      · have hcd' := hbd σ (by rw [hL, hr1e]; simp)
        rw [hcd']
        simp
      · have hc1' : covEval σ r1.1 = true := by rw [← ha1 σ]; exact hr1e
        rw [hc1']
        simp
  · intro σ hcov
    rw [mkZ_covEval, mkZ_covEval, zvar_even, zvar_odd] at hcov
    rw [keyU σ]
    cases hσ : σ v
    · rw [hσ] at hcov
      simp only [Bool.false_eq_true, if_false, Bool.false_and, Bool.not_false,
        Bool.true_and, Bool.false_or] at hcov ⊢
      rcases Bool.or_eq_true_iff.mp hcov with h1 | h1
      · exact hc0 σ h1
      · exact Bool.and_eq_true_iff.mp (hcd σ h1) |>.1
    · rw [hσ] at hcov
      simp only [if_true, Bool.true_and, Bool.not_true, Bool.false_and,
        Bool.false_or] at hcov ⊢
      rcases Bool.or_eq_true_iff.mp hcov with h1 | h1
      · exact hc1 σ h1
      · exact Bool.and_eq_true_iff.mp (hcd σ h1) |>.2
  · rw [bor_false_right]
    exact mkB_ord hnv (bor_inv _ _ _ ho0 hod hr0 hrd).1 (bor_inv _ _ _ ho1 hod hr1 hrd).1
  · rw [bor_false_right]
    exact mkB_red (bor_inv _ _ _ ho0 hod hr0 hrd).2 (bor_inv _ _ _ ho1 hod hr1 hrd).2
  · rw [bor_false_right]
    exact mkB_vars hvN (bor_vars N _ _ hv0 hvd) (bor_vars N _ _ hv1 hvd)

/-- Soundness of the modelled Minato ISOP with fuel covering the variable range:
the returned BDD denotes exactly the sum-of-products function of the returned
cover, that function is sandwiched between `L` and `U`, and the returned BDD is
again reduced, ordered and within the variable bound. -/
theorem isop_sound : ∀ (fuel : Nat) (L U : B) (n N : Nat),
    OrdB n L → OrdB n U → RedB L → RedB U → varsLt N L → varsLt N U →
    N ≤ n + fuel → (∀ σ, evalB σ L = true → evalB σ U = true) →
    (∀ σ, evalB σ (isop fuel L U).2 = covEval σ (isop fuel L U).1) ∧
    (∀ σ, evalB σ L = true → covEval σ (isop fuel L U).1 = true) ∧
    (∀ σ, covEval σ (isop fuel L U).1 = true → evalB σ U = true) ∧
    OrdB n (isop fuel L U).2 ∧ RedB (isop fuel L U).2 ∧
    varsLt N (isop fuel L U).2 := by
  intro fuel
  induction fuel with
  | zero =>
    intro L U n N hoL hoU hrL hrU hvL hvU hN himp
    by_cases hLf : L = B.f
    · subst hLf
      exact ⟨fun σ => rfl, fun σ h => Bool.noConfusion h,
        fun σ h => Bool.noConfusion h, trivial, trivial, trivial⟩
    by_cases hUt : U = B.t
    · subst hUt
      have hstep : isop 0 L B.t = (Zdd.top, B.t) := by
        unfold isop
        rw [if_neg hLf, if_pos rfl]
      rw [hstep]
      exact ⟨fun σ => rfl, fun σ _ => rfl, fun σ _ => rfl, trivial, trivial, trivial⟩
    rcases terminalB hoL hvL (by omega) with h | h
    · exact absurd h hLf
    · subst h
      exact absurd (canonB_eq U B.t n hoU trivial hrU trivial
        (fun σ => (himp σ rfl).trans rfl)) hUt
  | succ m ih =>
    intro L U n N hoL hoU hrL hrU hvL hvU hN himp
    by_cases hLf : L = B.f
    · subst hLf
      exact ⟨fun σ => rfl, fun σ h => Bool.noConfusion h,
        fun σ h => Bool.noConfusion h, trivial, trivial, trivial⟩
    by_cases hUt : U = B.t
    · subst hUt
      have hstep : isop (m + 1) L B.t = (Zdd.top, B.t) := by
        unfold isop
        rw [if_neg hLf, if_pos rfl]
      rw [hstep]
      exact ⟨fun σ => rfl, fun σ _ => rfl, fun σ _ => rfl, trivial, trivial, trivial⟩
    obtain ⟨σ0, hσ0⟩ := evalB_ne_false L n hoL hrL hLf
    have hUf : U ≠ B.f := by
      intro hUf
      subst hUf
      exact Bool.noConfusion (himp σ0 hσ0)
    have hLt : L ≠ B.t := by
      intro hLt
      subst hLt
      exact hUt (canonB_eq U B.t n hoU trivial hrU trivial
        (fun σ => (himp σ rfl).trans rfl))
    cases L with
    | f => exact absurd rfl hLf
    | t => exact absurd rfl hLt
    | nd a la ha' =>
      cases U with
      | f => exact absurd rfl hUf
      | t => exact absurd rfl hUt
      | nd b lb hb' =>
        obtain ⟨hoa, hola, hoha⟩ := hoL
        obtain ⟨hob, holb, hohb⟩ := hoU
        have hnm : n ≤ min a b := Nat.le_min.mpr ⟨hoa, hob⟩
        have hvL' := hvL
        obtain ⟨hva, hva2, hva3⟩ := hvL'
        have hvNm : min a b < N := by omega
        have hoLv : OrdB (min a b) (B.nd a la ha') :=
          ⟨Nat.min_le_left a b, hola, hoha⟩
        have hoUv : OrdB (min a b) (B.nd b lb hb') :=
          ⟨Nat.min_le_right a b, holb, hohb⟩
        have hL0o : OrdB (min a b + 1) (cof0 (min a b) (B.nd a la ha')) :=
          cof0_ord hoLv
        have hL1o : OrdB (min a b + 1) (cof1 (min a b) (B.nd a la ha')) :=
          cof1_ord hoLv
        have hU0o : OrdB (min a b + 1) (cof0 (min a b) (B.nd b lb hb')) :=
          cof0_ord hoUv
        have hU1o : OrdB (min a b + 1) (cof1 (min a b) (B.nd b lb hb')) :=
          cof1_ord hoUv
        have hL0r : RedB (cof0 (min a b) (B.nd a la ha')) := cof0_red hrL
        have hL1r : RedB (cof1 (min a b) (B.nd a la ha')) := cof1_red hrL
        have hU0r : RedB (cof0 (min a b) (B.nd b lb hb')) := cof0_red hrU
        have hU1r : RedB (cof1 (min a b) (B.nd b lb hb')) := cof1_red hrU
        have hL0v : varsLt N (cof0 (min a b) (B.nd a la ha')) := cof0_vars hvL
        have hL1v : varsLt N (cof1 (min a b) (B.nd a la ha')) := cof1_vars hvL
        have hU0v : varsLt N (cof0 (min a b) (B.nd b lb hb')) := cof0_vars hvU
        have hU1v : varsLt N (cof1 (min a b) (B.nd b lb hb')) := cof1_vars hvU
        have hA1 := band_inv _ _ _ hL1o (bnot_ord _ _ hU0o) hL1r (bnot_red hU0r)
        have hA1v := band_vars N _ _ hL1v (bnot_vars hU0v)
        have IH1 := ih _ _ (min a b + 1) N hA1.1 hU1o hA1.2 hU1r hA1v hU1v
          (by omega)
          (fun σ hσ => by
            rw [band_sem] at hσ
            rw [cof1_sem σ hoUv]
            exact himp _ (by
              rw [← cof1_sem σ hoLv]
              exact (Bool.and_eq_true_iff.mp hσ).1))
        have hA0 := band_inv _ _ _ hL0o (bnot_ord _ _ hU1o) hL0r (bnot_red hU1r)
        have hA0v := band_vars N _ _ hL0v (bnot_vars hU1v)
        have IH0 := ih _ _ (min a b + 1) N hA0.1 hU0o hA0.2 hU0r hA0v hU0v
          (by omega)
          (fun σ hσ => by
            rw [band_sem] at hσ
            rw [cof0_sem σ hoUv]
            exact himp _ (by
              rw [← cof0_sem σ hoLv]
              exact (Bool.and_eq_true_iff.mp hσ).1))
        have hB0 := band_inv _ _ _ hL0o (bnot_ord _ _ IH0.2.2.2.1) hL0r
          (bnot_red IH0.2.2.2.2.1)
        have hB1 := band_inv _ _ _ hL1o (bnot_ord _ _ IH1.2.2.2.1) hL1r
          (bnot_red IH1.2.2.2.2.1)
        have hLn := bor_inv _ _ _ hB0.1 hB1.1 hB0.2 hB1.2
        have hLnv := bor_vars N _ _
          (band_vars N _ _ hL0v (bnot_vars IH0.2.2.2.2.2))
          (band_vars N _ _ hL1v (bnot_vars IH1.2.2.2.2.2))
        have hUn := band_inv _ _ _ hU0o hU1o hU0r hU1r
        have hUnv := band_vars N _ _ hU0v hU1v
        have IHd := ih _ _ (min a b + 1) N hLn.1 hUn.1 hLn.2 hUn.2 hLnv hUnv
          (by omega)
          (fun σ hσ => by
            rw [bor_sem, band_sem, band_sem, bnot_sem, bnot_sem] at hσ
            rw [band_sem]
            rcases Bool.or_eq_true_iff.mp hσ with h1 | h1
            · obtain ⟨hL0t, hr0f⟩ := Bool.and_eq_true_iff.mp h1
              have hU0t : evalB σ (cof0 (min a b) (B.nd b lb hb')) = true := by
                rw [cof0_sem σ hoUv]
                exact himp _ (by rw [← cof0_sem σ hoLv]; exact hL0t)
              have hU1t : evalB σ (cof1 (min a b) (B.nd b lb hb')) = true := by
                cases hU1e : evalB σ (cof1 (min a b) (B.nd b lb hb'))
                · have hband : evalB σ (band (cof0 (min a b) (B.nd a la ha'))
                      (bnot (cof1 (min a b) (B.nd b lb hb')))) = true := by
                    rw [band_sem, bnot_sem, hL0t, hU1e]
                    rfl
                  have hcov0 := IH0.2.1 σ hband
                  rw [(IH0.1 σ).trans hcov0] at hr0f
                  exact Bool.noConfusion hr0f
                · rfl
              rw [hU0t, hU1t]
              rfl
            · obtain ⟨hL1t, hr1f⟩ := Bool.and_eq_true_iff.mp h1
              have hU1t : evalB σ (cof1 (min a b) (B.nd b lb hb')) = true := by
                rw [cof1_sem σ hoUv]
                exact himp _ (by rw [← cof1_sem σ hoLv]; exact hL1t)
              have hU0t : evalB σ (cof0 (min a b) (B.nd b lb hb')) = true := by
                cases hU0e : evalB σ (cof0 (min a b) (B.nd b lb hb'))
                · have hband : evalB σ (band (cof1 (min a b) (B.nd a la ha'))
                      (bnot (cof0 (min a b) (B.nd b lb hb')))) = true := by
                    rw [band_sem, bnot_sem, hL1t, hU0e]
                    rfl
                  have hcov1 := IH1.2.1 σ hband
                  rw [(IH1.1 σ).trans hcov1] at hr1f
                  exact Bool.noConfusion hr1f
                · rfl
              rw [hU0t, hU1t]
              rfl)
        exact isop_step_core (min a b) n N (B.nd a la ha') (B.nd b lb hb')
          _ _ _ _ _ _ _
          hnm hvNm
          (fun σ => cof0_sem σ hoLv) (fun σ => cof1_sem σ hoLv)
          (fun σ => cof0_sem σ hoUv) (fun σ => cof1_sem σ hoUv)
          IH1.1
          (fun σ h => IH1.2.1 σ (by rw [band_sem, bnot_sem]; exact h))
          IH1.2.2.1 IH1.2.2.2.1 IH1.2.2.2.2.1 IH1.2.2.2.2.2
          IH0.1
          (fun σ h => IH0.2.1 σ (by rw [band_sem, bnot_sem]; exact h))
          IH0.2.2.1 IH0.2.2.2.1 IH0.2.2.2.2.1 IH0.2.2.2.2.2
          IHd.1
          (fun σ h => IHd.2.1 σ
            (by rw [bor_sem, band_sem, band_sem, bnot_sem, bnot_sem]; exact h))
          (fun σ h => by
            have hu := IHd.2.2.1 σ h
            rw [band_sem] at hu
            exact hu)
          IHd.2.2.2.1 IHd.2.2.2.2.1 IHd.2.2.2.2.2

/-- C7: for every reduced ordered BDD `f` over variables below `N` (every BDD the
DD kernel hands to the ISOP path), `zdd_isop(f, f)` returns `f` itself as its
BDD result and the characteristic BDD of the computed cover equals `f`, so the
assertion-abort branch guarding the conversion is unreachable. -/
theorem C7_isop_roundtrip (N : Nat) (f : B) (hord : OrdB 0 f) (hred : RedB f)
    (hvars : varsLt N f) :
    (isop N f f).2 = f ∧ zdd_cover_to_bdd (isop N f f).1 = f := by
  obtain ⟨ha, hb, hc, ho, hr, hv⟩ := isop_sound N f f 0 N hord hord hred hred
    hvars hvars (by omega) (fun σ h => h)
  have hsem2 : ∀ σ, evalB σ (isop N f f).2 = evalB σ f := by
    intro σ
    rw [ha σ]
    cases hf : evalB σ f
    · cases hcov : covEval σ (isop N f f).1
      · rfl
      · have huc := hc σ hcov
        rw [hf] at huc
        exact Bool.noConfusion huc
    · rw [hb σ hf]
  have h2 : (isop N f f).2 = f := canonB_eq _ f 0 ho hord hr hred hsem2
  have hsem1 : ∀ σ, evalB σ (zdd_cover_to_bdd (isop N f f).1) = evalB σ f := by
    intro σ
    rw [zdd_cover_to_bdd_sem, ← ha σ, hsem2 σ]
  have h1 := canonB_eq (zdd_cover_to_bdd (isop N f f).1) f 0
    (zdd_cover_to_bdd_inv _).1 hord (zdd_cover_to_bdd_inv _).2 hred hsem1
  exact ⟨h2, h1⟩

/-- C7 (witness): the round-trip evaluated on the single-variable BDD. -/
theorem C7_witness :
    (isop 1 (B.nd 0 B.f B.t) (B.nd 0 B.f B.t)).2 = B.nd 0 B.f B.t ∧
    zdd_cover_to_bdd (isop 1 (B.nd 0 B.f B.t) (B.nd 0 B.f B.t)).1 =
      B.nd 0 B.f B.t :=
  C7_isop_roundtrip 1 (B.nd 0 B.f B.t) ⟨Nat.le_refl 0, trivial, trivial⟩
    ⟨by decide, trivial, trivial⟩ ⟨by decide, trivial, trivial⟩

end Knor
